import Mathlib

/-
Verification development for the static-analysis core of an eBPF verifier:
CFG construction and simplification (crab/cfg.hpp), the SplitDBM abstract
domain (crab/split_dbm.cpp) and the interleaved forward fixpoint iterator
(crab/fwd_analyzer.cpp).

Labels, variables and instructions are opaque identifiers; we model all of
them as natural numbers.  `std::set<label_t>` is modelled as a strictly
sorted `List Nat` (iteration order = ascending order, no duplicates) and
`std::map` as a strictly sorted association list.
-/

/-! ### Sorted-list sets (model of `std::set<label_t>`) -/

/-- `std::set::insert`: sorted insertion without duplication. -/
def sinsert (x : Nat) : List Nat → List Nat
  | [] => [x]
  | y :: ys => if x < y then x :: y :: ys else if x = y then y :: ys else y :: sinsert x ys

/-- `std::set::erase`: remove the element if present. -/
def serase (x : Nat) : List Nat → List Nat
  | [] => []
  | y :: ys => if x = y then ys else y :: serase x ys

/-! ### Sorted association lists (model of `std::map<label_t, _>`) -/

/-- `std::map::find`. -/
def alookup {α : Type} : List (Nat × α) → Nat → Option α
  | [], _ => none
  | (k, v) :: m, q => if q = k then some v else alookup m q

/-- The keys of the map, in iteration (ascending) order. -/
def akeys {α : Type} (m : List (Nat × α)) : List Nat := m.map (·.1)

/-- Modify the mapped value of a key in place (no-op when absent). -/
def aupdate {α : Type} (q : Nat) (f : α → α) : List (Nat × α) → List (Nat × α)
  | [] => []
  | (k, v) :: m => if q = k then (k, f v) :: m else (k, v) :: aupdate q f m

/-- `std::map::erase`. -/
def aerase {α : Type} (q : Nat) : List (Nat × α) → List (Nat × α)
  | [] => []
  | (k, v) :: m => if q = k then m else (k, v) :: aerase q m

/-- `std::map::emplace`: sorted insertion that keeps an existing binding. -/
def ainsert {α : Type} (q : Nat) (v : α) : List (Nat × α) → List (Nat × α)
  | [] => [(q, v)]
  | (k, w) :: m =>
    if q < k then (q, v) :: (k, w) :: m
    else if q = k then (k, w) :: m
    else (k, w) :: ainsert q v m

/-! ### CFG data model (crab/cfg.hpp) -/

/-- `basic_block_t`: the ordered statement list together with the predecessor
    and successor label sets (`m_ts`, `m_prev`, `m_next`).  The block's label
    is the key under which it is stored in the CFG map; instructions are
    opaque to the core and modelled as numbers. -/
structure basic_block_t where
  m_ts : List Nat
  m_prev : List Nat
  m_next : List Nat
deriving DecidableEq, Repr

/-- `cfg_t`: the entry and exit labels plus the label-to-block map. -/
structure cfg_t where
  m_entry : Nat
  m_exit : Nat
  m_blocks : List (Nat × basic_block_t)
deriving DecidableEq, Repr

def emptyBlock : basic_block_t := ⟨[], [], []⟩

/-- The `cfg_t(entry, exit)` constructor: emplace an empty block for the entry
    label, then one for the exit label (a single block when they coincide). -/
def mkCfg (en ex : Nat) : cfg_t :=
  { m_entry := en, m_exit := ex, m_blocks := ainsert ex emptyBlock (ainsert en emptyBlock []) }

def getBlock (c : cfg_t) (l : Nat) : Option basic_block_t := alookup c.m_blocks l

/-- `next_blocks_set` of the block labelled `l` (empty when absent; the source
    aborts on a missing label). -/
def nextOf (c : cfg_t) (l : Nat) : List Nat := ((getBlock c l).map (·.m_next)).getD []

/-- `prev_blocks_set` of the block labelled `l`. -/
def prevOf (c : cfg_t) (l : Nat) : List Nat := ((getBlock c l).map (·.m_prev)).getD []

/-- The statement list of the block labelled `l`. -/
def tsOf (c : cfg_t) (l : Nat) : List Nat := ((getBlock c l).map (·.m_ts)).getD []

def updNext (c : cfg_t) (l : Nat) (f : List Nat → List Nat) : cfg_t :=
  { c with m_blocks := aupdate l (fun b => { b with m_next := f b.m_next }) c.m_blocks }

def updPrev (c : cfg_t) (l : Nat) (f : List Nat → List Nat) : cfg_t :=
  { c with m_blocks := aupdate l (fun b => { b with m_prev := f b.m_prev }) c.m_blocks }

def updTs (c : cfg_t) (l : Nat) (f : List Nat → List Nat) : cfg_t :=
  { c with m_blocks := aupdate l (fun b => { b with m_ts := f b.m_ts }) c.m_blocks }

/-- `basic_block_t::operator>>`: add the CFG edge `a → b`
    (`a.m_next.insert(b)` and `b.m_prev.insert(a)`). -/
def connect (c : cfg_t) (a b : Nat) : cfg_t :=
  updPrev (updNext c a (sinsert b)) b (sinsert a)

/-- `basic_block_t::operator-=`: remove the CFG edge `a → b`. -/
def disconnect (c : cfg_t) (a b : Nat) : cfg_t :=
  updPrev (updNext c a (serase b)) b (serase a)

/-- `cfg_t::insert`: idempotent creation of an empty block. -/
def insertBlock (c : cfg_t) (l : Nat) : cfg_t :=
  { c with m_blocks := ainsert l emptyBlock c.m_blocks }

/-- The body of `cfg_t::remove` after its entry/exit guard: disconnect every
    incident edge whose far end is a different block, then erase the block.
    (The disconnections touching the sets of the removed block itself are
    dropped, as the block is erased immediately afterwards.) -/
def removeImpl (c : cfg_t) (l : Nat) : cfg_t :=
  let pr := (prevOf c l).filter (· ≠ l)
  let nx := (nextOf c l).filter (· ≠ l)
  let c1 := pr.foldl (fun acc id => updNext acc id (serase l)) c
  let c2 := nx.foldl (fun acc id => updPrev acc id (serase l)) c1
  { c2 with m_blocks := aerase l c2.m_blocks }

/-- `cfg_t::remove`.  Removing the entry or the exit label aborts in the
    source (`CRAB_ERROR`); we model the aborting case as leaving the CFG
    unchanged, and every claim about `remove` assumes it is not hit. -/
def removeBlock (c : cfg_t) (l : Nat) : cfg_t :=
  if l = c.m_entry ∨ l = c.m_exit then c else removeImpl c l

/-- `basic_block_t::move_back`: splice the statements of block `n` onto the
    end of block `b` (the moved-from vector is left empty). -/
def move_back (c : cfg_t) (b n : Nat) : cfg_t :=
  match getBlock c n with
  | none => c
  | some nb => updTs (updTs c b (· ++ nb.m_ts)) n (fun _ => [])

/-- The body of the inner `while` loop of `cfg_t::simplify`, merging the
    unique successor `n` into `b`: update the exit label if `n` was the exit,
    splice `n`'s statements onto `b`, disconnect `b → n`, rewire `b` to `n`'s
    successors, and remove `n`. -/
def mergeInto (c : cfg_t) (b n : Nat) : cfg_t :=
  match getBlock c n with
  | none => c
  | some nb =>
    removeBlock
      (nb.m_next.foldl (fun acc m => connect acc b m)
        (disconnect (move_back (if n = c.m_exit then { c with m_exit := b } else c) b n)
          b n)) n

/-- The inner `while` loop of `cfg_t::simplify`: while the block labelled
    `label` has exactly one successor `n` with `n ≠ label` and `n` has exactly
    one predecessor, erase `n` from the worklist and merge it into `label`. -/
def simplifyInner : Nat → cfg_t → Nat → List Nat → cfg_t × List Nat
  | 0, c, _, w => (c, w)
  | fuel + 1, c, label, w =>
    match getBlock c label with
    | none => (c, w)
    | some bb =>
      match bb.m_next with
      | [n] =>
        if n = label then (c, w)
        else
          match getBlock c n with
          | none => (c, w)
          | some nb =>
            if nb.m_prev.length ≠ 1 then (c, w)
            else simplifyInner fuel (mergeInto c label n) label (serase n w)
      | _ => (c, w)

/-- The outer worklist loop of `cfg_t::simplify`.  The worklist is a
    `std::set`, processed in ascending label order; a block with exactly one
    predecessor whose predecessor has exactly one successor is skipped (it
    will be merged when its parent is processed). -/
def simplifyOuter : Nat → cfg_t → List Nat → cfg_t
  | 0, c, _ => c
  | _ + 1, c, [] => c
  | fuel + 1, c, label :: w =>
    match getBlock c label with
    | none => simplifyOuter fuel c w
    | some bb =>
      let skip : Bool :=
        match bb.m_prev with
        | [p] =>
          match getBlock c p with
          | some pb => pb.m_next.length == 1
          | none => false
        | _ => false
      if skip then simplifyOuter fuel c w
      else
        let r := simplifyInner c.m_blocks.length c label w
        simplifyOuter fuel r.1 r.2

/-- `cfg_t::simplify`: merge maximal straight-line chains.  (The source's
    `simplify` performs only this merging; the reachability passes are the
    separate member functions modelled below.) -/
def cfg_t.simplify (c : cfg_t) : cfg_t :=
  simplifyOuter c.m_blocks.length c (akeys c.m_blocks)

/-! ### Reachability and the removal passes -/

/-- One saturation step: add the `nf`-successors of every member. -/
def grow (nf : Nat → List Nat) (s : List Nat) : List Nat :=
  ((s.map nf).flatten).foldl (fun acc x => sinsert x acc) s

def growN (nf : Nat → List Nat) : Nat → List Nat → List Nat
  | 0, s => s
  | n + 1, s => growN nf n (grow nf s)

/-- The visited set computed by `cfg_t::mark_alive_blocks(start)`: the set of
    labels reachable from `start` following `nf` (`next_nodes` of the forward
    CFG, or `prev_nodes` for the reversed view).  The source computes this set
    by a recursive depth-first search; we compute the same set by saturation,
    which reaches its fixpoint within `|blocks|` rounds. -/
def markAlive (c : cfg_t) (nf : Nat → List Nat) (start : Nat) : List Nat :=
  growN nf c.m_blocks.length [start]

/-- `cfg_t::remove_unreachable_blocks`: remove every block not reachable from
    the entry.  If the exit itself is unreachable the source aborts
    (`CRAB_ERROR "Exit block must be reachable"`); we model the aborting case
    as leaving the CFG unchanged. -/
def remove_unreachable_blocks (c : cfg_t) : cfg_t :=
  let alive := markAlive c (nextOf c) c.m_entry
  let dead := (akeys c.m_blocks).filter (fun l => ¬ l ∈ alive)
  if c.m_exit ∈ dead then c
  else dead.foldl removeBlock c

/-- `cfg_t::remove_useless_blocks`: remove every block from which the exit is
    unreachable.  Reachability is computed on the reversed CFG view, whose
    entry is `exit` and whose successor sets are the predecessor sets. -/
def remove_useless_blocks (c : cfg_t) : cfg_t :=
  let useful := markAlive c (prevOf c) c.m_exit
  if c.m_exit ∈ useful then
    ((akeys c.m_blocks).filter (fun l => ¬ l ∈ useful)).foldl removeBlock c
  else c

/-! ### CFG predicates -/

/-- The CFG symmetry invariant: for blocks `a`, `b` of the CFG,
    `b ∈ succs(a) ⇔ a ∈ preds(b)`. -/
def EdgeSym (c : cfg_t) : Prop :=
  ∀ a b, a ∈ akeys c.m_blocks → b ∈ akeys c.m_blocks →
    (b ∈ nextOf c a ↔ a ∈ prevOf c b)

/-- Structural well-formedness: the key list and every edge set are strictly
    sorted (the iteration order of `std::map` / `std::set`). -/
structure CfgWF (c : cfg_t) : Prop where
  keysSorted : (akeys c.m_blocks).Sorted (· < ·)
  prevSorted : ∀ l, (prevOf c l).Sorted (· < ·)
  nextSorted : ∀ l, (nextOf c l).Sorted (· < ·)

/-- Every successor/predecessor reference names a block of the CFG. -/
def CfgClosed (c : cfg_t) : Prop :=
  ∀ l, l ∈ akeys c.m_blocks →
    (∀ m ∈ nextOf c l, m ∈ akeys c.m_blocks) ∧ (∀ m ∈ prevOf c l, m ∈ akeys c.m_blocks)

/-- The edge relation of the CFG. -/
def cfgEdge (c : cfg_t) (a b : Nat) : Prop := b ∈ nextOf c a

/-- Reachability along CFG edges. -/
def Reaches (c : cfg_t) (a b : Nat) : Prop := Relation.ReflTransGen (cfgEdge c) a b

/-- The edge relation of the reversed CFG view. -/
def revEdge (c : cfg_t) (a b : Nat) : Prop := b ∈ prevOf c a

/-- Reachability in the reversed CFG view. -/
def RevReaches (c : cfg_t) (a b : Nat) : Prop := Relation.ReflTransGen (revEdge c) a b

/-- Executable check for `EdgeSym`. -/
def edgeSymB (c : cfg_t) : Bool :=
  (akeys c.m_blocks).all fun a => (akeys c.m_blocks).all fun b =>
    decide (b ∈ nextOf c a) == decide (a ∈ prevOf c b)

/-! ### Lookup lemmas for the CFG operations -/

/-! ### Characterizing `remove` -/

/-- The invariant bundle maintained by all CFG mutations: structural
    well-formedness, closedness of edge references, and CFG symmetry. -/
structure CfgInv (c : cfg_t) : Prop where
  wf : CfgWF c
  closed : CfgClosed c
  sym : EdgeSym c

/-! ### The saturation in `markAlive` computes exactly the reachable set -/

/-! ### The removal passes establish reachability -/

/-! ### Executable checks for the CFG predicates (used to discharge
     hypotheses on concrete CFGs) -/

def chainLt : List Nat → Bool
  | [] => true
  | [_] => true
  | x :: y :: r => decide (x < y) && chainLt (y :: r)

def cfgWFB (c : cfg_t) : Bool :=
  chainLt (akeys c.m_blocks) &&
  (akeys c.m_blocks).all (fun l => chainLt (prevOf c l) && chainLt (nextOf c l))

def cfgClosedB (c : cfg_t) : Bool :=
  (akeys c.m_blocks).all (fun l =>
    (nextOf c l).all (fun m => decide (m ∈ akeys c.m_blocks)) &&
    (prevOf c l).all (fun m => decide (m ∈ akeys c.m_blocks)))

def cfgInvB (c : cfg_t) : Bool := cfgWFB c && cfgClosedB c && edgeSymB c

/-! ### Preservation lemmas for connect / disconnect / insert / move_back -/

/-! ### `insert` preserves the invariants -/

/-! ### The merge step of `simplify` -/

instance (c : cfg_t) (a b : Nat) : Decidable (cfgEdge c a b) := by
  unfold cfgEdge
  exact inferInstance

/-- A two-block CFG: entry 0, exit 1, edge 0 → 1. -/
def twoCfg : cfg_t := connect (mkCfg 0 1) 0 1

/-- The C1 counterexample CFG: entry 0, exit 1, edge 0 → 1, plus an isolated
    extra block 2 (unreachable from the entry, cannot reach the exit). -/
def exCfgC1 : cfg_t := insertBlock twoCfg 2

/-- Spec seed scenario 1: labels 0, 1, 2 with edges 0 → 1 → 2, entry 0,
    exit 2, and one opaque instruction (10, 20, 30) in each block. -/
def chain3Cfg : cfg_t :=
  connect (connect
    (updTs (updTs (updTs (insertBlock (mkCfg 0 2) 1) 0 (fun ts => ts ++ [10]))
      1 (fun ts => ts ++ [20])) 2 (fun ts => ts ++ [30]))
    0 1) 1 2

/-! ### The interleaved forward fixpoint iterator (crab/fwd_analyzer.cpp) -/

/-- The abstract-domain operations of `ebpf_domain_t` as the iterator uses
    them.  The eBPF domain itself is an external collaborator of the analysis
    core (out of scope), so the iterator is parametric in it. -/
structure AbsDom (D : Type) where
  bot : D
  join : D → D → D
  widen : D → D → D
  meet : D → D → D
  narrow : D → D → D
  le : D → D → Bool
  setup_entry : D

/-- Modelled from the spec: a WTO component (crab/wto.hpp is not part of the
    sources); either a single vertex or a cycle of a head label with a nested
    component list. -/
inductive wto_component_t : Type where
  | vertex : Nat → wto_component_t
  | cycle : Nat → List wto_component_t → wto_component_t

mutual
/-- `member_component_visitor`: is `node` the head of this component or a
    member of its nested components? -/
def memberComponent (node : Nat) : wto_component_t → Bool
  | .vertex v => v == node
  | .cycle h body => h == node || memberComponentList node body

def memberComponentList (node : Nat) : List wto_component_t → Bool
  | [] => false
  | x :: xs => memberComponent node x || memberComponentList node xs
end

mutual
/-- Modelled from the spec: the chain of cycle heads (outermost first) that
    strictly enclose `node`, if `node` occurs in the component. -/
def nestingIn (node : Nat) (acc : List Nat) : wto_component_t → Option (List Nat)
  | .vertex v => if v = node then some acc else none
  | .cycle h body =>
    if h = node then some acc
    else nestingInList node (acc ++ [h]) body

def nestingInList (node : Nat) (acc : List Nat) : List wto_component_t → Option (List Nat)
  | [] => none
  | x :: xs =>
    match nestingIn node acc x with
    | some r => some r
    | none => nestingInList node acc xs
end

/-- Modelled from the spec: `wto_t::nesting(label)` — the chain of enclosing
    cycle heads, outermost first. -/
def nesting (wto : List wto_component_t) (node : Nat) : List Nat :=
  (nestingInList node [] wto).getD []

/-- Modelled from the spec: the strict order on nestings —
    `nesting(a) > nesting(b)` iff `b`'s chain is a strict prefix of `a`'s. -/
def nestingGT (n1 n2 : List Nat) : Bool := n2.isPrefixOf n1 && n1 != n2

/-- The iterator state: the two invariant tables `_pre`, `_post` and the
    `_skip` flag. -/
structure IState (D : Type) where
  pre : Nat → D
  post : Nat → D
  skip : Bool

/-- `set_pre`. -/
def set_pre {D : Type} (s : IState D) (label : Nat) (v : D) : IState D :=
  { s with pre := Function.update s.pre label v }

/-- `transform_to_post`: run the caller's transformer over the statements of
    the block in order, then store the result as the block's post-state. -/
def transform_to_post {D : Type} (τ : D → Nat → D) (c : cfg_t) (s : IState D)
    (label : Nat) (pre : D) : IState D :=
  { s with post := Function.update s.post label ((tsOf c label).foldl τ pre) }

/-- `join_all_prevs`: fold the domain join over the post-states of the
    predecessors, starting from bottom. -/
def join_all_prevs {D : Type} (dom : AbsDom D) (c : cfg_t) (s : IState D)
    (node : Nat) : D :=
  (prevOf c node).foldl (fun res p => dom.join res (s.post p)) dom.bot

/-- `_widening_delay{1}`: the number of iterations before widening triggers
    (a non-configurable constant of the iterator). -/
def wideningDelay : Nat := 1

/-- `extrapolate`: join while `iteration ≤ _widening_delay`, widen after. -/
def extrapolate {D : Type} (dom : AbsDom D) (iteration : Nat) (before after : D) : D :=
  if iteration ≤ wideningDelay then dom.join before after else dom.widen before after

/-- `refine`: meet on the first iteration, narrow after. -/
def refineStep {D : Type} (dom : AbsDom D) (iteration : Nat) (before after : D) : D :=
  if iteration == 1 then dom.meet before after else dom.narrow before after

mutual
/-- `operator()(wto_vertex_t&)` / `operator()(wto_cycle_t&)`, with explicit
    fuel bounding the two (unbounded in the source) iteration sequences. -/
def visitComponent {D : Type} (dom : AbsDom D) (τ : D → Nat → D) (c : cfg_t)
    (wto : List wto_component_t) : Nat → wto_component_t → IState D → IState D
  | 0, _, s => s
  | _ + 1, .vertex node, s =>
    let s1 := if s.skip && (node == c.m_entry) then { s with skip := false } else s
    if s1.skip then s1
    else
      let pre := if node = c.m_entry then s1.pre node else join_all_prevs dom c s1 node
      transform_to_post τ c (set_pre s1 node pre) node pre
  | fuel + 1, .cycle head body, s =>
    if s.skip then
      if memberComponent c.m_entry (.cycle head body) then
        decLoopDone dom τ c wto fuel head body
          (incLoop dom τ c wto fuel 1 head body ({ s with skip := false }.pre c.m_entry)
            { s with skip := false })
      else s
    else
      decLoopDone dom τ c wto fuel head body
        (incLoop dom τ c wto fuel 1 head body
          ((prevOf c head).foldl
            (fun res p =>
              if nestingGT (nesting wto p) (nesting wto head) then res
              else dom.join res (s.post p)) dom.bot) s)

/-- The decreasing sequence, fed with the state and `pre` value left by the
    increasing sequence. -/
def decLoopDone {D : Type} (dom : AbsDom D) (τ : D → Nat → D) (c : cfg_t)
    (wto : List wto_component_t) (fuel : Nat) (head : Nat)
    (body : List wto_component_t) (r : IState D × D) : IState D :=
  decLoop dom τ c wto fuel 1 head body r.2 r.1

/-- The increasing iteration sequence with widening (the first `for` loop of
    `operator()(wto_cycle_t&)`): returns the updated state together with the
    final `pre` value. -/
def incLoop {D : Type} (dom : AbsDom D) (τ : D → Nat → D) (c : cfg_t)
    (wto : List wto_component_t) :
    Nat → Nat → Nat → List wto_component_t → D → IState D → IState D × D
  | 0, _, _, _, pre, s => (s, pre)
  | fuel + 1, iteration, head, body, pre, s =>
    let s2 := transform_to_post τ c (set_pre s head pre) head pre
    let s3 := body.foldl (fun acc x => visitComponent dom τ c wto fuel x acc) s2
    let new_pre := join_all_prevs dom c s3 head
    if dom.le new_pre pre then (set_pre s3 head new_pre, new_pre)
    else incLoop dom τ c wto fuel (iteration + 1) head body
      (extrapolate dom iteration pre new_pre) s3

/-- The decreasing iteration sequence with narrowing (the second `for` loop
    of `operator()(wto_cycle_t&)`). -/
def decLoop {D : Type} (dom : AbsDom D) (τ : D → Nat → D) (c : cfg_t)
    (wto : List wto_component_t) :
    Nat → Nat → Nat → List wto_component_t → D → IState D → IState D
  | 0, _, _, _, _, s => s
  | fuel + 1, iteration, head, body, pre, s =>
    let s1 := transform_to_post τ c s head pre
    let s2 := body.foldl (fun acc x => visitComponent dom τ c wto fuel x acc) s1
    let new_pre := join_all_prevs dom c s2 head
    if dom.le pre new_pre then s2
    else decLoop dom τ c wto fuel (iteration + 1) head body
      (refineStep dom iteration pre new_pre)
      (set_pre s2 head (refineStep dom iteration pre new_pre))
end

/-- The iterator constructor plus `run_forward_analyzer`: initialize both
    tables to bottom, set `pre[entry] := setup_entry`, then visit the WTO
    components in order and return the two tables. -/
def run_forward_analyzer {D : Type} (dom : AbsDom D) (τ : D → Nat → D) (c : cfg_t)
    (wto : List wto_component_t) (fuel : Nat) : (Nat → D) × (Nat → D) :=
  let s0 : IState D :=
    { pre := Function.update (fun _ => dom.bot) c.m_entry dom.setup_entry,
      post := fun _ => dom.bot, skip := true }
  let s := wto.foldl (fun acc x => visitComponent dom τ c wto fuel x acc) s0
  (s.pre, s.post)

/-- A tiny concrete abstract domain over `Nat` (max as join), used to
    instantiate theorems about the iterator at concrete inputs. -/
def natDom : AbsDom Nat :=
  { bot := 0, join := Nat.max, widen := Nat.max, meet := Nat.min, narrow := Nat.min,
    le := fun a b => decide (a ≤ b), setup_entry := 1 }

/-! ### The SplitDBM domain (crab/split_dbm.cpp) -/

/-- Modelled from the spec: the weight type `Wt` is a fixed-width signed
    integral type ("large enough to hold coefficient × constant arithmetic");
    we take 64-bit bounds.  Weight arithmetic itself is modelled exactly over
    `Int`; only the conversions from `number_t` are overflow-checked, as in
    the source. -/
def wtMin : Int := -(2 ^ 63)

def wtMax : Int := 2 ^ 63 - 1

/-- Modelled from the spec: `convert_NtoW(n, overflow)` — the overflow flag
    is set exactly when `n` does not fit in `Wt`. -/
def convert_NtoW (n : Int) : Int × Bool :=
  (n, decide (n < wtMin ∨ wtMax < n))

/-- `n` fits in the weight type. -/
def inW (n : Int) : Prop := wtMin ≤ n ∧ n ≤ wtMax

instance (n : Int) : Decidable (inW n) := by
  unfold inW
  exact inferInstance

/-- Modelled from the spec: intervals of the external number library.
    `none` bounds are infinities. -/
inductive interval_t : Type where
  | bot_iv : interval_t
  | mk (lb ub : Option Int) : interval_t
deriving DecidableEq, Repr

def interval_t.is_bottom : interval_t → Bool
  | .bot_iv => true
  | .mk _ _ => false

def interval_t.is_top : interval_t → Bool
  | .bot_iv => false
  | .mk lb ub => lb.isNone && ub.isNone

def interval_t.lb : interval_t → Option Int
  | .bot_iv => none
  | .mk l _ => l

def interval_t.ub : interval_t → Option Int
  | .bot_iv => none
  | .mk _ u => u

/-- Interval inclusion. -/
def interval_t.le : interval_t → interval_t → Bool
  | .bot_iv, _ => true
  | .mk _ _, .bot_iv => false
  | .mk l1 u1, .mk l2 u2 =>
    (match l1, l2 with
     | _, none => true
     | none, some _ => false
     | some a, some b => decide (b ≤ a)) &&
    (match u1, u2 with
     | _, none => true
     | none, some _ => false
     | some a, some b => decide (a ≤ b))

def interval_t.singleton : interval_t → Option Int
  | .bot_iv => none
  | .mk (some a) (some b) => if a = b then some a else none
  | .mk _ _ => none

/-- Interval addition. -/
def addItv : interval_t → interval_t → interval_t
  | .bot_iv, _ => .bot_iv
  | _, .bot_iv => .bot_iv
  | .mk l1 u1, .mk l2 u2 =>
    .mk (match l1, l2 with
         | some a, some b => some (a + b)
         | _, _ => none)
        (match u1, u2 with
         | some a, some b => some (a + b)
         | _, _ => none)

/-- Multiplication of an interval by an integer constant. -/
def mulScalarItv (c : Int) (i : interval_t) : interval_t :=
  match i with
  | .bot_iv => .bot_iv
  | .mk l u =>
    if c = 0 then .mk (some 0) (some 0)
    else if c > 0 then .mk (l.map (c * ·)) (u.map (c * ·))
    else .mk (u.map (c * ·)) (l.map (c * ·))

/-- Modelled from the spec: `trim_interval(i, [n,n])` excises `n` when it is
    one of `i`'s endpoints. -/
def trim_interval (i : interval_t) (n : Int) : interval_t :=
  match i with
  | .bot_iv => .bot_iv
  | .mk lb ub =>
    if lb = some n && ub = some n then .bot_iv
    else if lb = some n then .mk (some (n + 1)) ub
    else if ub = some n then .mk lb (some (n - 1))
    else .mk lb ub

/-- Modelled from the spec: the weighted digraph `graph_t` over dense vertex
    ids `0 .. sz-1`, as an association list of weighted edges (the sparse
    graph implementation is not part of the sources; the interface —
    `lookup`, `add_edge`, `set_edge`, `update_edge`, neighbour iteration —
    is the one the source uses). -/
structure graph_t where
  sz : Nat
  edges : List ((Nat × Nat) × Int)
deriving DecidableEq, Repr

def glookup (g : graph_t) (i j : Nat) : Option Int :=
  (g.edges.find? (fun e => e.1 == (i, j))).map (·.2)

def gElem (g : graph_t) (i j : Nat) : Bool := (glookup g i j).isSome

/-- `set_edge` (overwrite). -/
def set_edge (g : graph_t) (i : Nat) (w : Int) (j : Nat) : graph_t :=
  if gElem g i j then
    { g with edges := g.edges.map (fun e => if e.1 = (i, j) then ((i, j), w) else e) }
  else { g with edges := g.edges ++ [((i, j), w)] }

/-- `add_edge` (the caller guarantees absence). -/
def add_edge (g : graph_t) (i : Nat) (w : Int) (j : Nat) : graph_t :=
  { g with edges := g.edges ++ [((i, j), w)] }

/-- `update_edge` (keep the minimum). -/
def update_edge (g : graph_t) (i : Nat) (w : Int) (j : Nat) : graph_t :=
  match glookup g i j with
  | some w0 => if w < w0 then set_edge g i w j else g
  | none => add_edge g i w j

def succsOf (g : graph_t) (i : Nat) : List Nat :=
  (g.edges.filter (fun e => e.1.1 == i)).map (·.1.2)

def predsOf (g : graph_t) (j : Nat) : List Nat :=
  (g.edges.filter (fun e => e.1.2 == j)).map (·.1.1)

def gforget (g : graph_t) (v : Nat) : graph_t :=
  { g with edges := g.edges.filter (fun e => e.1.1 ≠ v && e.1.2 ≠ v) }

/-- Modelled from the spec: `GrOps::meet` — the union of the edge sets,
    taking the minimum weight on common edges. -/
def gmeet (g1 g2 : graph_t) : graph_t :=
  { sz := max g1.sz g2.sz,
    edges := g1.edges.map (fun e =>
        (e.1, match glookup g2 e.1.1 e.1.2 with
              | some w2 => min e.2 w2
              | none => e.2))
      ++ g2.edges.filter (fun e => ¬ gElem g1 e.1.1 e.1.2) }

/-- Modelled from the spec: `GrOps::join` — the pointwise edge join: an edge
    is kept iff both graphs have it, with the maximum weight. -/
def gjoin (g1 g2 : graph_t) : graph_t :=
  { sz := max g1.sz g2.sz,
    edges := g1.edges.filterMap (fun e =>
      (glookup g2 e.1.1 e.1.2).map (fun w2 => (e.1, max e.2 w2))) }

/-- Modelled from the spec: `GrOps::widen(gx, gy, destabilized)` — keep an
    edge of `gx` iff `gy` has it with weight ≤ `gx`'s; the source vertices
    of dropped edges are destabilized. -/
def gwiden (g1 g2 : graph_t) : graph_t × List Nat :=
  let keep : (Nat × Nat) × Int → Bool := fun e =>
    match glookup g2 e.1.1 e.1.2 with
    | some w2 => decide (w2 ≤ e.2)
    | none => false
  ({ sz := max g1.sz g2.sz, edges := g1.edges.filter keep },
   ((g1.edges.filter (fun e => ¬ keep e)).map (·.1.1)).foldl
     (fun acc x => sinsert x acc) [])

/-- One min-plus relaxation of the edge `i → j` through the pivot `k`. -/
def relaxStep (g : graph_t) (k i j : Nat) : graph_t :=
  if i = j then g
  else
    match glookup g i k, glookup g k j with
    | some a, some b => update_edge g i (a + b) j
    | _, _ => g

/-- Modelled from the spec: `GrOps::close_after_meet` / `close_after_widen`
    restore transitive closure on the subgraph that excludes vertex 0; we
    compute the full min-plus closure over the non-zero vertices
    (Floyd–Warshall, with the delta / `apply_delta` indirection of the source
    fused into the graph update). -/
def close_excl0 (g : graph_t) : graph_t :=
  let vs := (List.range g.sz).filter (fun v => v ≠ 0)
  vs.foldl (fun g1 k =>
    vs.foldl (fun g2 i =>
      vs.foldl (fun g3 j => relaxStep g3 k i j) g2) g1) g

/-- Modelled from the spec: `GrOps::close_after_assign(g, potential, v, delta)`
    re-closes the edges incident to `v` (for `v = 0` this re-derives the
    unary bounds); intermediate and far vertices from `excl` are skipped
    (the source runs it on a `SubGraph` view when closing after an
    assignment). -/
def close_incident (g : graph_t) (v : Nat) (excl : List Nat) : graph_t :=
  let vs := (List.range g.sz).filter (fun k => k ≠ v && ¬ k ∈ excl)
  let g1 := vs.foldl (fun gacc k =>
    vs.foldl (fun g2 j =>
      if j = v then g2
      else
        match glookup g2 v k, glookup g2 k j with
        | some a, some b => update_edge g2 v (a + b) j
        | _, _ => g2) gacc) g
  vs.foldl (fun gacc k =>
    vs.foldl (fun g2 i =>
      if i = v then g2
      else
        match glookup g2 i k, glookup g2 k v with
        | some a, some b => update_edge g2 i (a + b) v
        | _, _ => g2) gacc) g1

/-- One Bellman–Ford relaxation round of the potential. -/
def bfRelax (g : graph_t) (p : List Int) : List Int :=
  g.edges.foldl (fun pacc e =>
    let pi := pacc.getD e.1.1 0
    let pj := pacc.getD e.1.2 0
    if pi + e.2 < pj then pacc.set e.1.2 (pi + e.2) else pacc) p

/-- Modelled from the spec: `GrOps::select_potentials` — Bellman–Ford on the
    zero-enriched graph, warm-started from the given potential; `none` iff a
    negative cycle makes the state infeasible. -/
def select_potentials (g : graph_t) (pot : List Int) : Option (List Int) :=
  let p := (List.range g.sz).foldl (fun pacc _ => bfRelax g pacc) pot
  if g.edges.all (fun e => decide (p.getD e.1.2 0 ≤ p.getD e.1.1 0 + e.2)) then some p
  else none

/-- Modelled from the spec: `repair_potential(src, dst)` restores a valid
    potential after an edge was tightened, failing exactly when a negative
    cycle was created; we model it by re-solving the potentials on the whole
    graph, which agrees on feasibility. -/
def repair_potential (g : graph_t) (pot : List Int) : Option (List Int) :=
  select_potentials g pot

/-- A permuted view of a graph (`GrPerm`), materialized: view-vertex `i`
    stands for `perm[i]`; a `none` entry is the source's `-1` sentinel. -/
def permGraphO (perm : List (Option Nat)) (g : graph_t) : graph_t :=
  { sz := perm.length,
    edges := ((List.range perm.length).map (fun i =>
      (List.range perm.length).filterMap (fun j =>
        if i = j then none
        else
          match perm.getD i none, perm.getD j none with
          | some pi2, some pj => (glookup g pi2 pj).map (fun w => ((i, j), w))
          | _, _ => none))).flatten }

def permGraph (perm : List Nat) (g : graph_t) : graph_t :=
  permGraphO (perm.map some) g

/-- `linear_expression_t`: the constant plus the list of terms `(variable,
    coefficient)`, iterated in list order. -/
structure linear_expression_t where
  constant : Int
  terms : List (Nat × Int)
deriving DecidableEq, Repr

/-- Modelled from the spec: `operator[]` / `get_interval` read the unary
    bounds of a variable from the graph through the zero vertex —
    `lb = −g(v,0)`, `ub = g(0,v)` — exactly the reading the printer at the
    bottom of split_dbm.cpp uses; top when the variable has no vertex. -/
def boundsOf (vm : List (Nat × Nat)) (g : graph_t) (y : Nat) : Option Int × Option Int :=
  match alookup vm y with
  | none => (none, none)
  | some v => ((glookup g v 0).map (fun w => -w), glookup g 0 v)

def get_interval (vm : List (Nat × Nat)) (g : graph_t) (x : Nat) : interval_t :=
  .mk (boundsOf vm g x).1 (boundsOf vm g x).2

/-- The term loop of `SplitDBM::diffcsts_of_assign` (split_dbm.cpp:114-149).
    State: remaining terms, `unbounded_var`, `terms`, `residual`; `none`
    models the early `return` that abandons the whole expression.  In the
    negative-coefficient branch the source's bound-conversion overflow check
    has no observable effect (the branch ends either way), so the residual
    update is unconditional there, as in the source text. -/
def diffcstsOfAssignLoop (vm : List (Nat × Nat)) (g : graph_t)
    (extract_upper_bounds : Bool) :
    List (Nat × Int) → Option Nat → List (Nat × Int) → Int →
    Option (Option Nat × List (Nat × Int) × Int)
  | [], unb, terms, residual => some (unb, terms, residual)
  | (y, n) :: rest, unb, terms, residual =>
    let (coeff, ovf) := convert_NtoW n
    if ovf then diffcstsOfAssignLoop vm g extract_upper_bounds rest unb terms residual
    else if coeff < 0 then
      match (if extract_upper_bounds then (boundsOf vm g y).1 else (boundsOf vm g y).2) with
      | none => none
      | some yv =>
        diffcstsOfAssignLoop vm g extract_upper_bounds rest unb terms
          (residual + (convert_NtoW yv).1 * coeff)
    else
      match (if extract_upper_bounds then (boundsOf vm g y).2 else (boundsOf vm g y).1) with
      | none =>
        if unb.isSome || coeff ≠ 1 then none
        else diffcstsOfAssignLoop vm g extract_upper_bounds rest (some y) terms residual
      | some yv =>
        let (ymax, ovf2) := convert_NtoW yv
        if ovf2 then diffcstsOfAssignLoop vm g extract_upper_bounds rest unb terms residual
        else diffcstsOfAssignLoop vm g extract_upper_bounds rest unb (terms ++ [(y, ymax)])
          (residual + ymax * coeff)

/-- `SplitDBM::diffcsts_of_assign` (split_dbm.cpp:97-160): difference
    constraints `(v, k)` (meaning `x − v ≤ k` for upper bounds, `v − x ≤ k`
    for lower bounds) derived for the assignment `x := exp`. -/
def diffcsts_of_assign (vm : List (Nat × Nat)) (g : graph_t) (x : Nat)
    (exp : linear_expression_t) (extract_upper_bounds : Bool) : List (Nat × Int) :=
  let (residual0, ovf) := convert_NtoW exp.constant
  if ovf then []
  else
    match diffcstsOfAssignLoop vm g extract_upper_bounds exp.terms none [] residual0 with
    | none => []
    | some (some u, _, residual) => [(u, residual)]
    | some (none, terms, residual) => terms.map (fun p => (p.1, residual - p.2))

/-- The accumulator of the term loop in `diffcsts_of_lin_leq`. -/
structure LinLeqAcc where
  exp_ub : Int
  unb_lbvar : Option Nat
  unb_lbcoeff : Int
  unb_ubvar : Option Nat
  unb_ubcoeff : Int
  pos_terms : List ((Int × Nat) × Int)
  neg_terms : List ((Int × Nat) × Int)
deriving DecidableEq, Repr

/-- The term loop of `SplitDBM::diffcsts_of_lin_leq` (split_dbm.cpp:190-228);
    `none` models the early `return`. -/
def linLeqLoop (vm : List (Nat × Nat)) (g : graph_t) :
    List (Nat × Int) → LinLeqAcc → Option LinLeqAcc
  | [], acc => some acc
  | (y, n) :: rest, acc =>
    let (coeff, ovf) := convert_NtoW n
    if ovf then linLeqLoop vm g rest acc
    else if coeff > 0 then
      match (boundsOf vm g y).1 with
      | none =>
        if acc.unb_lbvar.isSome then none
        else linLeqLoop vm g rest { acc with unb_lbvar := some y, unb_lbcoeff := coeff }
      | some ymin =>
        let (w, ovf2) := convert_NtoW ymin
        if ovf2 then linLeqLoop vm g rest acc
        else
          linLeqLoop vm g rest
            { acc with
              exp_ub := acc.exp_ub - w * coeff,
              pos_terms := acc.pos_terms ++ [((coeff, y), w)] }
    else
      match (boundsOf vm g y).2 with
      | none =>
        if acc.unb_ubvar.isSome then none
        else linLeqLoop vm g rest { acc with unb_ubvar := some y, unb_ubcoeff := -coeff }
      | some ymax =>
        let (w, ovf2) := convert_NtoW ymax
        if ovf2 then linLeqLoop vm g rest acc
        else
          linLeqLoop vm g rest
            { acc with
              exp_ub := acc.exp_ub - w * coeff,
              neg_terms := acc.neg_terms ++ [((-coeff, y), w)] }

/-- `SplitDBM::diffcsts_of_lin_leq` (split_dbm.cpp:162-271): from `exp ≤ 0`
    derive difference constraints `((x, y), k)` (meaning `x − y ≤ k`), lower
    bounds `(x, lb)` and upper bounds `(x, ub)`.  Division is C++ truncated
    division (`Int.div`). -/
def diffcsts_of_lin_leq (vm : List (Nat × Nat)) (g : graph_t)
    (exp : linear_expression_t) :
    List ((Nat × Nat) × Int) × List (Nat × Int) × List (Nat × Int) :=
  let (c0, ovf) := convert_NtoW exp.constant
  if ovf then ([], [], [])
  else if (convert_NtoW (exp.constant - 1)).2 then ([], [], [])
  else
    match linLeqLoop vm g exp.terms ⟨-c0, none, 1, none, 1, [], []⟩ with
    | none => ([], [], [])
    | some acc =>
      match acc.unb_lbvar, acc.unb_ubvar with
      | some x, some y =>
        if acc.unb_lbcoeff ≠ 1 || acc.unb_ubcoeff ≠ 1 then ([], [], [])
        else ([((x, y), acc.exp_ub)], [], [])
      | some x, none =>
        ((if acc.unb_lbcoeff = 1 then
            acc.neg_terms.map (fun t => ((x, t.1.2), acc.exp_ub - t.2))
          else []),
         [],
         [(x, Int.div acc.exp_ub acc.unb_lbcoeff)])
      | none, some y =>
        ((if acc.unb_ubcoeff = 1 then
            acc.pos_terms.map (fun t => ((t.1.2, y), acc.exp_ub + t.2))
          else []),
         [(y, Int.div (-acc.exp_ub) acc.unb_ubcoeff)],
         [])
      | none, none =>
        (acc.neg_terms.foldl (fun out nt =>
           out ++ acc.pos_terms.map (fun pt => ((pt.1.2, nt.1.2), acc.exp_ub - nt.2 + pt.2))) [],
         acc.neg_terms.map (fun nt => (nt.1.2, Int.div (-acc.exp_ub) nt.1.1 + nt.2)),
         acc.pos_terms.map (fun pt => (pt.1.2, Int.div acc.exp_ub pt.1.1 + pt.2)))

/-- `SplitDBM::get_vert` (split_dbm.cpp:12-33): the vertex of `v`, allocating
    a fresh one (extending `rev_map` and `potential` with 0) when absent.
    Modelled from the spec: `graph_t::new_vertex()` hands out the next dense
    vertex id. -/
def get_vert (vm : List (Nat × Nat)) (rm : List (Option Nat)) (g : graph_t)
    (pot : List Int) (v : Nat) :
    Nat × List (Nat × Nat) × List (Option Nat) × graph_t × List Int :=
  match alookup vm v with
  | some vert => (vert, vm, rm, g, pot)
  | none =>
    (g.sz, ainsert v g.sz vm, rm ++ [some v], { g with sz := g.sz + 1 }, pot ++ [0])

/-- `SplitDBM::close_over_edge` (split_dbm.cpp:35-95): after tightening the
    edge `ii → jj` (both non-zero, as the source asserts), install/tighten
    `se → jj`, `ii → de` and `se → de` through it. -/
def close_over_edge (g0 : graph_t) (ii jj : Nat) : graph_t :=
  if ii = 0 || jj = 0 then g0
  else
    match glookup g0 ii jj with
    | none => g0
    | some c =>
      let predE := (g0.edges.filter (fun e => e.1.2 == ii && e.1.1 ≠ 0)).map
        (fun e => (e.1.1, e.2))
      let step1 :=
        predE.foldl (fun (acc : graph_t × List (Nat × Int)) sp =>
          if sp.1 = jj then acc
          else
            match glookup acc.1 sp.1 jj with
            | some w =>
              if w ≤ sp.2 + c then acc
              else (set_edge acc.1 sp.1 (sp.2 + c) jj, acc.2 ++ [sp])
            | none => (add_edge acc.1 sp.1 (sp.2 + c) jj, acc.2 ++ [sp])) (g0, [])
      let succE := (g0.edges.filter (fun e => e.1.1 == jj && e.1.2 ≠ 0)).map
        (fun e => (e.1.2, e.2))
      let step2 :=
        succE.foldl (fun (acc : graph_t × List (Nat × Int)) dp =>
          if dp.1 = ii then acc
          else
            match glookup acc.1 ii dp.1 with
            | some w =>
              if w ≤ dp.2 + c then acc
              else (set_edge acc.1 ii (dp.2 + c) dp.1, acc.2 ++ [dp])
            | none => (add_edge acc.1 ii (dp.2 + c) dp.1, acc.2 ++ [dp])) (step1.1, [])
      step1.2.foldl (fun gacc sp =>
        step2.2.foldl (fun g2 dp =>
          let w := c + sp.2 + dp.2
          match glookup g2 sp.1 dp.1 with
          | some w0 => if w0 ≤ w then g2 else set_edge g2 sp.1 w dp.1
          | none => add_edge g2 sp.1 w dp.1) gacc) step2.1

/-- The non-bottom data of a `SplitDBM`, threaded through `add_linear_leq`. -/
structure DBMParts where
  vm : List (Nat × Nat)
  rm : List (Option Nat)
  g : graph_t
  pot : List Int
deriving DecidableEq, Repr

/-- One `lbs` iteration of `add_linear_leq` (split_dbm.cpp:279-290). -/
def addLbStep (st : Option DBMParts) (p : Nat × Int) : Option DBMParts :=
  match st with
  | none => none
  | some s =>
    let (vert, vm1, rm1, g1, pot1) := get_vert s.vm s.rm s.g s.pot p.1
    match glookup g1 vert 0 with
    | some w =>
      if w ≤ -p.2 then some ⟨vm1, rm1, g1, pot1⟩
      else
        let g2 := set_edge g1 vert (-p.2) 0
        (repair_potential g2 pot1).map (fun pot2 => ⟨vm1, rm1, g2, pot2⟩)
    | none =>
      let g2 := set_edge g1 vert (-p.2) 0
      (repair_potential g2 pot1).map (fun pot2 => ⟨vm1, rm1, g2, pot2⟩)

/-- One `ubs` iteration of `add_linear_leq` (split_dbm.cpp:291-301). -/
def addUbStep (st : Option DBMParts) (p : Nat × Int) : Option DBMParts :=
  match st with
  | none => none
  | some s =>
    let (vert, vm1, rm1, g1, pot1) := get_vert s.vm s.rm s.g s.pot p.1
    match glookup g1 0 vert with
    | some w =>
      if w ≤ p.2 then some ⟨vm1, rm1, g1, pot1⟩
      else
        let g2 := set_edge g1 0 p.2 vert
        (repair_potential g2 pot1).map (fun pot2 => ⟨vm1, rm1, g2, pot2⟩)
    | none =>
      let g2 := set_edge g1 0 p.2 vert
      (repair_potential g2 pot1).map (fun pot2 => ⟨vm1, rm1, g2, pot2⟩)

/-- One `csts` iteration of `add_linear_leq` (split_dbm.cpp:303-314). -/
def addCstStep (st : Option DBMParts) (p : (Nat × Nat) × Int) : Option DBMParts :=
  match st with
  | none => none
  | some s =>
    let (src, vm1, rm1, g1, pot1) := get_vert s.vm s.rm s.g s.pot p.1.2
    let (dest, vm2, rm2, g2, pot2) := get_vert vm1 rm1 g1 pot1 p.1.1
    let g3 := update_edge g2 src p.2 dest
    match repair_potential g3 pot2 with
    | none => none
    | some pot3 => some ⟨vm2, rm2, close_over_edge g3 src dest, pot3⟩

/-- `SplitDBM::add_linear_leq` (split_dbm.cpp:273-323); `none` is the
    `set_to_bottom(); return false` path.  The final
    `close_after_assign(g, potential, 0, delta)` re-derives the unary
    bounds. -/
def add_linear_leq (s : DBMParts) (exp : linear_expression_t) : Option DBMParts :=
  let (csts, lbs, ubs) := diffcsts_of_lin_leq s.vm s.g exp
  match csts.foldl addCstStep (ubs.foldl addUbStep (lbs.foldl addLbStep (some s))) with
  | none => none
  | some s3 => some { s3 with g := close_incident s3.g 0 [] }

/-- The SplitDBM state (the data model of split_dbm.hpp as the spec
    describes it): `bottom`, or `(vert_map, rev_map, g, potential,
    unstable)`; vertex 0 is the zero vertex. -/
inductive SplitDBM : Type where
  | bot : SplitDBM
  | mk (vert_map : List (Nat × Nat)) (rev_map : List (Option Nat)) (g : graph_t)
      (potential : List Int) (unstable : List Nat) : SplitDBM
deriving DecidableEq, Repr

def SplitDBM.is_bottom : SplitDBM → Bool
  | .bot => true
  | .mk _ _ _ _ _ => false

/-- Modelled from the spec: `is_top()` — the state is the empty conjunction,
    i.e. the graph has no edges. -/
def SplitDBM.is_top : SplitDBM → Bool
  | .bot => false
  | .mk _ _ g _ _ => g.edges.isEmpty

/-- `SplitDBM::normalize` (split_dbm.cpp:1035-1055): a no-op when `unstable`
    is empty; otherwise re-close `g∖{0}` (`close_after_widen`; we re-close
    the whole non-zero subgraph, a superset of the unstable-incident
    re-closure), re-derive the unary bounds (`close_after_assign` from 0) and
    clear `unstable`. -/
def SplitDBM.normalize : SplitDBM → SplitDBM
  | .bot => .bot
  | .mk vm rm g pot u =>
    if u.isEmpty then .mk vm rm g pot u
    else .mk vm rm (close_incident (close_excl0 g) 0 []) pot []

/-- `SplitDBM::operator-=` (split_dbm.cpp:793-804): forget a variable. -/
def SplitDBM.forgetVar (s : SplitDBM) (v : Nat) : SplitDBM :=
  match s with
  | .bot => .bot
  | .mk vm0 rm0 g0 pot0 u0 =>
    match SplitDBM.normalize (.mk vm0 rm0 g0 pot0 u0) with
    | .bot => .bot
    | .mk vm rm g pot u =>
      match alookup vm v with
      | none => .mk vm rm g pot u
      | some vert => .mk (aerase v vm) (rm.set vert none) (gforget g vert) pot u

/-- `SplitDBM::set` (split_dbm.cpp:1057-1093). -/
def SplitDBM.set (s : SplitDBM) (x : Nat) (intv : interval_t) : SplitDBM :=
  match s with
  | .bot => .bot
  | .mk vm0 rm0 g0 pot0 u0 =>
    if intv.is_bottom then .bot
    else
      match SplitDBM.forgetVar (.mk vm0 rm0 g0 pot0 u0) x with
      | .bot => .bot
      | .mk vm rm g pot u =>
        if intv.is_top then .mk vm rm g pot u
        else
          let (v, vm1, rm1, g1, pot1) := get_vert vm rm g pot x
          let ubRes :=
            match intv.ub with
            | some ubv =>
              if (convert_NtoW ubv).2 then none
              else some (set_edge g1 0 ubv v, (pot1.set v (pot1.getD 0 0 + ubv)))
            | none => some (g1, pot1)
          match ubRes with
          | none => .mk vm1 rm1 g1 pot1 u
          | some (g2, pot2) =>
            match intv.lb with
            | some lbv =>
              if (convert_NtoW lbv).2 then .mk vm1 rm1 g2 pot2 u
              else .mk vm1 rm1 (set_edge g2 v (-lbv) 0) (pot2.set v (pot2.getD 0 0 + lbv)) u
            | none => .mk vm1 rm1 g2 pot2 u

/-- Outcome of one bound-strengthening phase of `add_univar_disequation`:
    infeasible, early `return`, or fall through to the next phase. -/
inductive DiseqRes : Type where
  | bottom : DiseqRes
  | done (g : graph_t) (pot : List Int) : DiseqRes
  | go (g : graph_t) (pot : List Int) : DiseqRes
deriving Repr

/-- `SplitDBM::add_univar_disequation` (split_dbm.cpp:325-385): excise `n`
    from the interval of `x` when it is one of its endpoints, strengthening
    the affected unary bounds. -/
def SplitDBM.add_univar_disequation (s : SplitDBM) (x : Nat) (n : Int) : SplitDBM :=
  match s with
  | .bot => .bot
  | .mk vm0 rm0 g0 pot0 u0 =>
    let i := get_interval vm0 g0 x
    let new_i := trim_interval i n
    if new_i.is_bottom then .bot
    else if ¬ new_i.is_top && interval_t.le new_i i then
      let (v, vm, rm, g, pot) := get_vert vm0 rm0 g0 pot0 x
      let predFold : graph_t → List Int → Int → Option (graph_t × List Int) :=
        fun g1 pot1 lb_val =>
          ((g1.edges.filter (fun e => e.1.2 == v && e.1.1 ≠ 0)).map
              (fun e => (e.1.1, e.2))).foldl
            (fun acc pp =>
              match acc with
              | none => none
              | some (g2, pot2) =>
                let g3 := update_edge g2 pp.1 (pp.2 + lb_val) 0
                (repair_potential g3 pot2).map (fun p3 => (g3, p3)))
            (some (g1, pot1))
      let succFold : graph_t → List Int → Int → Option (graph_t × List Int) :=
        fun g1 pot1 ub_val =>
          ((g1.edges.filter (fun e => e.1.1 == v && e.1.2 ≠ 0)).map
              (fun e => (e.1.2, e.2))).foldl
            (fun acc pp =>
              match acc with
              | none => none
              | some (g2, pot2) =>
                let g3 := update_edge g2 0 (pp.2 + ub_val) pp.1
                (repair_potential g3 pot2).map (fun p3 => (g3, p3)))
            (some (g1, pot1))
      let lbRes : DiseqRes :=
        match new_i.lb with
        | none => .go g pot
        | some lbq =>
          if (convert_NtoW (-lbq)).2 then .done g pot
          else
            match glookup g v 0 with
            | some w =>
              if -lbq < w then
                let g1 := set_edge g v (-lbq) 0
                match repair_potential g1 pot with
                | none => .bottom
                | some pot1 =>
                  match predFold g1 pot1 (-lbq) with
                  | none => .bottom
                  | some (g2, pot2) => .go g2 pot2
              else .go g pot
            | none => .go g pot
      match lbRes with
      | .bottom => .bot
      | .done g2 pot2 => .mk vm rm g2 pot2 u0
      | .go g2 pot2 =>
        match new_i.ub with
        | none => .mk vm rm g2 pot2 u0
        | some ubq =>
          if (convert_NtoW ubq).2 then .mk vm rm g2 pot2 u0
          else
            match glookup g2 0 v with
            | some w =>
              if ubq < w then
                let g3 := set_edge g2 0 ubq v
                match repair_potential g3 pot2 with
                | none => .bot
                | some pot3 =>
                  match succFold g3 pot3 ubq with
                  | none => .bot
                  | some (g4, pot4) => .mk vm rm g4 pot4 u0
              else .mk vm rm g2 pot2 u0
            | none => .mk vm rm g2 pot2 u0
    else .mk vm0 rm0 g0 pot0 u0

/-- Modelled from the spec: `add_disequation(e)` — when `e` is `±x + k`
    (one variable with unit coefficient), excise the excluded value from
    `x`'s interval; otherwise no refinement. -/
def SplitDBM.add_disequation (s : SplitDBM) (e : linear_expression_t) : SplitDBM :=
  match e.terms with
  | [(x, c)] =>
    if c = 1 then s.add_univar_disequation x (-e.constant)
    else if c = -1 then s.add_univar_disequation x e.constant
    else s
  | _ => s

inductive cst_kind : Type where
  | INEQUALITY : cst_kind
  | STRICT_INEQUALITY : cst_kind
  | EQUALITY : cst_kind
  | DISEQUATION : cst_kind
deriving DecidableEq, Repr

/-- `linear_constraint_t`: the expression `e` constrained as `e kind 0`. -/
structure linear_constraint_t where
  expression : linear_expression_t
  kind : cst_kind
  is_signed : Bool
deriving DecidableEq, Repr

/-- Whether a variable-free constraint with the given constant holds. -/
def cstHolds : cst_kind → Int → Bool
  | .INEQUALITY, c => decide (c ≤ 0)
  | .STRICT_INEQUALITY, c => decide (c < 0)
  | .EQUALITY, c => decide (c = 0)
  | .DISEQUATION, c => decide (c ≠ 0)

/-- Modelled from the spec: a constraint with no variable terms is a
    tautology (holds) or a contradiction according to its constant. -/
def linear_constraint_t.is_tautology (c : linear_constraint_t) : Bool :=
  c.expression.terms.isEmpty && cstHolds c.kind c.expression.constant

def linear_constraint_t.is_contradiction (c : linear_constraint_t) : Bool :=
  c.expression.terms.isEmpty && ! cstHolds c.kind c.expression.constant

/-- Negation of a linear expression (`-exp`). -/
def negExp (e : linear_expression_t) : linear_expression_t :=
  ⟨-e.constant, e.terms.map (fun t => (t.1, -t.2))⟩

/-- `SplitDBM::operator+=` (split_dbm.cpp:806-872): add one linear
    constraint.  Unsigned inequalities are skipped before anything else —
    in particular before the bottom check. -/
def SplitDBM.addCst (s : SplitDBM) (cst : linear_constraint_t) : SplitDBM :=
  if cst.kind = .INEQUALITY && ! cst.is_signed then s
  else
    match s with
    | .bot => .bot
    | .mk vm0 rm0 g0 pot0 u0 =>
      match SplitDBM.normalize (.mk vm0 rm0 g0 pot0 u0) with
      | .bot => .bot
      | .mk vm rm g pot u =>
        if cst.is_tautology then .mk vm rm g pot u
        else if cst.is_contradiction then .bot
        else
          match cst.kind with
          | .INEQUALITY =>
            match add_linear_leq ⟨vm, rm, g, pot⟩ cst.expression with
            | none => .bot
            | some s2 => .mk s2.vm s2.rm s2.g s2.pot u
          | .STRICT_INEQUALITY =>
            match add_linear_leq ⟨vm, rm, g, pot⟩
                { cst.expression with constant := cst.expression.constant + 1 } with
            | none => .bot
            | some s2 => .mk s2.vm s2.rm s2.g s2.pot u
          | .EQUALITY =>
            match add_linear_leq ⟨vm, rm, g, pot⟩ cst.expression with
            | none => .bot
            | some s2 =>
              match add_linear_leq s2 (negExp cst.expression) with
              | none => .bot
              | some s3 => .mk s3.vm s3.rm s3.g s3.pot u
          | .DISEQUATION =>
            SplitDBM.add_disequation (.mk vm rm g pot u) cst.expression

/-- Modelled from the spec: `eval_interval(e)` — interval evaluation of a
    linear expression over the unary bounds. -/
def eval_interval (vm : List (Nat × Nat)) (g : graph_t) (e : linear_expression_t) :
    interval_t :=
  e.terms.foldl (fun acc t => addItv acc (mulScalarItv t.2 (get_interval vm g t.1)))
    (.mk (some e.constant) (some e.constant))

/-- Modelled from the spec: `eval_expression(e, overflow)` — the value of `e`
    under the current potential (so that `potential[vx'] = potential[0] +
    eval(e)`), with the overflow flag set when the result does not fit the
    weight type. -/
def eval_expression (vm : List (Nat × Nat)) (pot : List Int)
    (e : linear_expression_t) : Int × Bool :=
  let vval : Nat → Int := fun y =>
    match alookup vm y with
    | some v => pot.getD v 0 - pot.getD 0 0
    | none => 0
  let r := e.terms.foldl (fun acc t => acc + t.2 * vval t.1) e.constant
  (r, decide (r < wtMin ∨ wtMax < r))

/-- `SplitDBM::assign` (split_dbm.cpp:874-974).  The two-output
    `diffcsts_of_assign(x, e, diffs_lb, diffs_ub)` call dispatches to the
    directional routine for each bound direction. -/
def SplitDBM.assign (s : SplitDBM) (x : Nat) (e : linear_expression_t) : SplitDBM :=
  match s with
  | .bot => .bot
  | .mk vm0 rm0 g0 pot0 u0 =>
    match SplitDBM.normalize (.mk vm0 rm0 g0 pot0 u0) with
    | .bot => .bot
    | .mk vm rm g pot u =>
      let x_int := eval_interval vm g e
      let lb_w : Option Int := x_int.lb.map (fun l => -l)
      let ub_w : Option Int := x_int.ub
      let overflow1 :=
        (match x_int.lb with
         | some l => (convert_NtoW (-l)).2
         | none => false) ||
        (match x_int.ub with
         | some uq => (convert_NtoW uq).2
         | none => false)
      if overflow1 then SplitDBM.forgetVar (.mk vm rm g pot u) x
      else
        match x_int.singleton with
        | some xn => SplitDBM.set (.mk vm rm g pot u) x (.mk (some xn) (some xn))
        | none =>
          let diffs_lb := diffcsts_of_assign vm g x e false
          let diffs_ub := diffcsts_of_assign vm g x e true
          if diffs_lb.isEmpty && diffs_ub.isEmpty then
            SplitDBM.set (.mk vm rm g pot u) x x_int
          else
            let ev := eval_expression vm pot e
            if ev.2 then SplitDBM.forgetVar (.mk vm rm g pot u) x
            else
              let vert := g.sz
              let st0 : DBMParts × List ((Nat × Nat) × Int) :=
                (⟨vm, rm ++ [some x], { g with sz := g.sz + 1 },
                  pot ++ [pot.getD 0 0 + ev.1]⟩, [])
              let st1 := diffs_lb.foldl (fun st p =>
                let (vy, vm2, rm2, g2, pot2) := get_vert st.1.vm st.1.rm st.1.g st.1.pot p.1
                (⟨vm2, rm2, g2, pot2⟩, st.2 ++ [((vert, vy), -p.2)])) st0
              let st2 := diffs_ub.foldl (fun st p =>
                let (vy, vm2, rm2, g2, pot2) := get_vert st.1.vm st.1.rm st.1.g st.1.pot p.1
                (⟨vm2, rm2, g2, pot2⟩, st.2 ++ [((vy, vert), p.2)])) st1
              let g2 := st2.2.foldl (fun gacc d => update_edge gacc d.1.1 d.2 d.1.2) st2.1.g
              let g3 := close_incident g2 vert [0]
              let g4 :=
                match lb_w with
                | some w => update_edge g3 vert w 0
                | none => g3
              let g5 :=
                match ub_w with
                | some w => update_edge g4 0 w vert
                | none => g4
              match SplitDBM.forgetVar (.mk st2.1.vm st2.1.rm g5 st2.1.pot u) x with
              | .bot => .bot
              | .mk vmf rmf gf potf uf => .mk (ainsert x vert vmf) rmf gf potf uf

/-- The renaming from `o`'s vertices into `this`'s (split_dbm.cpp:412-425),
    skipping isolated vertices; `none` when a non-isolated vertex of `o` has
    no counterpart. -/
def buildRenaming (vm : List (Nat × Nat)) (og : graph_t) :
    List (Nat × Nat) → Option (List (Nat × Nat))
  | [] => some [(0, 0)]
  | (v, n) :: rest =>
    match buildRenaming vm og rest with
    | none => none
    | some ren =>
      if (succsOf og n).isEmpty && (predsOf og n).isEmpty then some ren
      else
        match alookup vm v with
        | none => none
        | some an => some ((n, an) :: ren)

/-- The edge entailment check of `operator<=` (split_dbm.cpp:430-450): every
    edge of `o` is implied directly or through the unary bounds. -/
def leqEdgeCheck (g og : graph_t) (ren : List (Nat × Nat)) : Bool :=
  og.edges.all (fun e =>
    match alookup ren e.1.1, alookup ren e.1.2 with
    | some x, some y =>
      (match glookup g x y with
       | some wx => decide (wx ≤ e.2)
       | none => false) ||
      (match glookup g x 0, glookup g 0 y with
       | some wx, some wy => decide (wx + wy ≤ e.2)
       | _, _ => false)
    | _, _ => false)

/-- `SplitDBM::operator<=` (split_dbm.cpp:387-453). -/
def SplitDBM.leq (a o : SplitDBM) : Bool :=
  match a, o with
  | .bot, _ => true
  | .mk _ _ _ _ _, .bot => false
  | .mk avm arm ag apot au, .mk ovm orm og opot ou =>
    if SplitDBM.is_top (.mk ovm orm og opot ou) then true
    else if SplitDBM.is_top (.mk avm arm ag apot au) then false
    else
      match SplitDBM.normalize (.mk avm arm ag apot au) with
      | .bot => true
      | .mk vm _ g _ _ =>
        if vm.length < ovm.length then false
        else
          match buildRenaming vm og ovm with
          | none => false
          | some ren => leqEdgeCheck g og ren

/-- `SplitDBM::operator|` (split_dbm.cpp:455-633): join.  The `is_closed`
    short-cut of `GrOps::meet` is modelled by always re-closing (closure is
    idempotent). -/
def SplitDBM.join (a o : SplitDBM) : SplitDBM :=
  if a.is_bottom || o.is_top then o
  else if a.is_top || o.is_bottom then a
  else
    match a.normalize, o.normalize with
    | .mk vm _ g pot _, .mk ovm _ og opot _ =>
      let common := vm.filter (fun p => (alookup ovm p.1).isSome)
      let perm_x : List Nat := 0 :: common.map (·.2)
      let perm_y : List Nat := 0 :: common.map (fun p => (alookup ovm p.1).getD 0)
      let out_vmap := common.enum.map (fun p => (p.2.1, p.1 + 1))
      let out_revmap : List (Option Nat) := none :: common.map (fun p => some p.1)
      let pot_rx : List Int := 0 :: common.map (fun p => pot.getD p.2 0 - pot.getD 0 0)
      let sz := perm_x.length
      let gx := permGraph perm_x g
      let gy := permGraph perm_y og
      let g_ix_ry : graph_t :=
        { sz := sz,
          edges := (gy.edges.filter (fun e => e.1.1 ≠ 0 && e.1.2 ≠ 0)).filterMap (fun e =>
            match glookup gx e.1.1 0, glookup gx 0 e.1.2 with
            | some ws, some wd => some ((e.1.1, e.1.2), ws + wd)
            | _, _ => none) }
      let g_rx := close_excl0 (gmeet gx g_ix_ry)
      let g_rx_iy : graph_t :=
        { sz := sz,
          edges := (gx.edges.filter (fun e => e.1.1 ≠ 0 && e.1.2 ≠ 0)).filterMap (fun e =>
            match glookup gy e.1.1 0, glookup gy 0 e.1.2 with
            | some ws, some wd => some ((e.1.1, e.1.2), ws + wd)
            | _, _ => none) }
      let g_ry := close_excl0 (gmeet gy g_rx_iy)
      let join_g := gjoin g_rx g_ry
      let nz := (List.range sz).filter (fun v => v ≠ 0)
      let ub_up := nz.filter (fun v =>
        match glookup gx 0 v, glookup gy 0 v with
        | some wx, some wy => decide (wx < wy)
        | _, _ => false)
      let ub_down := nz.filter (fun v =>
        match glookup gx 0 v, glookup gy 0 v with
        | some wx, some wy => decide (wy < wx)
        | _, _ => false)
      let lb_down := nz.filter (fun v =>
        match glookup gx v 0, glookup gy v 0 with
        | some wx, some wy => decide (wx < wy)
        | _, _ => false)
      let lb_up := nz.filter (fun v =>
        match glookup gx v 0, glookup gy v 0 with
        | some wx, some wy => decide (wy < wx)
        | _, _ => false)
      let applyPairs : graph_t → List Nat → List Nat → graph_t := fun gacc ss dd =>
        ss.foldl (fun g1 s =>
          dd.foldl (fun g2 d =>
            if s = d then g2
            else
              match glookup gx s 0, glookup gy s 0, glookup gx 0 d, glookup gy 0 d with
              | some dxs, some dys, some wxd, some wyd =>
                update_edge g2 s (max (dxs + wxd) (dys + wyd)) d
              | _, _, _, _ => g2) g1) gacc
      let join_g2 := applyPairs (applyPairs join_g lb_up ub_up) lb_down ub_down
      let isolated := (List.range sz).filter (fun v =>
        v ≠ 0 && (succsOf join_g2 v).isEmpty && (predsOf join_g2 v).isEmpty)
      SplitDBM.mk (out_vmap.filter (fun p => decide (¬ p.2 ∈ isolated)))
        (out_revmap.enum.map (fun p => if p.1 ∈ isolated then none else p.2))
        join_g2 pot_rx []
    | _, _ => .bot

/-- `SplitDBM::widen` (split_dbm.cpp:635-695): normalize only `o`, keep the
    stable edges, and accumulate the destabilized vertices into `unstable`. -/
def SplitDBM.widen (a o : SplitDBM) : SplitDBM :=
  if a.is_bottom then o
  else if o.is_bottom then a
  else
    match a, o.normalize with
    | .mk vm _ g pot un, .mk ovm _ og _ _ =>
      let common := vm.filter (fun p => (alookup ovm p.1).isSome)
      let perm_x : List Nat := 0 :: common.map (·.2)
      let perm_y : List Nat := 0 :: common.map (fun p => (alookup ovm p.1).getD 0)
      let out_vmap := common.enum.map (fun p => (p.2.1, p.1 + 1))
      let out_revmap : List (Option Nat) := none :: common.map (fun p => some p.1)
      let widen_pot : List Int := 0 :: common.map (fun p => pot.getD p.2 0 - pot.getD 0 0)
      let gx := permGraph perm_x g
      let gy := permGraph perm_y og
      let wres := gwiden gx gy
      SplitDBM.mk out_vmap out_revmap wres.1 widen_pot
        (wres.2.foldl (fun acc v => sinsert v acc) un)
    | _, _ => .bot

/-- `SplitDBM::operator&` (split_dbm.cpp:696-791): meet.  Left-operand
    vertices first, right-only vertices after; `-1` permutation sentinels
    are `none`. -/
def SplitDBM.meet (a o : SplitDBM) : SplitDBM :=
  if a.is_bottom || o.is_bottom then .bot
  else if a.is_top then o
  else if o.is_top then a
  else
    match a.normalize, o.normalize with
    | .mk vm _ g pot _, .mk ovm _ og opot _ =>
      let rightOnly := ovm.filter (fun p => (alookup vm p.1).isNone)
      let perm_x : List (Option Nat) :=
        some 0 :: vm.map (fun p => some p.2) ++ rightOnly.map (fun _ => none)
      let perm_y : List (Option Nat) :=
        some 0 :: vm.map (fun p => alookup ovm p.1) ++ rightOnly.map (fun p => some p.2)
      let meet_rev : List (Option Nat) :=
        none :: vm.map (fun p => some p.1) ++ rightOnly.map (fun p => some p.1)
      let meet_verts : List (Nat × Nat) :=
        (vm.enum.map (fun (p : Nat × (Nat × Nat)) => (p.2.1, p.1 + 1)) ++
          rightOnly.enum.map (fun (p : Nat × (Nat × Nat)) =>
            (p.2.1, vm.length + 1 + p.1))).foldl
          (fun acc (q : Nat × Nat) => ainsert q.1 q.2 acc) []
      let meet_pi : List Int :=
        0 :: vm.map (fun p => pot.getD p.2 0 - pot.getD 0 0) ++
          rightOnly.map (fun p => opot.getD p.2 0 - opot.getD 0 0)
      let gx := permGraphO perm_x g
      let gy := permGraphO perm_y og
      let meet_g := gmeet gx gy
      match select_potentials meet_g meet_pi with
      | none => .bot
      | some pi2 =>
        SplitDBM.mk meet_verts meet_rev (close_incident (close_excl0 meet_g) 0 []) pi2 []
    | _, _ => .bot

/-- `SplitDBM::narrow` (split_dbm.cpp:1010-1033): narrowing is a no-op —
    the result is a normalized copy of `self` outside the trivial cases. -/
def SplitDBM.narrow (a o : SplitDBM) : SplitDBM :=
  if a.is_bottom || o.is_bottom then .bot
  else if a.is_top then o
  else a.normalize

/-- The state entails `y − x ≤ k`: an edge `vert(x) → vert(y)` of weight
    ≤ `k` exists (the edge reading of the printer, split_dbm.cpp:1235-1250:
    an edge `s → d` of weight `w` denotes `vd − vs ≤ w`). -/
def SplitDBM.entailsDiff (s : SplitDBM) (x y : Nat) (k : Int) : Bool :=
  match s with
  | .bot => true
  | .mk vm _ g _ _ =>
    match alookup vm x, alookup vm y with
    | some vx, some vy =>
      match glookup g vx vy with
      | some w => decide (w ≤ k)
      | none => false
    | _, _ => false

/-- The state entails `x ≤ k`: an edge `0 → vert(x)` of weight ≤ `k`
    (split_dbm.cpp:1219-1220: `ub(x) = g(0, vx)`). -/
def SplitDBM.entailsUb (s : SplitDBM) (x : Nat) (k : Int) : Bool :=
  match s with
  | .bot => true
  | .mk vm _ g _ _ =>
    match alookup vm x with
    | some vx =>
      match glookup g 0 vx with
      | some w => decide (w ≤ k)
      | none => false
    | none => false

/-- The state entails `k ≤ x`: an edge `vert(x) → 0` of weight ≤ `−k`
    (split_dbm.cpp:1219-1220: `lb(x) = −g(vx, 0)`). -/
def SplitDBM.entailsLb (s : SplitDBM) (x : Nat) (k : Int) : Bool :=
  match s with
  | .bot => true
  | .mk vm _ g _ _ =>
    match alookup vm x with
    | some vx =>
      match glookup g vx 0 with
      | some w => decide (w ≤ -k)
      | none => false
    | none => false

/-- State A of the join scenario: variables `x = 100` (vertex 1) and
    `y = 200` (vertex 2), with `x ∈ [0,10]`, `y ∈ [0,10]` as unary edges at
    the zero vertex; closed, feasible potential, no unstable vertices. -/
def dbmA : SplitDBM :=
  .mk [(100, 1), (200, 2)] [none, some 100, some 200]
    ⟨3, [((0, 1), 10), ((1, 0), 0), ((0, 2), 10), ((2, 0), 0)]⟩ [0, 0, 0] []

/-- State B of the join scenario: `x ∈ [20,30]`, `y ∈ [20,30]` and
    `y − x ≤ 0` (edge `1 → 2` of weight 0); closed, feasible potential. -/
def dbmB : SplitDBM :=
  .mk [(100, 1), (200, 2)] [none, some 100, some 200]
    ⟨3, [((0, 1), 30), ((1, 0), -20), ((0, 2), 30), ((2, 0), -20), ((1, 2), 0)]⟩
    [0, 20, 20] []

/-- The top state: no variables, only the zero vertex, no edges. -/
def dbmTop : SplitDBM := .mk [] [none] ⟨1, []⟩ [0] []

/-- A one-variable state `x ∈ [0,5]`. -/
def dbmSmall : SplitDBM :=
  .mk [(100, 1)] [none, some 100] ⟨2, [((0, 1), 5), ((1, 0), 0)]⟩ [0, 0] []

/-- A two-variable state with the same constraints as `dbmSmall` and the
    extra variable `200` bound to an isolated vertex. -/
def dbmBig : SplitDBM :=
  .mk [(100, 1), (200, 2)] [none, some 100, some 200]
    ⟨3, [((0, 1), 5), ((1, 0), 0)]⟩ [0, 0, 0] []

/-- The directional bound that `diffcsts_of_assign` consults for a term
    `(y, c)`: for negative coefficients the opposite bound of the extraction
    direction (split_dbm.cpp:120-133). -/
def boundDir (vm : List (Nat × Nat)) (g : graph_t) (extract_upper_bounds : Bool)
    (y : Nat) (c : Int) : Option Int :=
  if c < 0 then
    if extract_upper_bounds then (boundsOf vm g y).1 else (boundsOf vm g y).2
  else
    if extract_upper_bounds then (boundsOf vm g y).2 else (boundsOf vm g y).1

/-- The residual of the all-bounded case: the expression constant plus every
    term's bound contribution `bound · coeff`. -/
def residualSpec (vm : List (Nat × Nat)) (g : graph_t) (ub : Bool)
    (exp : linear_expression_t) : Int :=
  exp.terms.foldl (fun r t => r + (boundDir vm g ub t.1 t.2).getD 0 * t.2) exp.constant

/-! ## Theorems -/

theorem mem_sinsert {x z : Nat} : ∀ {l : List Nat}, z ∈ sinsert x l ↔ z = x ∨ z ∈ l := by
  intro l
  induction l with
  | nil => simp [sinsert]
  | cons y ys ih =>
    rcases Nat.lt_trichotomy x y with h | h | h
    · simp only [sinsert, if_pos h, List.mem_cons]
    · subst h
      have heq : sinsert x (x :: ys) = x :: ys := by simp [sinsert]
      rw [heq]
      simp only [List.mem_cons]
      tauto
    · have h1 : ¬ x < y := by omega
      have h2 : ¬ x = y := by omega
      simp only [sinsert, if_neg h1, if_neg h2, List.mem_cons, ih]
      tauto

theorem mem_serase_subset {x z : Nat} : ∀ {l : List Nat}, z ∈ serase x l → z ∈ l := by
  intro l
  induction l with
  | nil => simp [serase]
  | cons y ys ih =>
    by_cases h : x = y
    · simp only [serase, if_pos h, List.mem_cons]
      intro hz; exact Or.inr hz
    · simp only [serase, if_neg h, List.mem_cons]
      rintro (rfl | hz)
      · exact Or.inl rfl
      · exact Or.inr (ih hz)

theorem mem_serase_of_ne {x z : Nat} (hne : z ≠ x) :
    ∀ {l : List Nat}, z ∈ l → z ∈ serase x l := by
  intro l
  induction l with
  | nil => simp
  | cons y ys ih =>
    intro hz
    by_cases h : x = y
    · subst h
      rcases List.mem_cons.1 hz with rfl | hz
      · exact absurd rfl hne
      · simpa [serase] using hz
    · rcases List.mem_cons.1 hz with rfl | hz
      · simp [serase, h]
      · simp only [serase, if_neg h, List.mem_cons]
        exact Or.inr (ih hz)

theorem not_mem_serase_self {x : Nat} :
    ∀ {l : List Nat}, l.Nodup → x ∉ serase x l := by
  intro l
  induction l with
  | nil => simp [serase]
  | cons y ys ih =>
    intro hnd
    by_cases h : x = y
    · subst h
      simp only [serase, if_pos rfl]
      exact (List.nodup_cons.1 hnd).1
    · simp only [serase, if_neg h, List.mem_cons]
      rintro (rfl | hz)
      · exact h rfl
      · exact ih (List.nodup_cons.1 hnd).2 hz

theorem mem_serase_nodup {x z : Nat} {l : List Nat} (hnd : l.Nodup) :
    z ∈ serase x l ↔ z ∈ l ∧ z ≠ x := by
  constructor
  · intro hz
    refine ⟨mem_serase_subset hz, ?_⟩
    rintro rfl
    exact not_mem_serase_self hnd hz
  · rintro ⟨hz, hne⟩
    exact mem_serase_of_ne hne hz

theorem sorted_sinsert {x : Nat} :
    ∀ {l : List Nat}, l.Sorted (· < ·) → (sinsert x l).Sorted (· < ·) := by
  intro l
  induction l with
  | nil => intro _; simp [sinsert]
  | cons y ys ih =>
    intro hs
    rcases List.sorted_cons.1 hs with ⟨hy, hys⟩
    by_cases h1 : x < y
    · simp only [sinsert, if_pos h1]
      exact List.sorted_cons.2 ⟨by
        intro b hb
        rcases List.mem_cons.1 hb with rfl | hb
        · exact h1
        · exact h1.trans (hy b hb), hs⟩
    · by_cases h2 : x = y
      · simpa [sinsert, h1, h2] using hs
      · simp only [sinsert, if_neg h1, if_neg h2]
        refine List.sorted_cons.2 ⟨?_, ih hys⟩
        intro b hb
        rcases mem_sinsert.1 hb with rfl | hb
        · omega
        · exact hy b hb

theorem sorted_serase {x : Nat} :
    ∀ {l : List Nat}, l.Sorted (· < ·) → (serase x l).Sorted (· < ·) := by
  intro l
  induction l with
  | nil => intro _; simp [serase]
  | cons y ys ih =>
    intro hs
    rcases List.sorted_cons.1 hs with ⟨hy, hys⟩
    by_cases h : x = y
    · simpa [serase, h] using hys
    · simp only [serase, if_neg h]
      refine List.sorted_cons.2 ⟨?_, ih hys⟩
      intro b hb
      exact hy b (mem_serase_subset hb)

theorem alookup_aupdate {α : Type} (q k : Nat) (f : α → α) :
    ∀ (m : List (Nat × α)),
      alookup (aupdate q f m) k = if k = q then (alookup m q).map f else alookup m k := by
  intro m
  induction m with
  | nil => simp [aupdate, alookup]
  | cons p m ih =>
    obtain ⟨a, v⟩ := p
    by_cases hq : q = a
    · subst hq
      by_cases hk : k = q <;> simp [aupdate, alookup, hk]
    · by_cases hk : k = a
      · subst hk
        have hkq : ¬ k = q := fun h => hq h.symm
        simp [aupdate, alookup, hq, hkq]
      · simp [aupdate, alookup, hq, hk, ih]

theorem akeys_aupdate {α : Type} (q : Nat) (f : α → α) :
    ∀ (m : List (Nat × α)), akeys (aupdate q f m) = akeys m := by
  intro m
  induction m with
  | nil => simp [aupdate]
  | cons p m ih =>
    obtain ⟨a, v⟩ := p
    by_cases hq : q = a
    · simp [aupdate, akeys, hq]
    · simp only [aupdate, if_neg hq, akeys, List.map_cons]
      simpa [akeys] using ih

theorem alookup_none_of_not_mem_akeys {α : Type} {k : Nat} :
    ∀ {m : List (Nat × α)}, k ∉ akeys m → alookup m k = none := by
  intro m
  induction m with
  | nil => simp [alookup]
  | cons p m ih =>
    obtain ⟨a, v⟩ := p
    intro hk
    have h1 : ¬ k = a := fun h => hk (by simp [akeys, h])
    have h2 : k ∉ akeys m := fun h => hk (by simp [akeys] at h ⊢; exact Or.inr h)
    simp [alookup, h1, ih h2]

theorem mem_akeys_iff_isSome {α : Type} {k : Nat} :
    ∀ {m : List (Nat × α)}, k ∈ akeys m ↔ (alookup m k).isSome := by
  intro m
  induction m with
  | nil => simp [akeys, alookup]
  | cons p m ih =>
    obtain ⟨a, v⟩ := p
    by_cases hk : k = a
    · simp [akeys, alookup, hk]
    · simp only [akeys, List.map_cons, List.mem_cons, alookup, if_neg hk]
      rw [akeys] at ih
      constructor
      · rintro (rfl | h)
        · exact absurd rfl hk
        · exact ih.1 h
      · intro h
        exact Or.inr (ih.2 h)

theorem alookup_aerase {α : Type} (q k : Nat) :
    ∀ {m : List (Nat × α)}, (akeys m).Nodup →
      alookup (aerase q m) k = if k = q then none else alookup m k := by
  intro m
  induction m with
  | nil => simp [aerase, alookup]
  | cons p m ih =>
    intro hnd
    obtain ⟨a, v⟩ := p
    have hnd' : (akeys m).Nodup := (List.nodup_cons.1 (by simpa [akeys] using hnd)).2
    have hna : a ∉ akeys m := (List.nodup_cons.1 (by simpa [akeys] using hnd)).1
    by_cases hq : q = a
    · subst hq
      by_cases hk : k = q
      · subst hk
        simp only [aerase, if_pos rfl, if_pos rfl]
        exact alookup_none_of_not_mem_akeys hna
      · simp [aerase, alookup, hk]
    · by_cases hk : k = a
      · subst hk
        have hkq : ¬ k = q := fun h => hq h.symm
        simp [aerase, alookup, hq, hkq]
      · simp [aerase, alookup, hq, hk, ih hnd']

theorem mem_akeys_aerase {α : Type} (q k : Nat) :
    ∀ {m : List (Nat × α)}, k ∈ akeys (aerase q m) → k ∈ akeys m := by
  intro m
  induction m with
  | nil => simp [aerase]
  | cons p m ih =>
    obtain ⟨a, v⟩ := p
    by_cases hq : q = a
    · simp only [aerase, if_pos hq, akeys, List.map_cons, List.mem_cons]
      intro h; exact Or.inr h
    · simp only [aerase, if_neg hq, akeys, List.map_cons, List.mem_cons]
      rintro (rfl | h)
      · exact Or.inl rfl
      · exact Or.inr (ih h)

theorem akeys_aerase_nodup {α : Type} (q : Nat) :
    ∀ {m : List (Nat × α)}, (akeys m).Nodup →
      ∀ k, k ∈ akeys (aerase q m) ↔ k ∈ akeys m ∧ k ≠ q := by
  intro m hnd k
  constructor
  · intro h
    have h2 := mem_akeys_iff_isSome.1 h
    rw [alookup_aerase q k hnd] at h2
    by_cases hkq : k = q
    · rw [if_pos hkq] at h2
      simp at h2
    · exact ⟨mem_akeys_aerase q k h, hkq⟩
  · rintro ⟨hk, hne⟩
    rw [mem_akeys_iff_isSome, alookup_aerase q k hnd, if_neg hne]
    exact mem_akeys_iff_isSome.1 hk

theorem edgeSymB_iff (c : cfg_t) : EdgeSym c ↔ edgeSymB c = true := by
  unfold EdgeSym edgeSymB
  simp only [List.all_eq_true]
  constructor
  · intro h a ha b hb
    have hiff := h a b ha hb
    by_cases hn : b ∈ nextOf c a
    · simp [hn, hiff.1 hn]
    · have hp : a ∉ prevOf c b := fun hp => hn (hiff.2 hp)
      simp [hn, hp]
  · intro h a b ha hb
    have hab := h a ha b hb
    by_cases hn : b ∈ nextOf c a <;> by_cases hp : a ∈ prevOf c b <;>
      simp [hn, hp] at hab ⊢

theorem akeys_ainsert {α : Type} (q : Nat) (v : α) :
    ∀ (m : List (Nat × α)), akeys (ainsert q v m) = sinsert q (akeys m) := by
  intro m
  induction m with
  | nil => simp [ainsert, akeys, sinsert]
  | cons p m ih =>
    obtain ⟨a, w⟩ := p
    rcases Nat.lt_trichotomy q a with h | h | h
    · simp [ainsert, akeys, sinsert, h]
    · subst h
      simp [ainsert, akeys, sinsert, Nat.lt_irrefl]
    · have h1 : ¬ q < a := by omega
      have h2 : ¬ q = a := by omega
      simp only [ainsert, if_neg h1, if_neg h2, akeys, List.map_cons, sinsert]
      rw [akeys] at ih
      simp only [ih]
      rfl

theorem alookup_ainsert {α : Type} (q k : Nat) (v : α) :
    ∀ {m : List (Nat × α)}, (akeys m).Sorted (· < ·) →
      alookup (ainsert q v m) k =
        if k = q then some ((alookup m q).getD v) else alookup m k := by
  intro m
  induction m with
  | nil =>
    intro _
    by_cases hk : k = q <;> simp [ainsert, alookup, hk]
  | cons p m ih =>
    intro hs
    obtain ⟨a, w⟩ := p
    have hs0 : (a :: akeys m).Sorted (· < ·) := by simpa [akeys] using hs
    have hs' : (akeys m).Sorted (· < ·) := (List.sorted_cons.1 hs0).2
    have hlt : ∀ b ∈ akeys m, a < b := (List.sorted_cons.1 hs0).1
    rcases Nat.lt_trichotomy q a with h | h | h
    · have hqm : q ∉ akeys m := fun hq => by have := hlt q hq; omega
      have hnone : alookup m q = none := alookup_none_of_not_mem_akeys hqm
      have hqa : ¬ q = a := by omega
      by_cases hk : k = q
      · subst hk
        simp [ainsert, alookup, h, hqa, hnone]
      · simp [ainsert, alookup, h, hk]
    · subst h
      by_cases hk : k = q
      · subst hk
        simp [ainsert, alookup, Nat.lt_irrefl]
      · simp [ainsert, alookup, Nat.lt_irrefl, hk]
    · have h1 : ¬ q < a := by omega
      have h2 : ¬ q = a := by omega
      by_cases hk : k = a
      · subst hk
        have hkq : ¬ k = q := by omega
        simp [ainsert, alookup, h1, h2, hkq]
      · simp [ainsert, alookup, h1, h2, hk, ih hs']

theorem aerase_of_not_mem {α : Type} (q : Nat) :
    ∀ {m : List (Nat × α)}, q ∉ akeys m → aerase q m = m := by
  intro m
  induction m with
  | nil => simp [aerase]
  | cons p m ih =>
    obtain ⟨a, v⟩ := p
    intro hq
    have h1 : ¬ q = a := fun h => hq (by simp [akeys, h])
    have h2 : q ∉ akeys m := fun h => hq (by simp [akeys] at h ⊢; exact Or.inr h)
    simp [aerase, h1, ih h2]

theorem aerase_sublist {α : Type} (q : Nat) :
    ∀ (m : List (Nat × α)), (aerase q m).Sublist m := by
  intro m
  induction m with
  | nil => simp [aerase]
  | cons p m ih =>
    obtain ⟨a, v⟩ := p
    by_cases h : q = a
    · simp only [aerase, if_pos h]
      exact List.sublist_cons_of_sublist _ (List.Sublist.refl m)
    · simp only [aerase, if_neg h]
      exact List.Sublist.cons₂ _ ih

theorem akeys_aerase_sublist {α : Type} (q : Nat) (m : List (Nat × α)) :
    (akeys (aerase q m)).Sublist (akeys m) :=
  List.Sublist.map _ (aerase_sublist q m)

@[simp] theorem updNext_entry (c : cfg_t) (l : Nat) (f : List Nat → List Nat) :
    (updNext c l f).m_entry = c.m_entry := rfl
@[simp] theorem updNext_exit (c : cfg_t) (l : Nat) (f : List Nat → List Nat) :
    (updNext c l f).m_exit = c.m_exit := rfl
@[simp] theorem updPrev_entry (c : cfg_t) (l : Nat) (f : List Nat → List Nat) :
    (updPrev c l f).m_entry = c.m_entry := rfl
@[simp] theorem updPrev_exit (c : cfg_t) (l : Nat) (f : List Nat → List Nat) :
    (updPrev c l f).m_exit = c.m_exit := rfl
@[simp] theorem updTs_entry (c : cfg_t) (l : Nat) (f : List Nat → List Nat) :
    (updTs c l f).m_entry = c.m_entry := rfl
@[simp] theorem updTs_exit (c : cfg_t) (l : Nat) (f : List Nat → List Nat) :
    (updTs c l f).m_exit = c.m_exit := rfl

@[simp] theorem connect_entry (c : cfg_t) (a b : Nat) : (connect c a b).m_entry = c.m_entry := rfl
@[simp] theorem connect_exit (c : cfg_t) (a b : Nat) : (connect c a b).m_exit = c.m_exit := rfl
@[simp] theorem disconnect_entry (c : cfg_t) (a b : Nat) :
    (disconnect c a b).m_entry = c.m_entry := rfl
@[simp] theorem disconnect_exit (c : cfg_t) (a b : Nat) :
    (disconnect c a b).m_exit = c.m_exit := rfl

theorem removeImpl_entry (c : cfg_t) (l : Nat) : (removeImpl c l).m_entry = c.m_entry := by
  unfold removeImpl
  have h1 : ∀ (ids : List Nat) (c0 : cfg_t),
      (ids.foldl (fun acc id => updNext acc id (serase l)) c0).m_entry = c0.m_entry := by
    intro ids
    induction ids with
    | nil => intro c0; rfl
    | cons i ids ih => intro c0; simpa using ih (updNext c0 i (serase l))
  have h2 : ∀ (ids : List Nat) (c0 : cfg_t),
      (ids.foldl (fun acc id => updPrev acc id (serase l)) c0).m_entry = c0.m_entry := by
    intro ids
    induction ids with
    | nil => intro c0; rfl
    | cons i ids ih => intro c0; simpa using ih (updPrev c0 i (serase l))
  simp [h1, h2]

theorem removeImpl_exit (c : cfg_t) (l : Nat) : (removeImpl c l).m_exit = c.m_exit := by
  unfold removeImpl
  have h1 : ∀ (ids : List Nat) (c0 : cfg_t),
      (ids.foldl (fun acc id => updNext acc id (serase l)) c0).m_exit = c0.m_exit := by
    intro ids
    induction ids with
    | nil => intro c0; rfl
    | cons i ids ih => intro c0; simpa using ih (updNext c0 i (serase l))
  have h2 : ∀ (ids : List Nat) (c0 : cfg_t),
      (ids.foldl (fun acc id => updPrev acc id (serase l)) c0).m_exit = c0.m_exit := by
    intro ids
    induction ids with
    | nil => intro c0; rfl
    | cons i ids ih => intro c0; simpa using ih (updPrev c0 i (serase l))
  simp [h1, h2]

@[simp] theorem removeBlock_entry (c : cfg_t) (l : Nat) :
    (removeBlock c l).m_entry = c.m_entry := by
  unfold removeBlock
  split
  · rfl
  · exact removeImpl_entry c l

@[simp] theorem removeBlock_exit (c : cfg_t) (l : Nat) :
    (removeBlock c l).m_exit = c.m_exit := by
  unfold removeBlock
  split
  · rfl
  · exact removeImpl_exit c l

theorem getBlock_updNext (c : cfg_t) (l k : Nat) (f : List Nat → List Nat) :
    getBlock (updNext c l f) k =
      if k = l then (getBlock c l).map (fun b => { b with m_next := f b.m_next })
      else getBlock c k := by
  unfold getBlock updNext
  simpa using alookup_aupdate l k _ c.m_blocks

theorem getBlock_updPrev (c : cfg_t) (l k : Nat) (f : List Nat → List Nat) :
    getBlock (updPrev c l f) k =
      if k = l then (getBlock c l).map (fun b => { b with m_prev := f b.m_prev })
      else getBlock c k := by
  unfold getBlock updPrev
  simpa using alookup_aupdate l k _ c.m_blocks

theorem getBlock_updTs (c : cfg_t) (l k : Nat) (f : List Nat → List Nat) :
    getBlock (updTs c l f) k =
      if k = l then (getBlock c l).map (fun b => { b with m_ts := f b.m_ts })
      else getBlock c k := by
  unfold getBlock updTs
  simpa using alookup_aupdate l k _ c.m_blocks

theorem prevOf_updNext (c : cfg_t) (l : Nat) (f : List Nat → List Nat) (k : Nat) :
    prevOf (updNext c l f) k = prevOf c k := by
  unfold prevOf
  rw [getBlock_updNext]
  by_cases h : k = l
  · subst h; cases getBlock c k <;> simp
  · simp [h]

theorem nextOf_updPrev (c : cfg_t) (l : Nat) (f : List Nat → List Nat) (k : Nat) :
    nextOf (updPrev c l f) k = nextOf c k := by
  unfold nextOf
  rw [getBlock_updPrev]
  by_cases h : k = l
  · subst h; cases getBlock c k <;> simp
  · simp [h]

theorem tsOf_updNext (c : cfg_t) (l : Nat) (f : List Nat → List Nat) (k : Nat) :
    tsOf (updNext c l f) k = tsOf c k := by
  unfold tsOf
  rw [getBlock_updNext]
  by_cases h : k = l
  · subst h; cases getBlock c k <;> simp
  · simp [h]

theorem tsOf_updPrev (c : cfg_t) (l : Nat) (f : List Nat → List Nat) (k : Nat) :
    tsOf (updPrev c l f) k = tsOf c k := by
  unfold tsOf
  rw [getBlock_updPrev]
  by_cases h : k = l
  · subst h; cases getBlock c k <;> simp
  · simp [h]

theorem nextOf_updNext_ne (c : cfg_t) (l : Nat) (f : List Nat → List Nat) (k : Nat)
    (h : k ≠ l) : nextOf (updNext c l f) k = nextOf c k := by
  unfold nextOf
  rw [getBlock_updNext, if_neg h]

theorem prevOf_updPrev_ne (c : cfg_t) (l : Nat) (f : List Nat → List Nat) (k : Nat)
    (h : k ≠ l) : prevOf (updPrev c l f) k = prevOf c k := by
  unfold prevOf
  rw [getBlock_updPrev, if_neg h]

theorem nextOf_updNext_self_nil (c : cfg_t) (l : Nat) (f : List Nat → List Nat)
    (hnil : f [] = []) : nextOf (updNext c l f) l = f (nextOf c l) := by
  unfold nextOf
  rw [getBlock_updNext, if_pos rfl]
  cases getBlock c l <;> simp [hnil]

theorem prevOf_updPrev_self_nil (c : cfg_t) (l : Nat) (f : List Nat → List Nat)
    (hnil : f [] = []) : prevOf (updPrev c l f) l = f (prevOf c l) := by
  unfold prevOf
  rw [getBlock_updPrev, if_pos rfl]
  cases getBlock c l <;> simp [hnil]

theorem akeys_updNext (c : cfg_t) (l : Nat) (f : List Nat → List Nat) :
    akeys (updNext c l f).m_blocks = akeys c.m_blocks := akeys_aupdate l _ c.m_blocks

theorem akeys_updPrev (c : cfg_t) (l : Nat) (f : List Nat → List Nat) :
    akeys (updPrev c l f).m_blocks = akeys c.m_blocks := akeys_aupdate l _ c.m_blocks

theorem akeys_updTs (c : cfg_t) (l : Nat) (f : List Nat → List Nat) :
    akeys (updTs c l f).m_blocks = akeys c.m_blocks := akeys_aupdate l _ c.m_blocks

theorem getBlock_foldl_updNext (l : Nat) :
    ∀ (ids : List Nat) (c : cfg_t) (k : Nat), ids.Nodup →
      getBlock (ids.foldl (fun acc id => updNext acc id (serase l)) c) k =
        if k ∈ ids then (getBlock c k).map (fun b => { b with m_next := serase l b.m_next })
        else getBlock c k := by
  intro ids
  induction ids with
  | nil => intro c k _; simp
  | cons i ids ih =>
    intro c k hnd
    have hnd' : ids.Nodup := (List.nodup_cons.1 hnd).2
    have hni : i ∉ ids := (List.nodup_cons.1 hnd).1
    simp only [List.foldl_cons]
    rw [ih (updNext c i (serase l)) k hnd']
    by_cases hk : k ∈ ids
    · have hki : k ≠ i := fun h => hni (h ▸ hk)
      rw [if_pos hk, if_pos (List.mem_cons.2 (Or.inr hk)), getBlock_updNext, if_neg hki]
    · rw [if_neg hk, getBlock_updNext]
      by_cases hki : k = i
      · subst hki
        simp
      · rw [if_neg hki, if_neg (by simp [hki, hk])]

theorem getBlock_foldl_updPrev (l : Nat) :
    ∀ (ids : List Nat) (c : cfg_t) (k : Nat), ids.Nodup →
      getBlock (ids.foldl (fun acc id => updPrev acc id (serase l)) c) k =
        if k ∈ ids then (getBlock c k).map (fun b => { b with m_prev := serase l b.m_prev })
        else getBlock c k := by
  intro ids
  induction ids with
  | nil => intro c k _; simp
  | cons i ids ih =>
    intro c k hnd
    have hnd' : ids.Nodup := (List.nodup_cons.1 hnd).2
    have hni : i ∉ ids := (List.nodup_cons.1 hnd).1
    simp only [List.foldl_cons]
    rw [ih (updPrev c i (serase l)) k hnd']
    by_cases hk : k ∈ ids
    · have hki : k ≠ i := fun h => hni (h ▸ hk)
      rw [if_pos hk, if_pos (List.mem_cons.2 (Or.inr hk)), getBlock_updPrev, if_neg hki]
    · rw [if_neg hk, getBlock_updPrev]
      by_cases hki : k = i
      · subst hki
        simp
      · rw [if_neg hki, if_neg (by simp [hki, hk])]

theorem akeys_foldl_updNext (l : Nat) :
    ∀ (ids : List Nat) (c : cfg_t),
      akeys ((ids.foldl (fun acc id => updNext acc id (serase l)) c)).m_blocks =
        akeys c.m_blocks := by
  intro ids
  induction ids with
  | nil => intro c; rfl
  | cons i ids ih =>
    intro c
    simp only [List.foldl_cons]
    rw [ih, akeys_updNext]

theorem akeys_foldl_updPrev (l : Nat) :
    ∀ (ids : List Nat) (c : cfg_t),
      akeys ((ids.foldl (fun acc id => updPrev acc id (serase l)) c)).m_blocks =
        akeys c.m_blocks := by
  intro ids
  induction ids with
  | nil => intro c; rfl
  | cons i ids ih =>
    intro c
    simp only [List.foldl_cons]
    rw [ih, akeys_updPrev]

theorem mem_akeys_removeImpl (c : cfg_t) (l : Nat)
    (hnd : (akeys c.m_blocks).Nodup) (k : Nat) :
    k ∈ akeys (removeImpl c l).m_blocks ↔ k ∈ akeys c.m_blocks ∧ k ≠ l := by
  unfold removeImpl
  simp only
  rw [akeys_aerase_nodup l (by rw [akeys_foldl_updPrev, akeys_foldl_updNext]; exact hnd) k,
    akeys_foldl_updPrev, akeys_foldl_updNext]

theorem getBlock_removeImpl_self (c : cfg_t) (l : Nat)
    (hnd : (akeys c.m_blocks).Nodup) :
    getBlock (removeImpl c l) l = none := by
  unfold removeImpl getBlock
  simp only
  rw [alookup_aerase l l (by rw [akeys_foldl_updPrev, akeys_foldl_updNext]; exact hnd),
    if_pos rfl]

theorem nextOf_foldl_updPrev (l : Nat) :
    ∀ (ids : List Nat) (c : cfg_t) (k : Nat),
      nextOf (ids.foldl (fun acc id => updPrev acc id (serase l)) c) k = nextOf c k := by
  intro ids
  induction ids with
  | nil => intro c k; rfl
  | cons i ids ih =>
    intro c k
    simp only [List.foldl_cons]
    rw [ih, nextOf_updPrev]

theorem prevOf_foldl_updNext (l : Nat) :
    ∀ (ids : List Nat) (c : cfg_t) (k : Nat),
      prevOf (ids.foldl (fun acc id => updNext acc id (serase l)) c) k = prevOf c k := by
  intro ids
  induction ids with
  | nil => intro c k; rfl
  | cons i ids ih =>
    intro c k
    simp only [List.foldl_cons]
    rw [ih, prevOf_updNext]

theorem tsOf_foldl_updPrev (l : Nat) :
    ∀ (ids : List Nat) (c : cfg_t) (k : Nat),
      tsOf (ids.foldl (fun acc id => updPrev acc id (serase l)) c) k = tsOf c k := by
  intro ids
  induction ids with
  | nil => intro c k; rfl
  | cons i ids ih =>
    intro c k
    simp only [List.foldl_cons]
    rw [ih, tsOf_updPrev]

theorem tsOf_foldl_updNext (l : Nat) :
    ∀ (ids : List Nat) (c : cfg_t) (k : Nat),
      tsOf (ids.foldl (fun acc id => updNext acc id (serase l)) c) k = tsOf c k := by
  intro ids
  induction ids with
  | nil => intro c k; rfl
  | cons i ids ih =>
    intro c k
    simp only [List.foldl_cons]
    rw [ih, tsOf_updNext]

theorem nextOf_foldl_updNext (l : Nat) (ids : List Nat) (hnd : ids.Nodup) (c : cfg_t) (k : Nat) :
    nextOf (ids.foldl (fun acc id => updNext acc id (serase l)) c) k =
      if k ∈ ids then serase l (nextOf c k) else nextOf c k := by
  unfold nextOf
  rw [getBlock_foldl_updNext l ids c k hnd]
  by_cases hkm : k ∈ ids
  · rw [if_pos hkm, if_pos hkm]
    cases getBlock c k <;> simp [serase]
  · rw [if_neg hkm, if_neg hkm]

theorem prevOf_foldl_updPrev (l : Nat) (ids : List Nat) (hnd : ids.Nodup) (c : cfg_t) (k : Nat) :
    prevOf (ids.foldl (fun acc id => updPrev acc id (serase l)) c) k =
      if k ∈ ids then serase l (prevOf c k) else prevOf c k := by
  unfold prevOf
  rw [getBlock_foldl_updPrev l ids c k hnd]
  by_cases hkm : k ∈ ids
  · rw [if_pos hkm, if_pos hkm]
    cases getBlock c k <;> simp [serase]
  · rw [if_neg hkm, if_neg hkm]

theorem nextOf_removeImpl (c : cfg_t) (l k : Nat) (hk : k ≠ l)
    (hnd : (akeys c.m_blocks).Nodup) (hpr : (prevOf c l).Nodup) (hnx : (nextOf c l).Nodup) :
    nextOf (removeImpl c l) k =
      if k ∈ (prevOf c l).filter (· ≠ l) then serase l (nextOf c k) else nextOf c k := by
  unfold removeImpl
  simp only
  have hkeys2 : (akeys (((nextOf c l).filter (· ≠ l)).foldl
      (fun acc id => updPrev acc id (serase l))
      (((prevOf c l).filter (· ≠ l)).foldl (fun acc id => updNext acc id (serase l)) c)).m_blocks).Nodup := by
    rw [akeys_foldl_updPrev, akeys_foldl_updNext]; exact hnd
  have h3 : ∀ (c2 : cfg_t), (akeys c2.m_blocks).Nodup →
      nextOf { c2 with m_blocks := aerase l c2.m_blocks } k = nextOf c2 k := by
    intro c2 h2
    unfold nextOf getBlock
    simp only
    rw [alookup_aerase l k h2, if_neg hk]
  rw [h3 _ hkeys2, nextOf_foldl_updPrev, nextOf_foldl_updNext l _ (hpr.filter _)]

theorem prevOf_removeImpl (c : cfg_t) (l k : Nat) (hk : k ≠ l)
    (hnd : (akeys c.m_blocks).Nodup) (hpr : (prevOf c l).Nodup) (hnx : (nextOf c l).Nodup) :
    prevOf (removeImpl c l) k =
      if k ∈ (nextOf c l).filter (· ≠ l) then serase l (prevOf c k) else prevOf c k := by
  unfold removeImpl
  simp only
  have hkeys2 : (akeys (((nextOf c l).filter (· ≠ l)).foldl
      (fun acc id => updPrev acc id (serase l))
      (((prevOf c l).filter (· ≠ l)).foldl (fun acc id => updNext acc id (serase l)) c)).m_blocks).Nodup := by
    rw [akeys_foldl_updPrev, akeys_foldl_updNext]; exact hnd
  have h3 : ∀ (c2 : cfg_t), (akeys c2.m_blocks).Nodup →
      prevOf { c2 with m_blocks := aerase l c2.m_blocks } k = prevOf c2 k := by
    intro c2 h2
    unfold prevOf getBlock
    simp only
    rw [alookup_aerase l k h2, if_neg hk]
  rw [h3 _ hkeys2, prevOf_foldl_updPrev l _ (hnx.filter _), prevOf_foldl_updNext]

theorem tsOf_removeImpl (c : cfg_t) (l k : Nat) (hk : k ≠ l)
    (hnd : (akeys c.m_blocks).Nodup) :
    tsOf (removeImpl c l) k = tsOf c k := by
  unfold removeImpl
  simp only
  have hkeys2 : (akeys (((nextOf c l).filter (· ≠ l)).foldl
      (fun acc id => updPrev acc id (serase l))
      (((prevOf c l).filter (· ≠ l)).foldl (fun acc id => updNext acc id (serase l)) c)).m_blocks).Nodup := by
    rw [akeys_foldl_updPrev, akeys_foldl_updNext]; exact hnd
  have h3 : ∀ (c2 : cfg_t), (akeys c2.m_blocks).Nodup →
      tsOf { c2 with m_blocks := aerase l c2.m_blocks } k = tsOf c2 k := by
    intro c2 h2
    unfold tsOf getBlock
    simp only
    rw [alookup_aerase l k h2, if_neg hk]
  rw [h3 _ hkeys2, tsOf_foldl_updPrev, tsOf_foldl_updNext]

theorem nextOf_eq_nil_of_not_mem (c : cfg_t) (k : Nat) (h : k ∉ akeys c.m_blocks) :
    nextOf c k = [] := by
  unfold nextOf getBlock
  rw [alookup_none_of_not_mem_akeys h]
  rfl

theorem prevOf_eq_nil_of_not_mem (c : cfg_t) (k : Nat) (h : k ∉ akeys c.m_blocks) :
    prevOf c k = [] := by
  unfold prevOf getBlock
  rw [alookup_none_of_not_mem_akeys h]
  rfl

theorem mem_akeys_removeBlock (c : cfg_t) (l : Nat) (hwf : CfgWF c)
    (hl1 : l ≠ c.m_entry) (hl2 : l ≠ c.m_exit) (k : Nat) :
    k ∈ akeys (removeBlock c l).m_blocks ↔ k ∈ akeys c.m_blocks ∧ k ≠ l := by
  unfold removeBlock
  rw [if_neg (by tauto)]
  exact mem_akeys_removeImpl c l hwf.keysSorted.nodup k

theorem mem_nextOf_removeBlock (c : cfg_t) (l : Nat)
    (hwf : CfgWF c) (hcl : CfgClosed c) (hsym : EdgeSym c)
    (hl1 : l ≠ c.m_entry) (hl2 : l ≠ c.m_exit) (k m : Nat) (hk : k ≠ l) :
    m ∈ nextOf (removeBlock c l) k ↔ m ∈ nextOf c k ∧ m ≠ l := by
  unfold removeBlock
  rw [if_neg (by tauto)]
  rw [nextOf_removeImpl c l k hk hwf.keysSorted.nodup (hwf.prevSorted l).nodup
    (hwf.nextSorted l).nodup]
  by_cases hkm : k ∈ (prevOf c l).filter (· ≠ l)
  · rw [if_pos hkm]
    exact mem_serase_nodup (hwf.nextSorted k).nodup
  · rw [if_neg hkm]
    constructor
    · intro hm
      refine ⟨hm, ?_⟩
      rintro rfl
      by_cases hkkey : k ∈ akeys c.m_blocks
      · by_cases hlkey : m ∈ akeys c.m_blocks
        · have hkp := (hsym k m hkkey hlkey).1 hm
          exact hkm (List.mem_filter.2 ⟨hkp, by simp [hk]⟩)
        · exact hlkey ((hcl k hkkey).1 m hm)
      · rw [nextOf_eq_nil_of_not_mem c k hkkey] at hm
        simp at hm
    · rintro ⟨hm, _⟩
      exact hm

theorem mem_prevOf_removeBlock (c : cfg_t) (l : Nat)
    (hwf : CfgWF c) (hcl : CfgClosed c) (hsym : EdgeSym c)
    (hl1 : l ≠ c.m_entry) (hl2 : l ≠ c.m_exit) (k m : Nat) (hk : k ≠ l) :
    m ∈ prevOf (removeBlock c l) k ↔ m ∈ prevOf c k ∧ m ≠ l := by
  unfold removeBlock
  rw [if_neg (by tauto)]
  rw [prevOf_removeImpl c l k hk hwf.keysSorted.nodup (hwf.prevSorted l).nodup
    (hwf.nextSorted l).nodup]
  by_cases hkm : k ∈ (nextOf c l).filter (· ≠ l)
  · rw [if_pos hkm]
    exact mem_serase_nodup (hwf.prevSorted k).nodup
  · rw [if_neg hkm]
    constructor
    · intro hm
      refine ⟨hm, ?_⟩
      rintro rfl
      by_cases hkkey : k ∈ akeys c.m_blocks
      · by_cases hlkey : m ∈ akeys c.m_blocks
        · have hkp := (hsym m k hlkey hkkey).2 hm
          exact hkm (List.mem_filter.2 ⟨hkp, by simp [hk]⟩)
        · exact hlkey ((hcl k hkkey).2 m hm)
      · rw [prevOf_eq_nil_of_not_mem c k hkkey] at hm
        simp at hm
    · rintro ⟨hm, _⟩
      exact hm

theorem tsOf_removeBlock (c : cfg_t) (l : Nat) (hwf : CfgWF c)
    (hl1 : l ≠ c.m_entry) (hl2 : l ≠ c.m_exit) (k : Nat) (hk : k ≠ l) :
    tsOf (removeBlock c l) k = tsOf c k := by
  unfold removeBlock
  rw [if_neg (by tauto)]
  exact tsOf_removeImpl c l k hk hwf.keysSorted.nodup

theorem nextOf_removeBlock_self (c : cfg_t) (l : Nat) (hwf : CfgWF c)
    (hl1 : l ≠ c.m_entry) (hl2 : l ≠ c.m_exit) :
    nextOf (removeBlock c l) l = [] ∧ prevOf (removeBlock c l) l = [] := by
  unfold removeBlock
  rw [if_neg (by tauto)]
  constructor
  · unfold nextOf
    rw [getBlock_removeImpl_self c l hwf.keysSorted.nodup]
    rfl
  · unfold prevOf
    rw [getBlock_removeImpl_self c l hwf.keysSorted.nodup]
    rfl

theorem inv_removeBlock (c : cfg_t) (l : Nat) (hinv : CfgInv c)
    (hl1 : l ≠ c.m_entry) (hl2 : l ≠ c.m_exit) :
    CfgInv (removeBlock c l) := by
  obtain ⟨hwf, hcl, hsym⟩ := hinv
  refine ⟨⟨?_, ?_, ?_⟩, ?_, ?_⟩
  · -- keys sorted
    unfold removeBlock
    rw [if_neg (by tauto)]
    unfold removeImpl
    simp only
    have h2 : akeys (((nextOf c l).filter (· ≠ l)).foldl
        (fun acc id => updPrev acc id (serase l))
        (((prevOf c l).filter (· ≠ l)).foldl (fun acc id => updNext acc id (serase l)) c)).m_blocks
        = akeys c.m_blocks := by
      rw [akeys_foldl_updPrev, akeys_foldl_updNext]
    exact List.Pairwise.sublist (akeys_aerase_sublist l _) (by rw [h2]; exact hwf.keysSorted)
  · -- prev sorted
    intro k
    by_cases hk : k = l
    · rw [hk, (nextOf_removeBlock_self c l hwf hl1 hl2).2]
      simp
    · unfold removeBlock
      rw [if_neg (by tauto)]
      rw [prevOf_removeImpl c l k hk hwf.keysSorted.nodup (hwf.prevSorted l).nodup
        (hwf.nextSorted l).nodup]
      by_cases hkm : k ∈ (nextOf c l).filter (· ≠ l)
      · rw [if_pos hkm]
        exact sorted_serase (hwf.prevSorted k)
      · rw [if_neg hkm]
        exact hwf.prevSorted k
  · -- next sorted
    intro k
    by_cases hk : k = l
    · rw [hk, (nextOf_removeBlock_self c l hwf hl1 hl2).1]
      simp
    · unfold removeBlock
      rw [if_neg (by tauto)]
      rw [nextOf_removeImpl c l k hk hwf.keysSorted.nodup (hwf.prevSorted l).nodup
        (hwf.nextSorted l).nodup]
      by_cases hkm : k ∈ (prevOf c l).filter (· ≠ l)
      · rw [if_pos hkm]
        exact sorted_serase (hwf.nextSorted k)
      · rw [if_neg hkm]
        exact hwf.nextSorted k
  · -- closed
    intro k hkmem
    have hk : k ≠ l := ((mem_akeys_removeBlock c l hwf hl1 hl2 k).1 hkmem).2
    have hkc : k ∈ akeys c.m_blocks := ((mem_akeys_removeBlock c l hwf hl1 hl2 k).1 hkmem).1
    constructor
    · intro m hm
      have h := (mem_nextOf_removeBlock c l hwf hcl hsym hl1 hl2 k m hk).1 hm
      exact (mem_akeys_removeBlock c l hwf hl1 hl2 m).2 ⟨(hcl k hkc).1 m h.1, h.2⟩
    · intro m hm
      have h := (mem_prevOf_removeBlock c l hwf hcl hsym hl1 hl2 k m hk).1 hm
      exact (mem_akeys_removeBlock c l hwf hl1 hl2 m).2 ⟨(hcl k hkc).2 m h.1, h.2⟩
  · -- symmetry
    intro a b ha hb
    have ha' := (mem_akeys_removeBlock c l hwf hl1 hl2 a).1 ha
    have hb' := (mem_akeys_removeBlock c l hwf hl1 hl2 b).1 hb
    rw [mem_nextOf_removeBlock c l hwf hcl hsym hl1 hl2 a b ha'.2,
      mem_prevOf_removeBlock c l hwf hcl hsym hl1 hl2 b a hb'.2]
    rw [hsym a b ha'.1 hb'.1]
    tauto

/-- Folding `remove` over a list of labels (none of which is the entry or the
    exit) removes exactly those blocks and erases them from every edge set. -/
theorem removeList_spec (D : List Nat) :
    ∀ (c : cfg_t), CfgInv c → (∀ l ∈ D, l ≠ c.m_entry ∧ l ≠ c.m_exit) →
      CfgInv (D.foldl removeBlock c) ∧
      (D.foldl removeBlock c).m_entry = c.m_entry ∧
      (D.foldl removeBlock c).m_exit = c.m_exit ∧
      (∀ k, k ∈ akeys (D.foldl removeBlock c).m_blocks ↔ k ∈ akeys c.m_blocks ∧ k ∉ D) ∧
      (∀ k m, k ∉ D →
        (m ∈ nextOf (D.foldl removeBlock c) k ↔ m ∈ nextOf c k ∧ m ∉ D)) ∧
      (∀ k m, k ∉ D →
        (m ∈ prevOf (D.foldl removeBlock c) k ↔ m ∈ prevOf c k ∧ m ∉ D)) ∧
      (∀ k, k ∉ D → tsOf (D.foldl removeBlock c) k = tsOf c k) := by
  induction D with
  | nil =>
    intro c hinv _
    refine ⟨hinv, rfl, rfl, ?_, ?_, ?_, ?_⟩ <;> simp
  | cons l D ih =>
    intro c hinv hD
    have hl1 : l ≠ c.m_entry := (hD l (List.mem_cons_self l D)).1
    have hl2 : l ≠ c.m_exit := (hD l (List.mem_cons_self l D)).2
    have hinv' : CfgInv (removeBlock c l) := inv_removeBlock c l hinv hl1 hl2
    have hD' : ∀ x ∈ D, x ≠ (removeBlock c l).m_entry ∧ x ≠ (removeBlock c l).m_exit := by
      intro x hx
      rw [removeBlock_entry, removeBlock_exit]
      exact hD x (List.mem_cons_of_mem l hx)
    obtain ⟨h1, h2, h3, h4, h5, h6, h7⟩ := ih (removeBlock c l) hinv' hD'
    simp only [List.foldl_cons]
    refine ⟨h1, by rw [h2, removeBlock_entry], by rw [h3, removeBlock_exit], ?_, ?_, ?_, ?_⟩
    · intro k
      rw [h4 k, mem_akeys_removeBlock c l hinv.wf hl1 hl2 k]
      simp only [List.mem_cons]
      tauto
    · intro k m hk
      have hkl : k ≠ l := fun h => hk (List.mem_cons.2 (Or.inl h))
      have hkD : k ∉ D := fun h => hk (List.mem_cons.2 (Or.inr h))
      rw [h5 k m hkD, mem_nextOf_removeBlock c l hinv.wf hinv.closed hinv.sym hl1 hl2 k m hkl]
      simp only [List.mem_cons]
      tauto
    · intro k m hk
      have hkl : k ≠ l := fun h => hk (List.mem_cons.2 (Or.inl h))
      have hkD : k ∉ D := fun h => hk (List.mem_cons.2 (Or.inr h))
      rw [h6 k m hkD, mem_prevOf_removeBlock c l hinv.wf hinv.closed hinv.sym hl1 hl2 k m hkl]
      simp only [List.mem_cons]
      tauto
    · intro k hk
      have hkl : k ≠ l := fun h => hk (List.mem_cons.2 (Or.inl h))
      have hkD : k ∉ D := fun h => hk (List.mem_cons.2 (Or.inr h))
      rw [h7 k hkD, tsOf_removeBlock c l hinv.wf hl1 hl2 k hkl]

theorem mem_foldl_sinsert {z : Nat} :
    ∀ (l s : List Nat), z ∈ l.foldl (fun acc x => sinsert x acc) s ↔ z ∈ s ∨ z ∈ l := by
  intro l
  induction l with
  | nil => intro s; simp
  | cons x l ih =>
    intro s
    simp only [List.foldl_cons]
    rw [ih (sinsert x s)]
    rw [mem_sinsert]
    simp only [List.mem_cons]
    tauto

theorem sorted_foldl_sinsert :
    ∀ (l s : List Nat), s.Sorted (· < ·) →
      (l.foldl (fun acc x => sinsert x acc) s).Sorted (· < ·) := by
  intro l
  induction l with
  | nil => intro s hs; exact hs
  | cons x l ih =>
    intro s hs
    simp only [List.foldl_cons]
    exact ih (sinsert x s) (sorted_sinsert hs)

theorem mem_grow {nf : Nat → List Nat} {s : List Nat} {z : Nat} :
    z ∈ grow nf s ↔ z ∈ s ∨ ∃ x, x ∈ s ∧ z ∈ nf x := by
  unfold grow
  rw [mem_foldl_sinsert]
  simp only [List.mem_flatten, List.mem_map]
  constructor
  · rintro (h | ⟨t, ⟨x, hx, rfl⟩, hz⟩)
    · exact Or.inl h
    · exact Or.inr ⟨x, hx, hz⟩
  · rintro (h | ⟨x, hx, hz⟩)
    · exact Or.inl h
    · exact Or.inr ⟨nf x, ⟨x, hx, rfl⟩, hz⟩

theorem sorted_grow {nf : Nat → List Nat} {s : List Nat} (hs : s.Sorted (· < ·)) :
    (grow nf s).Sorted (· < ·) :=
  sorted_foldl_sinsert _ s hs

theorem subset_grow {nf : Nat → List Nat} {s : List Nat} {z : Nat} (hz : z ∈ s) :
    z ∈ grow nf s :=
  mem_grow.2 (Or.inl hz)

theorem sinsert_of_mem {x : Nat} :
    ∀ {s : List Nat}, s.Sorted (· < ·) → x ∈ s → sinsert x s = s := by
  intro s
  induction s with
  | nil => simp
  | cons y ys ih =>
    intro hs hx
    rcases List.sorted_cons.1 hs with ⟨hy, hys⟩
    rcases List.mem_cons.1 hx with rfl | hx
    · simp [sinsert, Nat.lt_irrefl]
    · have h1 : ¬ x < y := by have := hy x hx; omega
      have h2 : ¬ x = y := by have := hy x hx; omega
      simp only [sinsert, if_neg h1, if_neg h2]
      rw [ih hys hx]

theorem foldl_sinsert_of_subset :
    ∀ (l s : List Nat), s.Sorted (· < ·) → (∀ z ∈ l, z ∈ s) →
      l.foldl (fun acc x => sinsert x acc) s = s := by
  intro l
  induction l with
  | nil => intro s _ _; rfl
  | cons x l ih =>
    intro s hs hsub
    simp only [List.foldl_cons]
    rw [sinsert_of_mem hs (hsub x (List.mem_cons_self x l))]
    exact ih s hs (fun z hz => hsub z (List.mem_cons_of_mem x hz))

theorem grow_eq_of_closed {nf : Nat → List Nat} {s : List Nat}
    (hs : s.Sorted (· < ·)) (h : ∀ x ∈ s, ∀ z ∈ nf x, z ∈ s) : grow nf s = s := by
  unfold grow
  apply foldl_sinsert_of_subset _ s hs
  intro z hz
  rcases List.mem_flatten.1 hz with ⟨t, ht, hzt⟩
  rcases List.mem_map.1 ht with ⟨x, hx, rfl⟩
  exact h x hx z hzt

theorem length_grow_gt {nf : Nat → List Nat} {s : List Nat}
    (hs : s.Sorted (· < ·)) (h : grow nf s ≠ s) : s.length < (grow nf s).length := by
  have hnd : s.Nodup := hs.nodup
  have hgs : (grow nf s).Sorted (· < ·) := sorted_grow hs
  have hgnd : (grow nf s).Nodup := hgs.nodup
  by_cases hnew : ∀ z ∈ grow nf s, z ∈ s
  · exfalso
    apply h
    have h1 : List.Subperm (grow nf s) s := List.Nodup.subperm hgnd hnew
    have h2 : List.Subperm s (grow nf s) := List.Nodup.subperm hnd (fun z => subset_grow)
    exact List.eq_of_perm_of_sorted (h1.antisymm h2).symm.symm hgs hs
  · push_neg at hnew
    obtain ⟨z, hz, hzs⟩ := hnew
    have hnd2 : (z :: s).Nodup := List.nodup_cons.2 ⟨hzs, hnd⟩
    have hsub : ∀ w ∈ z :: s, w ∈ grow nf s := by
      intro w hw
      rcases List.mem_cons.1 hw with rfl | hw
      · exact hz
      · exact subset_grow hw
    have := (List.Nodup.subperm hnd2 hsub).length_le
    simpa using this

theorem growN_of_fix {nf : Nat → List Nat} {s : List Nat} (h : grow nf s = s) :
    ∀ n, growN nf n s = s := by
  intro n
  induction n with
  | zero => rfl
  | succ n ih =>
    show growN nf n (grow nf s) = s
    rw [h]
    exact ih

theorem grow_growN_fix (nf : Nat → List Nat) (K : List Nat) (hK : K.Nodup)
    (hnf : ∀ x z, z ∈ nf x → z ∈ K) :
    ∀ (n : Nat) (s : List Nat), s.Sorted (· < ·) → (∀ z ∈ s, z ∈ K) →
      K.length ≤ s.length + n →
      grow nf (growN nf n s) = growN nf n s := by
  intro n
  induction n with
  | zero =>
    intro s hs hsub hlen
    have hnd : s.Nodup := hs.nodup
    have hsp : List.Subperm s K := List.Nodup.subperm hnd hsub
    have hperm : List.Perm s K := hsp.perm_of_length_le (by omega)
    show grow nf s = s
    apply grow_eq_of_closed hs
    intro x _ z hz
    exact hperm.symm.subset (hnf x z hz)
  | succ n ih =>
    intro s hs hsub hlen
    by_cases hfix : grow nf s = s
    · show grow nf (growN nf n (grow nf s)) = growN nf n (grow nf s)
      rw [hfix, growN_of_fix hfix n, hfix]
    · have hlt : s.length < (grow nf s).length := length_grow_gt hs hfix
      have hsub' : ∀ z ∈ grow nf s, z ∈ K := by
        intro z hz
        rcases mem_grow.1 hz with hz | ⟨x, _, hz⟩
        · exact hsub z hz
        · exact hnf x z hz
      exact ih (grow nf s) (sorted_grow hs) hsub' (by omega)

theorem mem_growN_mono {nf : Nat → List Nat} :
    ∀ (n : Nat) (s : List Nat) (z : Nat), z ∈ s → z ∈ growN nf n s := by
  intro n
  induction n with
  | zero => intro s z hz; exact hz
  | succ n ih =>
    intro s z hz
    exact ih (grow nf s) z (subset_grow hz)

theorem reaches_of_mem_growN {nf : Nat → List Nat} {r : Nat} :
    ∀ (n : Nat) (s : List Nat),
      (∀ z ∈ s, Relation.ReflTransGen (fun a b => b ∈ nf a) r z) →
      ∀ x ∈ growN nf n s, Relation.ReflTransGen (fun a b => b ∈ nf a) r x := by
  intro n
  induction n with
  | zero => intro s hs x hx; exact hs x hx
  | succ n ih =>
    intro s hs x hx
    apply ih (grow nf s) _ x hx
    intro z hz
    rcases mem_grow.1 hz with hz | ⟨y, hy, hz⟩
    · exact hs z hz
    · exact Relation.ReflTransGen.tail (hs y hy) hz

theorem mem_of_reaches_fix {nf : Nat → List Nat} {S : List Nat} {r : Nat}
    (hfix : grow nf S = S) (hr : r ∈ S) :
    ∀ {x : Nat}, Relation.ReflTransGen (fun a b => b ∈ nf a) r x → x ∈ S := by
  intro x h
  induction h with
  | refl => exact hr
  | tail hab hbc ih =>
    rw [← hfix]
    exact mem_grow.2 (Or.inr ⟨_, ih, hbc⟩)

theorem mem_markAlive_self (c : cfg_t) (nf : Nat → List Nat) (start : Nat) :
    start ∈ markAlive c nf start :=
  mem_growN_mono _ _ _ (List.mem_singleton.2 rfl)

theorem grow_markAlive_fix (c : cfg_t) (nf : Nat → List Nat) (start : Nat)
    (hstart : start ∈ akeys c.m_blocks) (hnd : (akeys c.m_blocks).Nodup)
    (hnf : ∀ x z, z ∈ nf x → z ∈ akeys c.m_blocks) :
    grow nf (markAlive c nf start) = markAlive c nf start := by
  unfold markAlive
  have hlen : (akeys c.m_blocks).length = c.m_blocks.length := by
    simp [akeys]
  apply grow_growN_fix nf (akeys c.m_blocks) hnd hnf
  · simp
  · intro z hz
    rcases List.mem_singleton.1 hz with rfl
    exact hstart
  · simp [hlen]

theorem markAlive_sound (c : cfg_t) (nf : Nat → List Nat) (start : Nat) :
    ∀ x ∈ markAlive c nf start, Relation.ReflTransGen (fun a b => b ∈ nf a) start x := by
  intro x hx
  apply reaches_of_mem_growN _ _ _ x hx
  intro z hz
  rcases List.mem_singleton.1 hz with rfl
  exact Relation.ReflTransGen.refl

theorem markAlive_complete (c : cfg_t) (nf : Nat → List Nat) (start : Nat)
    (hstart : start ∈ akeys c.m_blocks) (hnd : (akeys c.m_blocks).Nodup)
    (hnf : ∀ x z, z ∈ nf x → z ∈ akeys c.m_blocks) :
    ∀ {x : Nat}, Relation.ReflTransGen (fun a b => b ∈ nf a) start x →
      x ∈ markAlive c nf start := by
  intro x h
  exact mem_of_reaches_fix (grow_markAlive_fix c nf start hstart hnd hnf)
    (mem_markAlive_self c nf start) h

theorem reaches_mem_akeys {c : cfg_t} (hcl : CfgClosed c) {a x : Nat}
    (ha : a ∈ akeys c.m_blocks) (h : Reaches c a x) : x ∈ akeys c.m_blocks := by
  induction h with
  | refl => exact ha
  | tail hab hbc ih => exact (hcl _ ih).1 _ hbc

theorem revReaches_mem_akeys {c : cfg_t} (hcl : CfgClosed c) {a x : Nat}
    (ha : a ∈ akeys c.m_blocks) (h : RevReaches c a x) : x ∈ akeys c.m_blocks := by
  induction h with
  | refl => exact ha
  | tail hab hbc ih => exact (hcl _ ih).2 _ hbc

theorem reaches_to_revReaches {c : cfg_t} (hcl : CfgClosed c) (hsym : EdgeSym c) {a b : Nat}
    (ha : a ∈ akeys c.m_blocks) (h : Reaches c a b) : RevReaches c b a := by
  induction h with
  | refl => exact Relation.ReflTransGen.refl
  | @tail m k hab hbc ih =>
    have hm : m ∈ akeys c.m_blocks := reaches_mem_akeys hcl ha hab
    have hk : k ∈ akeys c.m_blocks := (hcl m hm).1 _ hbc
    exact Relation.ReflTransGen.head ((hsym m k hm hk).1 hbc) ih

theorem revReaches_to_reaches {c : cfg_t} (hcl : CfgClosed c) (hsym : EdgeSym c) {a b : Nat}
    (ha : a ∈ akeys c.m_blocks) (h : RevReaches c a b) : Reaches c b a := by
  induction h with
  | refl => exact Relation.ReflTransGen.refl
  | @tail m k hab hbc ih =>
    have hm : m ∈ akeys c.m_blocks := revReaches_mem_akeys hcl ha hab
    have hk : k ∈ akeys c.m_blocks := (hcl m hm).2 _ hbc
    exact Relation.ReflTransGen.head ((hsym k m hk hm).2 hbc) ih

theorem remove_unreachable_blocks_eq (c : cfg_t) :
    remove_unreachable_blocks c =
      (if c.m_exit ∈ (akeys c.m_blocks).filter
          (fun l => ¬ l ∈ markAlive c (nextOf c) c.m_entry) then c
       else ((akeys c.m_blocks).filter
          (fun l => ¬ l ∈ markAlive c (nextOf c) c.m_entry)).foldl removeBlock c) := rfl

theorem remove_useless_blocks_eq (c : cfg_t) :
    remove_useless_blocks c =
      (if c.m_exit ∈ markAlive c (prevOf c) c.m_exit then
        ((akeys c.m_blocks).filter
          (fun l => ¬ l ∈ markAlive c (prevOf c) c.m_exit)).foldl removeBlock c
       else c) := rfl

theorem nextOf_closed {c : cfg_t} (hcl : CfgClosed c) :
    ∀ x z, z ∈ nextOf c x → z ∈ akeys c.m_blocks := by
  intro x z hz
  by_cases hx : x ∈ akeys c.m_blocks
  · exact (hcl x hx).1 z hz
  · rw [nextOf_eq_nil_of_not_mem c x hx] at hz
    simp at hz

theorem prevOf_closed {c : cfg_t} (hcl : CfgClosed c) :
    ∀ x z, z ∈ prevOf c x → z ∈ akeys c.m_blocks := by
  intro x z hz
  by_cases hx : x ∈ akeys c.m_blocks
  · exact (hcl x hx).2 z hz
  · rw [prevOf_eq_nil_of_not_mem c x hx] at hz
    simp at hz

theorem remove_unreachable_spec (c : cfg_t) (hinv : CfgInv c)
    (hen : c.m_entry ∈ akeys c.m_blocks) (hex : c.m_exit ∈ akeys c.m_blocks)
    (hre : Reaches c c.m_entry c.m_exit) :
    CfgInv (remove_unreachable_blocks c) ∧
    (remove_unreachable_blocks c).m_entry = c.m_entry ∧
    (remove_unreachable_blocks c).m_exit = c.m_exit ∧
    c.m_entry ∈ akeys (remove_unreachable_blocks c).m_blocks ∧
    c.m_exit ∈ akeys (remove_unreachable_blocks c).m_blocks ∧
    (∀ k ∈ akeys (remove_unreachable_blocks c).m_blocks,
      Reaches (remove_unreachable_blocks c) c.m_entry k) := by
  have hnd : (akeys c.m_blocks).Nodup := hinv.wf.keysSorted.nodup
  have hnf : ∀ x z, z ∈ nextOf c x → z ∈ akeys c.m_blocks := nextOf_closed hinv.closed
  have hcomp : ∀ x : Nat, Reaches c c.m_entry x →
      x ∈ markAlive c (nextOf c) c.m_entry := by
    intro x h
    exact markAlive_complete c (nextOf c) c.m_entry hen hnd hnf h
  have hsound := markAlive_sound c (nextOf c) c.m_entry
  have hexal : c.m_exit ∈ markAlive c (nextOf c) c.m_entry := hcomp _ hre
  have henal : c.m_entry ∈ markAlive c (nextOf c) c.m_entry :=
    mem_markAlive_self c (nextOf c) c.m_entry
  have hexdead : c.m_exit ∉ (akeys c.m_blocks).filter
      (fun l => ¬ l ∈ markAlive c (nextOf c) c.m_entry) := by
    intro h
    have := (List.mem_filter.1 h).2
    simp [hexal] at this
  rw [remove_unreachable_blocks_eq, if_neg hexdead]
  have hD : ∀ l ∈ (akeys c.m_blocks).filter
      (fun x => ¬ x ∈ markAlive c (nextOf c) c.m_entry),
      l ≠ c.m_entry ∧ l ≠ c.m_exit := by
    intro l hl
    have h2 := (List.mem_filter.1 hl).2
    constructor
    · rintro rfl
      simp [henal] at h2
    · rintro rfl
      simp [hexal] at h2
  obtain ⟨rInv, rEn, rEx, rKeys, rNext, rPrev, rTs⟩ :=
    removeList_spec ((akeys c.m_blocks).filter
      (fun l => ¬ l ∈ markAlive c (nextOf c) c.m_entry)) c hinv hD
  have hnotdead : ∀ x, x ∈ markAlive c (nextOf c) c.m_entry →
      x ∉ (akeys c.m_blocks).filter (fun l => ¬ l ∈ markAlive c (nextOf c) c.m_entry) := by
    intro x hx h
    have := (List.mem_filter.1 h).2
    simp [hx] at this
  have htrans : ∀ x, Reaches c c.m_entry x →
      Reaches (((akeys c.m_blocks).filter
        (fun l => ¬ l ∈ markAlive c (nextOf c) c.m_entry)).foldl removeBlock c)
        c.m_entry x := by
    intro x h
    induction h with
    | refl => exact Relation.ReflTransGen.refl
    | @tail m k hab hbc ih =>
      have hm_alive : m ∈ markAlive c (nextOf c) c.m_entry := hcomp _ hab
      have hk_alive : k ∈ markAlive c (nextOf c) c.m_entry :=
        hcomp _ (Relation.ReflTransGen.tail hab hbc)
      exact Relation.ReflTransGen.tail ih
        ((rNext m k (hnotdead m hm_alive)).2 ⟨hbc, hnotdead k hk_alive⟩)
  refine ⟨rInv, rEn, rEx, ?_, ?_, ?_⟩
  · exact (rKeys c.m_entry).2 ⟨hen, hnotdead _ henal⟩
  · exact (rKeys c.m_exit).2 ⟨hex, hnotdead _ hexal⟩
  · intro k hk
    have h1 := (rKeys k).1 hk
    have h2 : k ∈ markAlive c (nextOf c) c.m_entry := by
      by_contra hcon
      exact h1.2 (List.mem_filter.2 ⟨h1.1, by simp [hcon]⟩)
    exact htrans k (hsound k h2)

theorem remove_useless_spec (c : cfg_t) (hinv : CfgInv c)
    (hen : c.m_entry ∈ akeys c.m_blocks) (hex : c.m_exit ∈ akeys c.m_blocks)
    (hre : Reaches c c.m_entry c.m_exit)
    (hall : ∀ k ∈ akeys c.m_blocks, Reaches c c.m_entry k) :
    CfgInv (remove_useless_blocks c) ∧
    (remove_useless_blocks c).m_entry = c.m_entry ∧
    (remove_useless_blocks c).m_exit = c.m_exit ∧
    (∀ k ∈ akeys (remove_useless_blocks c).m_blocks,
      Reaches (remove_useless_blocks c) c.m_entry k ∧
      Reaches (remove_useless_blocks c) k c.m_exit) := by
  have hnd : (akeys c.m_blocks).Nodup := hinv.wf.keysSorted.nodup
  have hnf : ∀ x z, z ∈ prevOf c x → z ∈ akeys c.m_blocks := prevOf_closed hinv.closed
  have hcomp : ∀ x : Nat, RevReaches c c.m_exit x →
      x ∈ markAlive c (prevOf c) c.m_exit := by
    intro x h
    exact markAlive_complete c (prevOf c) c.m_exit hex hnd hnf h
  have hsound : ∀ x ∈ markAlive c (prevOf c) c.m_exit, RevReaches c c.m_exit x :=
    markAlive_sound c (prevOf c) c.m_exit
  have hexu : c.m_exit ∈ markAlive c (prevOf c) c.m_exit :=
    mem_markAlive_self c (prevOf c) c.m_exit
  have henu : c.m_entry ∈ markAlive c (prevOf c) c.m_exit :=
    hcomp _ (reaches_to_revReaches hinv.closed hinv.sym hen hre)
  rw [remove_useless_blocks_eq, if_pos hexu]
  have hnotU : ∀ x, x ∈ markAlive c (prevOf c) c.m_exit →
      x ∉ (akeys c.m_blocks).filter (fun l => ¬ l ∈ markAlive c (prevOf c) c.m_exit) := by
    intro x hx h
    have := (List.mem_filter.1 h).2
    simp [hx] at this
  have hU : ∀ l ∈ (akeys c.m_blocks).filter
      (fun x => ¬ x ∈ markAlive c (prevOf c) c.m_exit),
      l ≠ c.m_entry ∧ l ≠ c.m_exit := by
    intro l hl
    have h2 := (List.mem_filter.1 hl).2
    constructor
    · rintro rfl
      simp [henu] at h2
    · rintro rfl
      simp [hexu] at h2
  obtain ⟨rInv, rEn, rEx, rKeys, rNext, rPrev, rTs⟩ :=
    removeList_spec ((akeys c.m_blocks).filter
      (fun l => ¬ l ∈ markAlive c (prevOf c) c.m_exit)) c hinv hU
  have hexk : c.m_exit ∈ akeys (((akeys c.m_blocks).filter
      (fun l => ¬ l ∈ markAlive c (prevOf c) c.m_exit)).foldl removeBlock c).m_blocks :=
    (rKeys c.m_exit).2 ⟨hex, hnotU _ hexu⟩
  -- transfer of reversed reachability into the pruned CFG
  have hrevtrans : ∀ x, RevReaches c c.m_exit x →
      RevReaches (((akeys c.m_blocks).filter
        (fun l => ¬ l ∈ markAlive c (prevOf c) c.m_exit)).foldl removeBlock c)
        c.m_exit x := by
    intro x h
    induction h with
    | refl => exact Relation.ReflTransGen.refl
    | @tail m k hab hbc ih =>
      have hm_u : m ∈ markAlive c (prevOf c) c.m_exit := hcomp _ hab
      have hk_u : k ∈ markAlive c (prevOf c) c.m_exit :=
        hcomp _ (Relation.ReflTransGen.tail hab hbc)
      exact Relation.ReflTransGen.tail ih
        ((rPrev m k (hnotU m hm_u)).2 ⟨hbc, hnotU k hk_u⟩)
  -- transfer of forward reachability into the pruned CFG
  have hfwdtrans : ∀ x, Reaches c c.m_entry x →
      x ∈ markAlive c (prevOf c) c.m_exit →
      Reaches (((akeys c.m_blocks).filter
        (fun l => ¬ l ∈ markAlive c (prevOf c) c.m_exit)).foldl removeBlock c)
        c.m_entry x := by
    intro x h
    induction h with
    | refl => intro _; exact Relation.ReflTransGen.refl
    | @tail m k hab hbc ih =>
      intro hk_u
      have hm_keys : m ∈ akeys c.m_blocks := reaches_mem_akeys hinv.closed hen hab
      have hk_exit : Reaches c k c.m_exit :=
        revReaches_to_reaches hinv.closed hinv.sym hex (hsound k hk_u)
      have hm_exit : Reaches c m c.m_exit := Relation.ReflTransGen.head hbc hk_exit
      have hm_u : m ∈ markAlive c (prevOf c) c.m_exit :=
        hcomp _ (reaches_to_revReaches hinv.closed hinv.sym hm_keys hm_exit)
      exact Relation.ReflTransGen.tail (ih hm_u)
        ((rNext m k (hnotU m hm_u)).2 ⟨hbc, hnotU k hk_u⟩)
  refine ⟨rInv, rEn, rEx, ?_⟩
  intro k hk
  have h1 := (rKeys k).1 hk
  have h2 : k ∈ markAlive c (prevOf c) c.m_exit := by
    by_contra hcon
    exact h1.2 (List.mem_filter.2 ⟨h1.1, by simp [hcon]⟩)
  constructor
  · exact hfwdtrans k (hall k h1.1) h2
  · -- k rev-reachable from exit in the pruned CFG, then convert by symmetry
    have hrev := hrevtrans k (hsound k h2)
    have hc2 := rInv
    exact revReaches_to_reaches hc2.closed hc2.sym hexk hrev

theorem chainLt_iff_sorted : ∀ {l : List Nat}, chainLt l = true ↔ l.Sorted (· < ·) := by
  intro l
  induction l with
  | nil => simp [chainLt]
  | cons x r ih =>
    cases r with
    | nil => simp [chainLt]
    | cons y r2 =>
      rw [chainLt]
      simp only [Bool.and_eq_true, decide_eq_true_eq]
      rw [ih]
      constructor
      · rintro ⟨hxy, hs⟩
        refine List.sorted_cons.2 ⟨?_, hs⟩
        intro b hb
        rcases List.mem_cons.1 hb with rfl | hb
        · exact hxy
        · exact hxy.trans ((List.sorted_cons.1 hs).1 b hb)
      · intro hs
        rcases List.sorted_cons.1 hs with ⟨hx, hs'⟩
        exact ⟨hx y (List.mem_cons_self y r2), hs'⟩

theorem cfgWF_of_B (c : cfg_t) (h : cfgWFB c = true) : CfgWF c := by
  unfold cfgWFB at h
  rw [Bool.and_eq_true, List.all_eq_true] at h
  obtain ⟨h1, h2⟩ := h
  refine ⟨chainLt_iff_sorted.1 h1, ?_, ?_⟩
  · intro l
    by_cases hl : l ∈ akeys c.m_blocks
    · have := h2 l hl
      rw [Bool.and_eq_true] at this
      exact chainLt_iff_sorted.1 this.1
    · rw [prevOf_eq_nil_of_not_mem c l hl]
      simp
  · intro l
    by_cases hl : l ∈ akeys c.m_blocks
    · have := h2 l hl
      rw [Bool.and_eq_true] at this
      exact chainLt_iff_sorted.1 this.2
    · rw [nextOf_eq_nil_of_not_mem c l hl]
      simp

theorem cfgClosed_of_B (c : cfg_t) (h : cfgClosedB c = true) : CfgClosed c := by
  unfold cfgClosedB at h
  rw [List.all_eq_true] at h
  intro l hl
  have := h l hl
  rw [Bool.and_eq_true, List.all_eq_true, List.all_eq_true] at this
  constructor
  · intro m hm
    simpa using this.1 m hm
  · intro m hm
    simpa using this.2 m hm

theorem cfgInv_of_B (c : cfg_t) (h : cfgInvB c = true) : CfgInv c := by
  unfold cfgInvB at h
  rw [Bool.and_eq_true, Bool.and_eq_true] at h
  exact ⟨cfgWF_of_B c h.1.1, cfgClosed_of_B c h.1.2, (edgeSymB_iff c).2 h.2⟩

theorem akeys_connect (c : cfg_t) (a b : Nat) :
    akeys (connect c a b).m_blocks = akeys c.m_blocks := by
  unfold connect
  rw [akeys_updPrev, akeys_updNext]

theorem akeys_disconnect (c : cfg_t) (a b : Nat) :
    akeys (disconnect c a b).m_blocks = akeys c.m_blocks := by
  unfold disconnect
  rw [akeys_updPrev, akeys_updNext]

theorem nextOf_updNext_self_mem (c : cfg_t) (l : Nat) (f : List Nat → List Nat)
    (h : l ∈ akeys c.m_blocks) : nextOf (updNext c l f) l = f (nextOf c l) := by
  have hsome : (getBlock c l).isSome := mem_akeys_iff_isSome.1 h
  unfold nextOf
  rw [getBlock_updNext, if_pos rfl]
  cases hbl : getBlock c l with
  | none => rw [hbl] at hsome; simp at hsome
  | some bl => simp

theorem nextOf_updNext_self_notmem (c : cfg_t) (l : Nat) (f : List Nat → List Nat)
    (h : l ∉ akeys c.m_blocks) : nextOf (updNext c l f) l = [] := by
  have hnone : getBlock c l = none := alookup_none_of_not_mem_akeys h
  unfold nextOf
  rw [getBlock_updNext, if_pos rfl, hnone]
  rfl

theorem prevOf_updPrev_self_mem (c : cfg_t) (l : Nat) (f : List Nat → List Nat)
    (h : l ∈ akeys c.m_blocks) : prevOf (updPrev c l f) l = f (prevOf c l) := by
  have hsome : (getBlock c l).isSome := mem_akeys_iff_isSome.1 h
  unfold prevOf
  rw [getBlock_updPrev, if_pos rfl]
  cases hbl : getBlock c l with
  | none => rw [hbl] at hsome; simp at hsome
  | some bl => simp

theorem prevOf_updPrev_self_notmem (c : cfg_t) (l : Nat) (f : List Nat → List Nat)
    (h : l ∉ akeys c.m_blocks) : prevOf (updPrev c l f) l = [] := by
  have hnone : getBlock c l = none := alookup_none_of_not_mem_akeys h
  unfold prevOf
  rw [getBlock_updPrev, if_pos rfl, hnone]
  rfl

theorem mem_nextOf_connect (c : cfg_t) (a b p q : Nat) :
    q ∈ nextOf (connect c a b) p ↔
      q ∈ nextOf c p ∨ (p = a ∧ p ∈ akeys c.m_blocks ∧ q = b) := by
  unfold connect
  rw [nextOf_updPrev]
  by_cases hp : p = a
  · subst hp
    by_cases hk : p ∈ akeys c.m_blocks
    · rw [nextOf_updNext_self_mem c p _ hk, mem_sinsert]
      simp only [hk]
      tauto
    · rw [nextOf_updNext_self_notmem c p _ hk, nextOf_eq_nil_of_not_mem c p hk]
      simp [hk]
  · rw [nextOf_updNext_ne c a _ p hp]
    simp [hp]

theorem mem_prevOf_connect (c : cfg_t) (a b p q : Nat) :
    q ∈ prevOf (connect c a b) p ↔
      q ∈ prevOf c p ∨ (p = b ∧ p ∈ akeys c.m_blocks ∧ q = a) := by
  unfold connect
  have hkeys : akeys (updNext c a (sinsert b)).m_blocks = akeys c.m_blocks :=
    akeys_updNext c a _
  by_cases hp : p = b
  · subst hp
    by_cases hk : p ∈ akeys c.m_blocks
    · rw [prevOf_updPrev_self_mem _ p _ (by rw [hkeys]; exact hk), prevOf_updNext,
        mem_sinsert]
      simp only [hk]
      tauto
    · rw [prevOf_updPrev_self_notmem _ p _ (by rw [hkeys]; exact hk),
        prevOf_eq_nil_of_not_mem c p hk]
      simp [hk]
  · rw [prevOf_updPrev_ne _ b _ p hp, prevOf_updNext]
    simp [hp]

theorem mem_nextOf_disconnect (c : cfg_t) (a b p q : Nat)
    (hwf : CfgWF c) :
    q ∈ nextOf (disconnect c a b) p ↔ q ∈ nextOf c p ∧ ¬ (p = a ∧ q = b) := by
  unfold disconnect
  rw [nextOf_updPrev]
  by_cases hp : p = a
  · subst hp
    rw [nextOf_updNext_self_nil c p _ (by simp [serase])]
    rw [mem_serase_nodup (hwf.nextSorted p).nodup]
    simp
  · rw [nextOf_updNext_ne c a _ p hp]
    simp [hp]

theorem mem_prevOf_disconnect (c : cfg_t) (a b p q : Nat)
    (hwf : CfgWF c) :
    q ∈ prevOf (disconnect c a b) p ↔ q ∈ prevOf c p ∧ ¬ (p = b ∧ q = a) := by
  unfold disconnect
  by_cases hp : p = b
  · subst hp
    rw [prevOf_updPrev_self_nil _ p _ (by simp [serase])]
    rw [prevOf_updNext]
    rw [mem_serase_nodup (hwf.prevSorted p).nodup]
    simp
  · rw [prevOf_updPrev_ne _ b _ p hp, prevOf_updNext]
    simp [hp]

theorem sym_connect (c : cfg_t) (a b : Nat) (hsym : EdgeSym c) :
    EdgeSym (connect c a b) := by
  intro p q hp hq
  rw [akeys_connect] at hp hq
  rw [mem_nextOf_connect, mem_prevOf_connect]
  rw [hsym p q hp hq]
  constructor
  · rintro (h | ⟨rfl, _, rfl⟩)
    · exact Or.inl h
    · exact Or.inr ⟨rfl, hq, rfl⟩
  · rintro (h | ⟨rfl, _, rfl⟩)
    · exact Or.inl h
    · exact Or.inr ⟨rfl, hp, rfl⟩

theorem sym_disconnect (c : cfg_t) (a b : Nat) (hwf : CfgWF c) (hsym : EdgeSym c) :
    EdgeSym (disconnect c a b) := by
  intro p q hp hq
  rw [akeys_disconnect] at hp hq
  rw [mem_nextOf_disconnect c a b p q hwf, mem_prevOf_disconnect c a b q p hwf]
  rw [hsym p q hp hq]
  tauto

theorem wf_connect (c : cfg_t) (a b : Nat) (hwf : CfgWF c) : CfgWF (connect c a b) := by
  have hkeys : akeys (updNext c a (sinsert b)).m_blocks = akeys c.m_blocks :=
    akeys_updNext c a _
  refine ⟨?_, ?_, ?_⟩
  · rw [akeys_connect]; exact hwf.keysSorted
  · intro l
    unfold connect
    by_cases hl : l = b
    · subst hl
      by_cases hk : l ∈ akeys c.m_blocks
      · rw [prevOf_updPrev_self_mem _ l _ (by rw [hkeys]; exact hk), prevOf_updNext]
        exact sorted_sinsert (hwf.prevSorted l)
      · rw [prevOf_updPrev_self_notmem _ l _ (by rw [hkeys]; exact hk)]
        simp
    · rw [prevOf_updPrev_ne _ b _ l hl, prevOf_updNext]
      exact hwf.prevSorted l
  · intro l
    unfold connect
    rw [nextOf_updPrev]
    by_cases hl : l = a
    · subst hl
      by_cases hk : l ∈ akeys c.m_blocks
      · rw [nextOf_updNext_self_mem c l _ hk]
        exact sorted_sinsert (hwf.nextSorted l)
      · rw [nextOf_updNext_self_notmem c l _ hk]
        simp
    · rw [nextOf_updNext_ne c a _ l hl]
      exact hwf.nextSorted l

theorem wf_disconnect (c : cfg_t) (a b : Nat) (hwf : CfgWF c) : CfgWF (disconnect c a b) := by
  refine ⟨?_, ?_, ?_⟩
  · rw [akeys_disconnect]; exact hwf.keysSorted
  · intro l
    unfold disconnect
    by_cases hl : l = b
    · subst hl
      rw [prevOf_updPrev_self_nil _ l _ (by simp [serase])]
      exact sorted_serase (by rw [prevOf_updNext]; exact hwf.prevSorted l)
    · rw [prevOf_updPrev_ne _ b _ l hl, prevOf_updNext]
      exact hwf.prevSorted l
  · intro l
    unfold disconnect
    rw [nextOf_updPrev]
    by_cases hl : l = a
    · subst hl
      rw [nextOf_updNext_self_nil c l _ (by simp [serase])]
      exact sorted_serase (hwf.nextSorted l)
    · rw [nextOf_updNext_ne c a _ l hl]
      exact hwf.nextSorted l

theorem closed_connect (c : cfg_t) (a b : Nat) (hcl : CfgClosed c)
    (ha : a ∈ akeys c.m_blocks) (hb : b ∈ akeys c.m_blocks) :
    CfgClosed (connect c a b) := by
  intro l hl
  rw [akeys_connect] at hl
  constructor
  · intro m hm
    rw [akeys_connect]
    rcases (mem_nextOf_connect c a b l m).1 hm with h | ⟨_, _, rfl⟩
    · exact (hcl l hl).1 m h
    · exact hb
  · intro m hm
    rw [akeys_connect]
    rcases (mem_prevOf_connect c a b l m).1 hm with h | ⟨_, _, rfl⟩
    · exact (hcl l hl).2 m h
    · exact ha

theorem closed_disconnect (c : cfg_t) (a b : Nat) (hwf : CfgWF c) (hcl : CfgClosed c) :
    CfgClosed (disconnect c a b) := by
  intro l hl
  rw [akeys_disconnect] at hl
  constructor
  · intro m hm
    rw [akeys_disconnect]
    exact (hcl l hl).1 m ((mem_nextOf_disconnect c a b l m hwf).1 hm).1
  · intro m hm
    rw [akeys_disconnect]
    exact (hcl l hl).2 m ((mem_prevOf_disconnect c a b l m hwf).1 hm).1

theorem inv_connect (c : cfg_t) (a b : Nat) (hinv : CfgInv c)
    (ha : a ∈ akeys c.m_blocks) (hb : b ∈ akeys c.m_blocks) : CfgInv (connect c a b) :=
  ⟨wf_connect c a b hinv.wf, closed_connect c a b hinv.closed ha hb,
    sym_connect c a b hinv.sym⟩

theorem inv_disconnect (c : cfg_t) (a b : Nat) (hinv : CfgInv c) :
    CfgInv (disconnect c a b) :=
  ⟨wf_disconnect c a b hinv.wf, closed_disconnect c a b hinv.wf hinv.closed,
    sym_disconnect c a b hinv.wf hinv.sym⟩

theorem inv_removeBlock_any (c : cfg_t) (l : Nat) (hinv : CfgInv c) :
    CfgInv (removeBlock c l) := by
  by_cases h : l = c.m_entry ∨ l = c.m_exit
  · unfold removeBlock
    rw [if_pos h]
    exact hinv
  · push_neg at h
    exact inv_removeBlock c l hinv h.1 h.2

theorem nextOf_updTs (c : cfg_t) (l : Nat) (f : List Nat → List Nat) (k : Nat) :
    nextOf (updTs c l f) k = nextOf c k := by
  unfold nextOf
  rw [getBlock_updTs]
  by_cases h : k = l
  · subst h; cases getBlock c k <;> simp
  · simp [h]

theorem prevOf_updTs (c : cfg_t) (l : Nat) (f : List Nat → List Nat) (k : Nat) :
    prevOf (updTs c l f) k = prevOf c k := by
  unfold prevOf
  rw [getBlock_updTs]
  by_cases h : k = l
  · subst h; cases getBlock c k <;> simp
  · simp [h]

theorem tsOf_updTs_ne (c : cfg_t) (l : Nat) (f : List Nat → List Nat) (k : Nat)
    (h : k ≠ l) : tsOf (updTs c l f) k = tsOf c k := by
  unfold tsOf
  rw [getBlock_updTs, if_neg h]

theorem tsOf_updTs_self_mem (c : cfg_t) (l : Nat) (f : List Nat → List Nat)
    (h : l ∈ akeys c.m_blocks) : tsOf (updTs c l f) l = f (tsOf c l) := by
  have hsome : (getBlock c l).isSome := mem_akeys_iff_isSome.1 h
  unfold tsOf
  rw [getBlock_updTs, if_pos rfl]
  cases hbl : getBlock c l with
  | none => rw [hbl] at hsome; simp at hsome
  | some bl => simp

theorem move_back_spec (c : cfg_t) (b n : Nat) (hbn : b ≠ n) (nb : basic_block_t)
    (hn : getBlock c n = some nb) (hb : b ∈ akeys c.m_blocks) :
    tsOf (move_back c b n) b = tsOf c b ++ nb.m_ts ∧
    (∀ k, nextOf (move_back c b n) k = nextOf c k) ∧
    (∀ k, prevOf (move_back c b n) k = prevOf c k) ∧
    akeys (move_back c b n).m_blocks = akeys c.m_blocks ∧
    (move_back c b n).m_entry = c.m_entry ∧ (move_back c b n).m_exit = c.m_exit := by
  unfold move_back
  rw [hn]
  refine ⟨?_, ?_, ?_, ?_, rfl, rfl⟩
  · rw [tsOf_updTs_ne _ n _ b hbn, tsOf_updTs_self_mem c b _ hb]
  · intro k
    rw [nextOf_updTs, nextOf_updTs]
  · intro k
    rw [prevOf_updTs, prevOf_updTs]
  · rw [akeys_updTs, akeys_updTs]

theorem wf_updTs (c : cfg_t) (l : Nat) (f : List Nat → List Nat) (hwf : CfgWF c) :
    CfgWF (updTs c l f) := by
  refine ⟨?_, ?_, ?_⟩
  · rw [akeys_updTs]; exact hwf.keysSorted
  · intro k; rw [prevOf_updTs]; exact hwf.prevSorted k
  · intro k; rw [nextOf_updTs]; exact hwf.nextSorted k

theorem inv_updTs (c : cfg_t) (l : Nat) (f : List Nat → List Nat) (hinv : CfgInv c) :
    CfgInv (updTs c l f) := by
  refine ⟨wf_updTs c l f hinv.wf, ?_, ?_⟩
  · intro k hk
    rw [akeys_updTs] at hk
    constructor
    · intro m hm
      rw [nextOf_updTs] at hm
      rw [akeys_updTs]
      exact (hinv.closed k hk).1 m hm
    · intro m hm
      rw [prevOf_updTs] at hm
      rw [akeys_updTs]
      exact (hinv.closed k hk).2 m hm
  · intro a2 b2 ha hb
    rw [akeys_updTs] at ha hb
    rw [nextOf_updTs]
    unfold prevOf
    rw [getBlock_updTs]
    by_cases h : b2 = l
    · subst h
      cases hbl : getBlock c b2 with
      | none =>
        simp only [if_pos rfl, hbl]
        have := hinv.sym a2 b2 ha hb
        unfold prevOf at this
        rw [hbl] at this
        simpa using this
      | some bl =>
        simp only [if_pos rfl, hbl, Option.map_some, Option.getD_some]
        have := hinv.sym a2 b2 ha hb
        unfold prevOf at this
        rw [hbl] at this
        simpa using this
    · rw [if_neg h]
      exact hinv.sym a2 b2 ha hb

theorem inv_move_back (c : cfg_t) (b n : Nat) (hinv : CfgInv c) :
    CfgInv (move_back c b n) := by
  unfold move_back
  cases getBlock c n with
  | none => exact hinv
  | some nb => exact inv_updTs _ n _ (inv_updTs c b _ hinv)

theorem akeys_insertBlock (c : cfg_t) (l : Nat) :
    akeys (insertBlock c l).m_blocks = sinsert l (akeys c.m_blocks) :=
  akeys_ainsert l emptyBlock c.m_blocks

theorem getBlock_insertBlock (c : cfg_t) (l k : Nat) (hwf : CfgWF c) :
    getBlock (insertBlock c l) k =
      if k = l then some ((getBlock c l).getD emptyBlock) else getBlock c k := by
  unfold insertBlock getBlock
  simpa using alookup_ainsert l k emptyBlock hwf.keysSorted

theorem nextOf_insertBlock (c : cfg_t) (l k : Nat) (hwf : CfgWF c) :
    nextOf (insertBlock c l) k = nextOf c k := by
  unfold nextOf
  rw [getBlock_insertBlock c l k hwf]
  by_cases h : k = l
  · subst h
    cases hbl : getBlock c k with
    | none => simp [hbl, emptyBlock]
    | some bl => simp [hbl]
  · rw [if_neg h]

theorem prevOf_insertBlock (c : cfg_t) (l k : Nat) (hwf : CfgWF c) :
    prevOf (insertBlock c l) k = prevOf c k := by
  unfold prevOf
  rw [getBlock_insertBlock c l k hwf]
  by_cases h : k = l
  · subst h
    cases hbl : getBlock c k with
    | none => simp [hbl, emptyBlock]
    | some bl => simp [hbl]
  · rw [if_neg h]

theorem inv_insertBlock (c : cfg_t) (l : Nat) (hinv : CfgInv c) :
    CfgInv (insertBlock c l) := by
  refine ⟨⟨?_, ?_, ?_⟩, ?_, ?_⟩
  · rw [akeys_insertBlock]
    exact sorted_sinsert hinv.wf.keysSorted
  · intro k
    rw [prevOf_insertBlock c l k hinv.wf]
    exact hinv.wf.prevSorted k
  · intro k
    rw [nextOf_insertBlock c l k hinv.wf]
    exact hinv.wf.nextSorted k
  · intro k hk
    constructor
    · intro m hm
      rw [nextOf_insertBlock c l k hinv.wf] at hm
      rw [akeys_insertBlock, mem_sinsert]
      exact Or.inr (nextOf_closed hinv.closed k m hm)
    · intro m hm
      rw [prevOf_insertBlock c l k hinv.wf] at hm
      rw [akeys_insertBlock, mem_sinsert]
      exact Or.inr (prevOf_closed hinv.closed k m hm)
  · intro a b ha hb
    rw [nextOf_insertBlock c l a hinv.wf, prevOf_insertBlock c l b hinv.wf]
    by_cases hak : a ∈ akeys c.m_blocks
    · by_cases hbk : b ∈ akeys c.m_blocks
      · exact hinv.sym a b hak hbk
      · constructor
        · intro h
          exact absurd (nextOf_closed hinv.closed a b h) hbk
        · intro h
          rw [prevOf_eq_nil_of_not_mem c b hbk] at h
          simp at h
    · constructor
      · intro h
        rw [nextOf_eq_nil_of_not_mem c a hak] at h
        simp at h
      · intro h
        exact absurd (prevOf_closed hinv.closed b a h) hak

theorem akeys_foldl_connect (b : Nat) :
    ∀ (children : List Nat) (c : cfg_t),
      akeys ((children.foldl (fun acc m => connect acc b m) c)).m_blocks =
        akeys c.m_blocks := by
  intro children
  induction children with
  | nil => intro c; rfl
  | cons m ms ih =>
    intro c
    simp only [List.foldl_cons]
    rw [ih, akeys_connect]

theorem entry_exit_foldl_connect (b : Nat) :
    ∀ (children : List Nat) (c : cfg_t),
      ((children.foldl (fun acc m => connect acc b m) c)).m_entry = c.m_entry ∧
      ((children.foldl (fun acc m => connect acc b m) c)).m_exit = c.m_exit := by
  intro children
  induction children with
  | nil => intro c; exact ⟨rfl, rfl⟩
  | cons m ms ih =>
    intro c
    simp only [List.foldl_cons]
    rcases ih (connect c b m) with ⟨h1, h2⟩
    exact ⟨by rw [h1]; rfl, by rw [h2]; rfl⟩

theorem mem_nextOf_foldl_connect (b : Nat) :
    ∀ (children : List Nat) (c : cfg_t) (p q : Nat),
      (q ∈ nextOf (children.foldl (fun acc m => connect acc b m) c) p ↔
        q ∈ nextOf c p ∨ (p = b ∧ p ∈ akeys c.m_blocks ∧ q ∈ children)) := by
  intro children
  induction children with
  | nil => intro c p q; simp
  | cons m ms ih =>
    intro c p q
    simp only [List.foldl_cons]
    rw [ih (connect c b m) p q, mem_nextOf_connect, akeys_connect]
    simp only [List.mem_cons]
    tauto

theorem mem_prevOf_foldl_connect (b : Nat) :
    ∀ (children : List Nat) (c : cfg_t) (p q : Nat),
      (q ∈ prevOf (children.foldl (fun acc m => connect acc b m) c) p ↔
        q ∈ prevOf c p ∨ (p ∈ children ∧ p ∈ akeys c.m_blocks ∧ q = b)) := by
  intro children
  induction children with
  | nil => intro c p q; simp
  | cons m ms ih =>
    intro c p q
    simp only [List.foldl_cons]
    rw [ih (connect c b m) p q, mem_prevOf_connect, akeys_connect]
    simp only [List.mem_cons]
    tauto

theorem wf_foldl_connect (b : Nat) :
    ∀ (children : List Nat) (c : cfg_t), CfgWF c →
      CfgWF (children.foldl (fun acc m => connect acc b m) c) := by
  intro children
  induction children with
  | nil => intro c h; exact h
  | cons m ms ih =>
    intro c h
    simp only [List.foldl_cons]
    exact ih (connect c b m) (wf_connect c b m h)

theorem inv_foldl_connect (b : Nat) :
    ∀ (children : List Nat) (c : cfg_t), CfgInv c → b ∈ akeys c.m_blocks →
      (∀ m ∈ children, m ∈ akeys c.m_blocks) →
      CfgInv (children.foldl (fun acc m => connect acc b m) c) := by
  intro children
  induction children with
  | nil => intro c h _ _; exact h
  | cons m ms ih =>
    intro c h hb hms
    simp only [List.foldl_cons]
    refine ih (connect c b m) (inv_connect c b m h hb (hms m (List.mem_cons_self m ms))) ?_ ?_
    · rw [akeys_connect]; exact hb
    · intro x hx
      rw [akeys_connect]
      exact hms x (List.mem_cons_of_mem m hx)

theorem inv_mergeInto (c : cfg_t) (b n : Nat) (hinv : CfgInv c)
    (hb : b ∈ akeys c.m_blocks) : CfgInv (mergeInto c b n) := by
  unfold mergeInto
  cases hn : getBlock c n with
  | none => exact hinv
  | some nb =>
    have hnk : n ∈ akeys c.m_blocks := by
      rw [mem_akeys_iff_isSome]
      show (getBlock c n).isSome = true
      rw [hn]
      rfl
    have hchild : ∀ m ∈ nb.m_next, m ∈ akeys c.m_blocks := by
      intro m hm
      apply nextOf_closed hinv.closed n m
      unfold nextOf
      rw [hn]
      exact hm
    have hinv0 : CfgInv (if n = c.m_exit then { c with m_exit := b } else c) := by
      split
      · exact ⟨⟨hinv.wf.keysSorted, hinv.wf.prevSorted, hinv.wf.nextSorted⟩,
          hinv.closed, hinv.sym⟩
      · exact hinv
    have hkeys0 : akeys (if n = c.m_exit then { c with m_exit := b } else c).m_blocks =
        akeys c.m_blocks := by
      split <;> rfl
    have hinv1 := inv_move_back _ b n hinv0
    have hkeys1 : akeys (move_back (if n = c.m_exit then { c with m_exit := b } else c)
        b n).m_blocks = akeys c.m_blocks := by
      unfold move_back
      cases hx : getBlock (if n = c.m_exit then { c with m_exit := b } else c) n with
      | none => rw [hkeys0]
      | some nb2 => rw [akeys_updTs, akeys_updTs, hkeys0]
    have hinv2 := inv_disconnect _ b n hinv1
    have hkeys2 : akeys (disconnect
        (move_back (if n = c.m_exit then { c with m_exit := b } else c) b n) b n).m_blocks =
        akeys c.m_blocks := by
      rw [akeys_disconnect, hkeys1]
    have hinv3 := inv_foldl_connect b nb.m_next _ hinv2
      (by rw [hkeys2]; exact hb) (by intro m hm; rw [hkeys2]; exact hchild m hm)
    exact inv_removeBlock_any _ n hinv3

theorem inv_simplifyInner :
    ∀ (fuel : Nat) (c : cfg_t) (label : Nat) (w : List Nat), CfgInv c →
      CfgInv (simplifyInner fuel c label w).1 := by
  intro fuel
  induction fuel with
  | zero => intro c label w h; exact h
  | succ fuel ih =>
    intro c label w h
    unfold simplifyInner
    split
    · exact h
    · rename_i bb hbb
      have hlk : label ∈ akeys c.m_blocks := by
        rw [mem_akeys_iff_isSome]
        show (getBlock c label).isSome = true
        rw [hbb]
        rfl
      split
      · rename_i n hn
        split
        · exact h
        · split
          · exact h
          · rename_i hnl nb hnb
            split
            · exact h
            · exact ih (mergeInto c label n) label (serase n w)
                (inv_mergeInto c label n h hlk)
      · exact h

theorem inv_simplifyOuter :
    ∀ (fuel : Nat) (c : cfg_t) (w : List Nat), CfgInv c →
      CfgInv (simplifyOuter fuel c w) := by
  intro fuel
  induction fuel with
  | zero => intro c w h; exact h
  | succ fuel ih =>
    intro c w h
    cases w with
    | nil => exact h
    | cons label w =>
      unfold simplifyOuter
      split
      · exact ih c w h
      · rename_i bb hbb
        have hgoal : ∀ (sk : Bool), CfgInv (if sk = true then simplifyOuter fuel c w
            else (fun r => simplifyOuter fuel r.1 r.2)
              (simplifyInner c.m_blocks.length c label w)) := by
          intro sk
          by_cases hsk : sk = true
          · rw [if_pos hsk]
            exact ih c w h
          · rw [if_neg hsk]
            exact ih _ _ (inv_simplifyInner c.m_blocks.length c label w h)
        exact hgoal _

theorem inv_simplify (c : cfg_t) (hinv : CfgInv c) : CfgInv (cfg_t.simplify c) :=
  inv_simplifyOuter c.m_blocks.length c (akeys c.m_blocks) hinv

theorem getBlock_mkCfg (e x k : Nat) (bl : basic_block_t)
    (h : getBlock (mkCfg e x) k = some bl) : bl = emptyBlock := by
  unfold mkCfg getBlock at h
  simp only [ainsert] at h
  rcases Nat.lt_trichotomy x e with hlt | heq | hgt
  · rw [if_pos hlt] at h
    by_cases h1 : k = x
    · simp [alookup, h1] at h
      exact h.symm
    · by_cases h2 : k = e
      · simp [alookup, h1, h2] at h
        exact h.symm
      · simp [alookup, h1, h2] at h
  · rw [if_neg (by omega : ¬ x < e), if_pos heq] at h
    by_cases h2 : k = e
    · simp [alookup, h2] at h
      exact h.symm
    · simp [alookup, h2] at h
  · rw [if_neg (by omega : ¬ x < e), if_neg (by omega : ¬ x = e)] at h
    by_cases h1 : k = e
    · simp [alookup, h1] at h
      exact h.symm
    · by_cases h2 : k = x
      · simp [alookup, h1, h2] at h
        exact h.symm
      · simp [alookup, h1, h2] at h

theorem nextOf_mkCfg (e x k : Nat) : nextOf (mkCfg e x) k = [] := by
  unfold nextOf
  cases hbl : getBlock (mkCfg e x) k with
  | none => simp
  | some bl =>
    rw [getBlock_mkCfg e x k bl hbl]
    simp [emptyBlock]

theorem prevOf_mkCfg (e x k : Nat) : prevOf (mkCfg e x) k = [] := by
  unfold prevOf
  cases hbl : getBlock (mkCfg e x) k with
  | none => simp
  | some bl =>
    rw [getBlock_mkCfg e x k bl hbl]
    simp [emptyBlock]

theorem sym_mkCfg (e x : Nat) : EdgeSym (mkCfg e x) := by
  intro a b _ _
  rw [nextOf_mkCfg, prevOf_mkCfg]
  simp

theorem tsOf_connect (c : cfg_t) (a b k : Nat) : tsOf (connect c a b) k = tsOf c k := by
  unfold connect
  rw [tsOf_updPrev, tsOf_updNext]

theorem tsOf_disconnect (c : cfg_t) (a b k : Nat) : tsOf (disconnect c a b) k = tsOf c k := by
  unfold disconnect
  rw [tsOf_updPrev, tsOf_updNext]

theorem tsOf_foldl_connect (b : Nat) :
    ∀ (children : List Nat) (c : cfg_t) (k : Nat),
      tsOf (children.foldl (fun acc m => connect acc b m) c) k = tsOf c k := by
  intro children
  induction children with
  | nil => intro c k; rfl
  | cons m ms ih =>
    intro c k
    simp only [List.foldl_cons]
    rw [ih, tsOf_connect]

/-- The observable effect of one merge step of `simplify`: under the loop's
    side conditions, `n`'s statements are appended to `b`, `b` is rewired to
    `n`'s successors, `n` is deleted, and the exit moves to `b` when `n` was
    the exit. -/
theorem mergeInto_spec (c : cfg_t) (b n : Nat) (bb nb : basic_block_t)
    (hwf : CfgWF c) (hbb : getBlock c b = some bb) (hbnext : bb.m_next = [n])
    (hbn : n ≠ b) (hnb : getBlock c n = some nb) (hnprev : nb.m_prev = [b])
    (hnn : n ∉ nb.m_next) (hne : n ≠ c.m_entry) :
    tsOf (mergeInto c b n) b = tsOf c b ++ nb.m_ts ∧
    getBlock (mergeInto c b n) n = none ∧
    (∀ q, q ∈ nextOf (mergeInto c b n) b ↔ q ∈ nb.m_next) ∧
    (mergeInto c b n).m_exit = (if n = c.m_exit then b else c.m_exit) ∧
    (mergeInto c b n).m_entry = c.m_entry := by
  have hbk : b ∈ akeys c.m_blocks := by
    rw [mem_akeys_iff_isSome]
    show (getBlock c b).isSome = true
    rw [hbb]; rfl
  have hbn' : b ≠ n := fun h => hbn h.symm
  -- the state after the conditional exit reassignment
  have hble : (if n = c.m_exit then { c with m_exit := b } else c).m_blocks = c.m_blocks := by
    split <;> rfl
  have hgb0 : ∀ k, getBlock (if n = c.m_exit then { c with m_exit := b } else c) k
      = getBlock c k := by
    intro k
    unfold getBlock
    rw [hble]
  have hnext0 : ∀ k, nextOf (if n = c.m_exit then { c with m_exit := b } else c) k
      = nextOf c k := by
    intro k
    unfold nextOf
    rw [hgb0]
  have hprev0 : ∀ k, prevOf (if n = c.m_exit then { c with m_exit := b } else c) k
      = prevOf c k := by
    intro k
    unfold prevOf
    rw [hgb0]
  have hts0 : ∀ k, tsOf (if n = c.m_exit then { c with m_exit := b } else c) k
      = tsOf c k := by
    intro k
    unfold tsOf
    rw [hgb0]
  have hwf0 : CfgWF (if n = c.m_exit then { c with m_exit := b } else c) := by
    refine ⟨?_, ?_, ?_⟩
    · show (akeys (if n = c.m_exit then { c with m_exit := b } else c).m_blocks).Sorted _
      rw [hble]
      exact hwf.keysSorted
    · intro l
      rw [hprev0]
      exact hwf.prevSorted l
    · intro l
      rw [hnext0]
      exact hwf.nextSorted l
  have hkeys0 : akeys (if n = c.m_exit then { c with m_exit := b } else c).m_blocks
      = akeys c.m_blocks := by rw [hble]
  have hentry0 : (if n = c.m_exit then { c with m_exit := b } else c).m_entry
      = c.m_entry := by split <;> rfl
  have hexit0 : (if n = c.m_exit then { c with m_exit := b } else c).m_exit
      = (if n = c.m_exit then b else c.m_exit) := by split <;> rfl
  -- unfold the merge
  unfold mergeInto
  rw [hnb]
  dsimp only
  rcases move_back_spec (if n = c.m_exit then { c with m_exit := b } else c) b n hbn' nb
    (by rw [hgb0]; exact hnb) (by rw [hkeys0]; exact hbk)
    with ⟨mbTs, mbNext, mbPrev, mbKeys, mbEntry, mbExit⟩
  have hwf1 : CfgWF (move_back (if n = c.m_exit then { c with m_exit := b } else c) b n) := by
    refine ⟨?_, ?_, ?_⟩
    · rw [mbKeys, hkeys0]
      exact hwf.keysSorted
    · intro l
      rw [mbPrev, hprev0]
      exact hwf.prevSorted l
    · intro l
      rw [mbNext, hnext0]
      exact hwf.nextSorted l
  have hwf2 : CfgWF (disconnect
      (move_back (if n = c.m_exit then { c with m_exit := b } else c) b n) b n) :=
    wf_disconnect _ b n hwf1
  have hwf3 : CfgWF (nb.m_next.foldl (fun acc m => connect acc b m)
      (disconnect (move_back (if n = c.m_exit then { c with m_exit := b } else c) b n) b n)) :=
    wf_foldl_connect b nb.m_next _ hwf2
  have hkeys3 : akeys (nb.m_next.foldl (fun acc m => connect acc b m)
      (disconnect (move_back (if n = c.m_exit then { c with m_exit := b } else c) b n)
        b n)).m_blocks = akeys c.m_blocks := by
    rw [akeys_foldl_connect, akeys_disconnect, mbKeys, hkeys0]
  have hbk2 : b ∈ akeys (disconnect
      (move_back (if n = c.m_exit then { c with m_exit := b } else c) b n) b n).m_blocks := by
    rw [akeys_disconnect, mbKeys, hkeys0]
    exact hbk
  -- predecessors of n after the rewiring: none
  have hprev3 : ∀ q, q ∉ prevOf (nb.m_next.foldl (fun acc m => connect acc b m)
      (disconnect (move_back (if n = c.m_exit then { c with m_exit := b } else c) b n)
        b n)) n := by
    intro q hq
    rcases (mem_prevOf_foldl_connect b nb.m_next _ n q).1 hq with h | ⟨hmem, _, _⟩
    · rcases (mem_prevOf_disconnect _ b n n q hwf1).1 h with ⟨h1, h2⟩
      rw [mbPrev, hprev0] at h1
      have : prevOf c n = nb.m_prev := by
        unfold prevOf
        rw [hnb]
        rfl
      rw [this, hnprev] at h1
      rcases List.mem_singleton.1 h1 with rfl
      exact h2 ⟨rfl, rfl⟩
    · exact hnn hmem
  -- successors of b after the rewiring: exactly nb.m_next
  have hnext3 : ∀ q, q ∈ nextOf (nb.m_next.foldl (fun acc m => connect acc b m)
      (disconnect (move_back (if n = c.m_exit then { c with m_exit := b } else c) b n)
        b n)) b ↔ q ∈ nb.m_next := by
    intro q
    rw [mem_nextOf_foldl_connect b nb.m_next _ b q]
    constructor
    · rintro (h | ⟨_, _, h⟩)
      · rcases (mem_nextOf_disconnect _ b n b q hwf1).1 h with ⟨h1, h2⟩
        rw [mbNext, hnext0] at h1
        have : nextOf c b = bb.m_next := by
          unfold nextOf
          rw [hbb]
          rfl
        rw [this, hbnext] at h1
        rcases List.mem_singleton.1 h1 with rfl
        exact absurd ⟨rfl, rfl⟩ h2
      · exact h
    · intro h
      exact Or.inr ⟨rfl, hbk2, h⟩
  have hentry3 : (nb.m_next.foldl (fun acc m => connect acc b m)
      (disconnect (move_back (if n = c.m_exit then { c with m_exit := b } else c) b n)
        b n)).m_entry = c.m_entry := by
    rw [(entry_exit_foldl_connect b nb.m_next _).1, disconnect_entry, mbEntry, hentry0]
  have hexit3 : (nb.m_next.foldl (fun acc m => connect acc b m)
      (disconnect (move_back (if n = c.m_exit then { c with m_exit := b } else c) b n)
        b n)).m_exit = (if n = c.m_exit then b else c.m_exit) := by
    rw [(entry_exit_foldl_connect b nb.m_next _).2, disconnect_exit, mbExit, hexit0]
  -- the guard of `remove` does not fire
  have hguard : ¬ (n = (nb.m_next.foldl (fun acc m => connect acc b m)
      (disconnect (move_back (if n = c.m_exit then { c with m_exit := b } else c) b n)
        b n)).m_entry ∨ n = (nb.m_next.foldl (fun acc m => connect acc b m)
      (disconnect (move_back (if n = c.m_exit then { c with m_exit := b } else c) b n)
        b n)).m_exit) := by
    rw [hentry3, hexit3]
    rintro (h | h)
    · exact hne h
    · by_cases hx : n = c.m_exit
      · rw [if_pos hx] at h
        exact hbn h
      · rw [if_neg hx] at h
        exact hx h
  unfold removeBlock
  rw [if_neg hguard]
  refine ⟨?_, ?_, ?_, ?_, ?_⟩
  · rw [tsOf_removeImpl _ n b hbn' (by rw [hkeys3]; exact hwf.keysSorted.nodup),
      tsOf_foldl_connect, tsOf_disconnect, mbTs, hts0]
  · exact getBlock_removeImpl_self _ n (by rw [hkeys3]; exact hwf.keysSorted.nodup)
  · intro q
    rw [nextOf_removeImpl _ n b hbn' (by rw [hkeys3]; exact hwf.keysSorted.nodup)
      ((hwf3.prevSorted n).nodup) ((hwf3.nextSorted n).nodup)]
    have hbnot : b ∉ (prevOf (nb.m_next.foldl (fun acc m => connect acc b m)
        (disconnect (move_back (if n = c.m_exit then { c with m_exit := b } else c) b n)
          b n)) n).filter (· ≠ n) := by
      intro h
      exact hprev3 b (List.mem_filter.1 h).1
    rw [if_neg hbnot]
    exact hnext3 q
  · rw [removeImpl_exit, hexit3]
  · rw [removeImpl_entry, hentry3]

/-- C1 (amended): `cfg_t::simplify()` only merges straight-line chains and by
    itself leaves unreachable blocks in place; the reachability property is
    established by the two removal passes: after `remove_unreachable_blocks()`
    followed by `remove_useless_blocks()`, every remaining block is reachable
    from the entry block and can reach the exit block. -/
theorem c1_removal_passes_reachability (c : cfg_t) (hinv : CfgInv c)
    (hen : c.m_entry ∈ akeys c.m_blocks) (hex : c.m_exit ∈ akeys c.m_blocks)
    (hre : Reaches c c.m_entry c.m_exit) :
    ∀ k ∈ akeys (remove_useless_blocks (remove_unreachable_blocks c)).m_blocks,
      Reaches (remove_useless_blocks (remove_unreachable_blocks c))
        (remove_useless_blocks (remove_unreachable_blocks c)).m_entry k ∧
      Reaches (remove_useless_blocks (remove_unreachable_blocks c)) k
        (remove_useless_blocks (remove_unreachable_blocks c)).m_exit := by
  obtain ⟨i1, e1, x1, ken1, kex1, hall1⟩ := remove_unreachable_spec c hinv hen hex hre
  have hen1 : (remove_unreachable_blocks c).m_entry ∈
      akeys (remove_unreachable_blocks c).m_blocks := by
    rw [e1]; exact ken1
  have hex1 : (remove_unreachable_blocks c).m_exit ∈
      akeys (remove_unreachable_blocks c).m_blocks := by
    rw [x1]; exact kex1
  have hre1 : Reaches (remove_unreachable_blocks c) (remove_unreachable_blocks c).m_entry
      (remove_unreachable_blocks c).m_exit := by
    rw [e1, x1]
    exact hall1 c.m_exit kex1
  have hall1' : ∀ k ∈ akeys (remove_unreachable_blocks c).m_blocks,
      Reaches (remove_unreachable_blocks c) (remove_unreachable_blocks c).m_entry k := by
    intro k hk
    rw [e1]
    exact hall1 k hk
  obtain ⟨i2, e2, x2, h2⟩ :=
    remove_useless_spec (remove_unreachable_blocks c) i1 hen1 hex1 hre1 hall1'
  intro k hk
  have := h2 k hk
  rw [e2, x2]
  exact this

/-- C1 witness instance: on the two-block CFG both removal passes keep only
    reachable, exit-reaching blocks. -/
theorem c1_removal_passes_reachability_witness :
    Reaches (remove_useless_blocks (remove_unreachable_blocks twoCfg))
      (remove_useless_blocks (remove_unreachable_blocks twoCfg)).m_entry 1 ∧
    Reaches (remove_useless_blocks (remove_unreachable_blocks twoCfg)) 1
      (remove_useless_blocks (remove_unreachable_blocks twoCfg)).m_exit :=
  c1_removal_passes_reachability twoCfg (cfgInv_of_B _ (by decide)) (by decide) (by decide)
    (Relation.ReflTransGen.single (by decide)) 1 (by decide)

/-- C1 counterexample: after `simplify()` alone, the isolated block 2 of
    `exCfgC1` is still present but not reachable from the entry (and the
    claim as stated is therefore false of `simplify()`). -/
theorem c1_simplify_counterexample :
    2 ∈ akeys (cfg_t.simplify exCfgC1).m_blocks ∧
    ¬ Reaches (cfg_t.simplify exCfgC1) (cfg_t.simplify exCfgC1).m_entry 2 := by
  constructor
  · decide
  · intro h
    have h2 : (2 : Nat) ∈ markAlive (cfg_t.simplify exCfgC1)
        (nextOf (cfg_t.simplify exCfgC1)) (cfg_t.simplify exCfgC1).m_entry :=
      mem_of_reaches_fix (by decide) (by decide) h
    revert h2
    decide

/-- C5: CFG edge symmetry (`a ∈ preds(b) ⇔ b ∈ succs(a)`) holds of a freshly
    constructed CFG and is preserved by `insert`, by the connect
    (`operator>>`) and disconnect (`operator-=`) primitives, by `remove`, and
    by `simplify`. -/
theorem c5_cfg_symmetry (c : cfg_t) (e x l a b : Nat) (hinv : CfgInv c) :
    EdgeSym (mkCfg e x) ∧
    EdgeSym (insertBlock c l) ∧
    EdgeSym (connect c a b) ∧
    EdgeSym (disconnect c a b) ∧
    EdgeSym (removeBlock c l) ∧
    EdgeSym (cfg_t.simplify c) :=
  ⟨sym_mkCfg e x, (inv_insertBlock c l hinv).sym, sym_connect c a b hinv.sym,
    sym_disconnect c a b hinv.wf hinv.sym, (inv_removeBlock_any c l hinv).sym,
    (inv_simplify c hinv).sym⟩

/-- C5 witness instance: symmetry of the concrete three-block chain CFG is
    preserved by each operation. -/
theorem c5_cfg_symmetry_witness :
    EdgeSym (mkCfg 5 6) ∧
    EdgeSym (insertBlock chain3Cfg 3) ∧
    EdgeSym (connect chain3Cfg 0 2) ∧
    EdgeSym (disconnect chain3Cfg 0 2) ∧
    EdgeSym (removeBlock chain3Cfg 3) ∧
    EdgeSym (cfg_t.simplify chain3Cfg) :=
  c5_cfg_symmetry chain3Cfg 5 6 3 0 2 (cfgInv_of_B _ (by decide))

/-- C6: during `simplify()`, merging the unique successor `n` (with unique
    predecessor `b`, `n ≠ b`) appends `n`'s statements to `b`, rewires `b` to
    `n`'s successors, deletes `n`, and moves the exit label to `b` when `n`
    was the exit; in particular, the chain CFG 0 → 1 → 2 simplifies to the
    single block 0 with entry = exit = 0 and the three statement lists
    concatenated in order. -/
theorem c6_straightline_merge :
    (∀ (c : cfg_t) (b n : Nat) (bb nb : basic_block_t),
      CfgWF c → getBlock c b = some bb → bb.m_next = [n] → n ≠ b →
      getBlock c n = some nb → nb.m_prev = [b] → n ∉ nb.m_next → n ≠ c.m_entry →
      tsOf (mergeInto c b n) b = tsOf c b ++ nb.m_ts ∧
      getBlock (mergeInto c b n) n = none ∧
      (∀ q, q ∈ nextOf (mergeInto c b n) b ↔ q ∈ nb.m_next) ∧
      (mergeInto c b n).m_exit = (if n = c.m_exit then b else c.m_exit) ∧
      (mergeInto c b n).m_entry = c.m_entry) ∧
    (akeys (cfg_t.simplify chain3Cfg).m_blocks = [0] ∧
     (cfg_t.simplify chain3Cfg).m_entry = 0 ∧
     (cfg_t.simplify chain3Cfg).m_exit = 0 ∧
     tsOf (cfg_t.simplify chain3Cfg) 0 = [10, 20, 30]) := by
  constructor
  · intro c b n bb nb hwf hbb hbnext hbn hnb hnprev hnn hne
    exact mergeInto_spec c b n bb nb hwf hbb hbnext hbn hnb hnprev hnn hne
  · refine ⟨by decide, by decide, by decide, by decide⟩

/-- C6 witness instance: one merge step on the chain CFG. -/
theorem c6_straightline_merge_witness :
    tsOf (mergeInto chain3Cfg 0 1) 0 = tsOf chain3Cfg 0 ++ [20] ∧
    getBlock (mergeInto chain3Cfg 0 1) 1 = none ∧
    (∀ q, q ∈ nextOf (mergeInto chain3Cfg 0 1) 0 ↔ q ∈ [2]) ∧
    (mergeInto chain3Cfg 0 1).m_exit = (if 1 = chain3Cfg.m_exit then 0 else chain3Cfg.m_exit) ∧
    (mergeInto chain3Cfg 0 1).m_entry = chain3Cfg.m_entry :=
  c6_straightline_merge.1 chain3Cfg 0 1 ⟨[10], [], [1]⟩ ⟨[20], [0], [2]⟩
    (cfgWF_of_B _ (by decide)) (by decide) (by decide) (by decide) (by decide)
    (by decide) (by decide) (by decide)

/-- C7: at iteration `k` of the increasing sequence on a cycle with head
    `head`, after recomputing `new_pre` as the join of the post-states of the
    head's predecessors, the loop stops with `pre[head] := new_pre` when
    `new_pre ⊑ pre`, and otherwise continues with `pre ⊔ new_pre` when
    `k ≤ widening_delay` (which is the constant 1) and with `pre ∇ new_pre`
    when `k > widening_delay`. -/
theorem c7_increasing_sequence {D : Type} (dom : AbsDom D) (τ : D → Nat → D)
    (c : cfg_t) (wto : List wto_component_t) (fuel k head : Nat)
    (body : List wto_component_t) (pre : D) (s : IState D)
    (s3 : IState D) (new_pre : D)
    (hs3 : s3 = body.foldl (fun acc x => visitComponent dom τ c wto fuel x acc)
      (transform_to_post τ c (set_pre s head pre) head pre))
    (hnew : new_pre = join_all_prevs dom c s3 head) :
    (dom.le new_pre pre = true →
      incLoop dom τ c wto (fuel + 1) k head body pre s = (set_pre s3 head new_pre, new_pre) ∧
      (incLoop dom τ c wto (fuel + 1) k head body pre s).1.pre head = new_pre) ∧
    (dom.le new_pre pre = false →
      incLoop dom τ c wto (fuel + 1) k head body pre s =
        incLoop dom τ c wto fuel (k + 1) head body
          (if k ≤ wideningDelay then dom.join pre new_pre else dom.widen pre new_pre) s3) ∧
    wideningDelay = 1 := by
  subst hs3
  subst hnew
  refine ⟨?_, ?_, rfl⟩
  · intro hle
    have heq : incLoop dom τ c wto (fuel + 1) k head body pre s =
        (set_pre (body.foldl (fun acc x => visitComponent dom τ c wto fuel x acc)
            (transform_to_post τ c (set_pre s head pre) head pre)) head
          (join_all_prevs dom c
            (body.foldl (fun acc x => visitComponent dom τ c wto fuel x acc)
              (transform_to_post τ c (set_pre s head pre) head pre)) head),
         join_all_prevs dom c
           (body.foldl (fun acc x => visitComponent dom τ c wto fuel x acc)
             (transform_to_post τ c (set_pre s head pre) head pre)) head) := by
      conv_lhs => unfold incLoop
      rw [if_pos hle]
    refine ⟨heq, ?_⟩
    rw [heq]
    show (set_pre _ head _).pre head = _
    unfold set_pre
    simp [Function.update_same]
  · intro hle
    have heq : incLoop dom τ c wto (fuel + 1) k head body pre s =
        incLoop dom τ c wto fuel (k + 1) head body
          (extrapolate dom k pre
            (join_all_prevs dom c
              (body.foldl (fun acc x => visitComponent dom τ c wto fuel x acc)
                (transform_to_post τ c (set_pre s head pre) head pre)) head))
          (body.foldl (fun acc x => visitComponent dom τ c wto fuel x acc)
            (transform_to_post τ c (set_pre s head pre) head pre)) := by
      conv_lhs => unfold incLoop
      rw [if_neg (by rw [hle]; simp)]
    rw [heq]
    unfold extrapolate
    rfl

/-- C7 witness instance: one iteration step on a concrete instance over the
    `Nat` max-domain, entering the stopping branch. -/
theorem c7_increasing_sequence_witness :
    (natDom.le
        (join_all_prevs natDom twoCfg
          (transform_to_post (fun d _ => d) twoCfg
            (set_pre ⟨fun _ => 0, fun _ => 0, false⟩ 1 1) 1 1) 1) 1 = true →
      incLoop natDom (fun d _ => d) twoCfg [] 1 1 1 [] 1 ⟨fun _ => 0, fun _ => 0, false⟩ =
        (set_pre
          (transform_to_post (fun d _ => d) twoCfg
            (set_pre ⟨fun _ => 0, fun _ => 0, false⟩ 1 1) 1 1) 1
          (join_all_prevs natDom twoCfg
            (transform_to_post (fun d _ => d) twoCfg
              (set_pre ⟨fun _ => 0, fun _ => 0, false⟩ 1 1) 1 1) 1),
         join_all_prevs natDom twoCfg
           (transform_to_post (fun d _ => d) twoCfg
             (set_pre ⟨fun _ => 0, fun _ => 0, false⟩ 1 1) 1 1) 1) ∧
      (incLoop natDom (fun d _ => d) twoCfg [] 1 1 1 [] 1
        ⟨fun _ => 0, fun _ => 0, false⟩).1.pre 1 =
        join_all_prevs natDom twoCfg
          (transform_to_post (fun d _ => d) twoCfg
            (set_pre ⟨fun _ => 0, fun _ => 0, false⟩ 1 1) 1 1) 1) ∧
    (natDom.le
        (join_all_prevs natDom twoCfg
          (transform_to_post (fun d _ => d) twoCfg
            (set_pre ⟨fun _ => 0, fun _ => 0, false⟩ 1 1) 1 1) 1) 1 = false →
      incLoop natDom (fun d _ => d) twoCfg [] 1 1 1 [] 1 ⟨fun _ => 0, fun _ => 0, false⟩ =
        incLoop natDom (fun d _ => d) twoCfg [] 0 2 1 []
          (if 1 ≤ wideningDelay then natDom.join 1
              (join_all_prevs natDom twoCfg
                (transform_to_post (fun d _ => d) twoCfg
                  (set_pre ⟨fun _ => 0, fun _ => 0, false⟩ 1 1) 1 1) 1)
            else natDom.widen 1
              (join_all_prevs natDom twoCfg
                (transform_to_post (fun d _ => d) twoCfg
                  (set_pre ⟨fun _ => 0, fun _ => 0, false⟩ 1 1) 1 1) 1))
          (transform_to_post (fun d _ => d) twoCfg
            (set_pre ⟨fun _ => 0, fun _ => 0, false⟩ 1 1) 1 1)) ∧
    wideningDelay = 1 :=
  c7_increasing_sequence natDom (fun d _ => d) twoCfg [] 0 1 1 [] 1
    ⟨fun _ => 0, fun _ => 0, false⟩ _ _ rfl rfl

/-- C4: for A = `{x ∈ [0,10], y ∈ [0,10]}` and B = `{x ∈ [20,30],
    y ∈ [20,30], y − x ≤ 0}`, the join `A ⊔ B` entails `y − x ≤ 30`,
    `x ∈ [0,30]` and `y ∈ [0,30]`: the deferred-relations step recovers the
    relation hidden in the operands' unary bounds. -/
theorem c4_join_recovers_deferred :
    (dbmA.entailsUb 100 10 = true ∧ dbmA.entailsLb 100 0 = true ∧
     dbmA.entailsUb 200 10 = true ∧ dbmA.entailsLb 200 0 = true) ∧
    (dbmB.entailsUb 100 30 = true ∧ dbmB.entailsLb 100 20 = true ∧
     dbmB.entailsUb 200 30 = true ∧ dbmB.entailsLb 200 20 = true ∧
     dbmB.entailsDiff 100 200 0 = true) ∧
    ((dbmA.join dbmB).entailsDiff 100 200 30 = true ∧
     (dbmA.join dbmB).entailsUb 100 30 = true ∧
     (dbmA.join dbmB).entailsLb 100 0 = true ∧
     (dbmA.join dbmB).entailsUb 200 30 = true ∧
     (dbmA.join dbmB).entailsLb 200 0 = true) := by decide

/-- C8: `narrow` returns bottom when either operand is bottom, returns `o`
    when `self` is top, and otherwise returns a normalized copy of `self` —
    the right operand contributes nothing in the non-trivial case. -/
theorem c8_narrow_cases (a o : SplitDBM) :
    ((a.is_bottom = true ∨ o.is_bottom = true) → a.narrow o = .bot) ∧
    (a.is_bottom = false → o.is_bottom = false → a.is_top = true → a.narrow o = o) ∧
    (a.is_bottom = false → o.is_bottom = false → a.is_top = false →
      a.narrow o = a.normalize) := by
  refine ⟨?_, ?_, ?_⟩
  · intro h
    have hb : (a.is_bottom || o.is_bottom) = true := by
      cases h with
      | inl h => simp [h]
      | inr h => simp [h]
    simp [SplitDBM.narrow, hb]
  · intro ha ho ht
    simp [SplitDBM.narrow, ha, ho, ht]
  · intro ha ho ht
    simp [SplitDBM.narrow, ha, ho, ht]

/-- C8 witness: the three cases at concrete states. -/
theorem c8_narrow_cases_witness :
    SplitDBM.narrow .bot dbmA = .bot ∧
    SplitDBM.narrow dbmTop dbmA = dbmA ∧
    SplitDBM.narrow dbmA dbmB = dbmA.normalize :=
  ⟨(c8_narrow_cases .bot dbmA).1 (Or.inl rfl),
   (c8_narrow_cases dbmTop dbmA).2.1 rfl rfl rfl,
   (c8_narrow_cases dbmA dbmB).2.2 rfl rfl rfl⟩

/-- `normalize` of a non-bottom state keeps the vertex map. -/
theorem normalize_mk_parts (vm : List (Nat × Nat)) (rm : List (Option Nat))
    (g : graph_t) (pot : List Int) (u : List Nat) :
    ∃ rm2 g2 pot2 u2,
      SplitDBM.normalize (.mk vm rm g pot u) = .mk vm rm2 g2 pot2 u2 := by
  unfold SplitDBM.normalize
  by_cases h : u.isEmpty
  · exact ⟨rm, g, pot, u, by simp [h]⟩
  · exact ⟨rm, close_incident (close_excl0 g) 0 [], pot, [], by simp [h]⟩

/-- C9: when neither state is bottom or top and `a`'s variable map is
    strictly smaller than `b`'s, `operator<=` answers `false` — regardless
    of the graphs, in particular even when the extra variables of `b` are
    isolated in `b`'s graph. -/
theorem c9_leq_size_check (avm : List (Nat × Nat)) (arm : List (Option Nat))
    (ag : graph_t) (apot : List Int) (au : List Nat)
    (ovm : List (Nat × Nat)) (orm : List (Option Nat)) (og : graph_t)
    (opot : List Int) (ou : List Nat)
    (hotop : SplitDBM.is_top (.mk ovm orm og opot ou) = false)
    (hatop : SplitDBM.is_top (.mk avm arm ag apot au) = false)
    (hlen : avm.length < ovm.length) :
    SplitDBM.leq (.mk avm arm ag apot au) (.mk ovm orm og opot ou) = false := by
  obtain ⟨rm2, g2, pot2, u2, hnorm⟩ := normalize_mk_parts avm arm ag apot au
  unfold SplitDBM.leq
  dsimp only
  rw [hotop, hatop, hnorm]
  simp [hlen]

/-- C9 witness: `dbmSmall ≤ dbmBig` is `false` although the extra variable
    `200` of `dbmBig` is isolated (no incident edges). -/
theorem c9_leq_size_check_witness :
    SplitDBM.leq dbmSmall dbmBig = false ∧
    (succsOf ⟨3, [((0, 1), 5), ((1, 0), 0)]⟩ 2).isEmpty = true ∧
    (predsOf ⟨3, [((0, 1), 5), ((1, 0), 0)]⟩ 2).isEmpty = true :=
  ⟨c9_leq_size_check [(100, 1)] [none, some 100] ⟨2, [((0, 1), 5), ((1, 0), 0)]⟩
      [0, 0] [] [(100, 1), (200, 2)] [none, some 100, some 200]
      ⟨3, [((0, 1), 5), ((1, 0), 0)]⟩ [0, 0, 0] [] rfl rfl (by decide),
   by decide, by decide⟩

/-- C10: bottom is absorbing for the transfer primitives `operator+=`,
    `assign`, `set` and `operator-=`: on a bottom state each returns
    immediately with the state still bottom. -/
theorem c10_bottom_absorbing (cst : linear_constraint_t) (x v : Nat)
    (e : linear_expression_t) (iv : interval_t) :
    SplitDBM.addCst .bot cst = .bot ∧
    SplitDBM.assign .bot x e = .bot ∧
    SplitDBM.set .bot x iv = .bot ∧
    SplitDBM.forgetVar .bot v = .bot := by
  refine ⟨?_, rfl, rfl, rfl⟩
  unfold SplitDBM.addCst
  split
  · rfl
  · rfl

/-- In the all-bounded, overflow-free case the term loop of
    `diffcsts_of_assign` never aborts: it records `(y, bound)` for each
    non-negative-coefficient term and accumulates `bound · coeff` into the
    residual for every term. -/
theorem diffcstsOfAssignLoop_bounded (vm : List (Nat × Nat)) (g : graph_t) (ub : Bool)
    (l : List (Nat × Int)) :
    (∀ t ∈ l, inW t.2 ∧ ∃ b, boundDir vm g ub t.1 t.2 = some b ∧ inW b) →
    ∀ (terms : List (Nat × Int)) (residual : Int),
      diffcstsOfAssignLoop vm g ub l none terms residual =
        some (none,
          terms ++ (l.filter (fun t => decide (0 ≤ t.2))).map
            (fun t => (t.1, (boundDir vm g ub t.1 t.2).getD 0)),
          l.foldl (fun r t => r + (boundDir vm g ub t.1 t.2).getD 0 * t.2) residual) := by
  induction l with
  | nil => intro _ terms residual; simp [diffcstsOfAssignLoop]
  | cons t rest ih =>
    intro h terms residual
    obtain ⟨y, c⟩ := t
    obtain ⟨hw, b, hb, hbW⟩ := h (y, c) (List.mem_cons_self _ _)
    have hrest := ih (fun t ht => h t (List.mem_cons_of_mem _ ht))
    have hovf : ¬ (c < wtMin ∨ wtMax < c) := by
      unfold inW at hw
      omega
    by_cases hneg : c < 0
    · have hbd : (if ub then (boundsOf vm g y).1 else (boundsOf vm g y).2) = some b := by
        rw [← hb]
        unfold boundDir
        rw [if_pos hneg]
      simp only [diffcstsOfAssignLoop, convert_NtoW]
      rw [if_neg (by simpa using hovf), if_pos hneg, hbd]
      dsimp only
      rw [hrest terms (residual + b * c)]
      simp [List.filter_cons, hb, Int.not_le.mpr hneg]
    · have hbd : (if ub then (boundsOf vm g y).2 else (boundsOf vm g y).1) = some b := by
        rw [← hb]
        unfold boundDir
        rw [if_neg hneg]
      have hovb : ¬ (b < wtMin ∨ wtMax < b) := by
        unfold inW at hbW
        omega
      simp only [diffcstsOfAssignLoop, convert_NtoW]
      rw [if_neg (by simpa using hovf), if_neg hneg, hbd]
      dsimp only
      rw [if_neg (by simpa using hovb)]
      rw [hrest (terms ++ [(y, b)]) (residual + b * c)]
      simp [List.filter_cons, hb, Int.not_lt.mp hneg, List.append_assoc]

/-- C2 (amended): when the constant fits the weight type and every term has
    the required finite bound, itself fitting the weight type, the routine
    emits, for each term with non-negative coefficient, the constraint
    `(y, residual − bound_of_y)` — the bound is subtracted unscaled, while
    negative-coefficient terms only feed the residual and emit nothing. -/
theorem c2_diffcsts_of_assign_bounded (vm : List (Nat × Nat)) (g : graph_t)
    (x : Nat) (exp : linear_expression_t) (ub : Bool)
    (hc : inW exp.constant)
    (hterms : ∀ t ∈ exp.terms, inW t.2 ∧
      ∃ b, boundDir vm g ub t.1 t.2 = some b ∧ inW b) :
    diffcsts_of_assign vm g x exp ub =
      (exp.terms.filter (fun t => decide (0 ≤ t.2))).map
        (fun t => (t.1, residualSpec vm g ub exp - (boundDir vm g ub t.1 t.2).getD 0)) := by
  have hovf : (convert_NtoW exp.constant).2 = false := by
    have : ¬ (exp.constant < wtMin ∨ wtMax < exp.constant) := by
      unfold inW at hc
      omega
    simp [convert_NtoW, this]
  unfold diffcsts_of_assign
  simp only [convert_NtoW, decide_eq_true_eq] at hovf ⊢
  rw [if_neg (by simpa using hovf)]
  rw [diffcstsOfAssignLoop_bounded vm g ub exp.terms hterms [] exp.constant]
  unfold residualSpec
  simp [List.map_map, Function.comp]

/-- C2 witness: `y ∈ [0,5]`, `x := 2·y + 3`, upper bounds: the residual is
    `3 + 5·2 = 13` and the emitted constraint is `x − y ≤ 13 − 5 = 8`. -/
theorem c2_diffcsts_of_assign_bounded_witness :
    diffcsts_of_assign [(200, 1)] ⟨2, [((0, 1), 5), ((1, 0), 0)]⟩ 300
      ⟨3, [(200, 2)]⟩ true = [(200, 8)] := by
  rw [c2_diffcsts_of_assign_bounded _ _ _ _ _ (by decide) (by decide)]
  rfl

/-- C2 counterexample: for `y ∈ [0,5]` and `x := 2·y` (upper bounds) the
    code emits `x − y ≤ 5` (`residual − bound`), not
    `x − y ≤ residual − coeff·bound = 10 − 10 = 0` as the claim predicts. -/
theorem c2_coeff_scaling_counterexample :
    diffcsts_of_assign [(200, 1)] ⟨2, [((0, 1), 5), ((1, 0), 0)]⟩ 300
      ⟨0, [(200, 2)]⟩ true = [(200, 5)] ∧
    ¬ (200, (0 : Int)) ∈ diffcsts_of_assign [(200, 1)]
      ⟨2, [((0, 1), 5), ((1, 0), 0)]⟩ 300 ⟨0, [(200, 2)]⟩ true := by decide

/-- A term whose coefficient conversion overflows is skipped by the term
    loop of `diffcsts_of_assign` (the `continue` at split_dbm.cpp:116-118):
    the outcome is that of the term list with the term removed, whatever the
    surrounding terms and accumulator. -/
theorem diffcstsOfAssignLoop_skip (vm : List (Nat × Nat)) (g : graph_t) (ub : Bool)
    (y : Nat) (c : Int) (hc : ¬ inW c) :
    ∀ (pre post : List (Nat × Int)) (unb : Option Nat) (terms : List (Nat × Int))
      (residual : Int),
      diffcstsOfAssignLoop vm g ub (pre ++ (y, c) :: post) unb terms residual =
      diffcstsOfAssignLoop vm g ub (pre ++ post) unb terms residual := by
  have hovf : c < wtMin ∨ wtMax < c := by
    unfold inW at hc
    omega
  intro pre
  induction pre with
  | nil =>
    intro post unb terms residual
    simp only [List.nil_append]
    simp only [diffcstsOfAssignLoop, convert_NtoW]
    rw [if_pos (by simpa using hovf)]
  | cons p pre ih =>
    intro post unb terms residual
    obtain ⟨py, pn⟩ := p
    simp only [List.cons_append]
    simp only [diffcstsOfAssignLoop, convert_NtoW]
    split
    · exact ih post unb terms residual
    · split
      · split
        · rfl
        · exact ih post unb terms _
      · split
        · split
          · rfl
          · exact ih post (some py) terms residual
        · split
          · exact ih post unb terms residual
          · exact ih post unb _ _

/-- C3 (amended): an overflowing constant abandons the whole expression and
    yields no constraints, while an overflowing coefficient only drops that
    term — the routine behaves as if the term were absent. -/
theorem c3_overflow_behavior (vm : List (Nat × Nat)) (g : graph_t) (x : Nat)
    (exp : linear_expression_t) (ub : Bool) :
    (¬ inW exp.constant → diffcsts_of_assign vm g x exp ub = []) ∧
    (∀ pre y c post, exp.terms = pre ++ (y, c) :: post → ¬ inW c →
      diffcsts_of_assign vm g x exp ub =
        diffcsts_of_assign vm g x ⟨exp.constant, pre ++ post⟩ ub) := by
  constructor
  · intro hc
    have hovf : exp.constant < wtMin ∨ wtMax < exp.constant := by
      unfold inW at hc
      omega
    unfold diffcsts_of_assign
    simp only [convert_NtoW]
    rw [if_pos (by simpa using hovf)]
  · intro pre y c post hterms hc
    unfold diffcsts_of_assign
    dsimp only
    rw [hterms, diffcstsOfAssignLoop_skip vm g ub y c hc]

/-- C3 witness: an overflowing constant yields `[]`, and an overflowing
    first coefficient yields exactly the result of the expression without
    that term. -/
theorem c3_overflow_behavior_witness :
    diffcsts_of_assign [(200, 1)] ⟨2, [((0, 1), 7), ((1, 0), 0)]⟩ 300
      ⟨2 ^ 64, [(200, 1)]⟩ true = [] ∧
    diffcsts_of_assign [(200, 1)] ⟨2, [((0, 1), 7), ((1, 0), 0)]⟩ 300
      ⟨0, [(100, 2 ^ 64), (200, 1)]⟩ true =
      diffcsts_of_assign [(200, 1)] ⟨2, [((0, 1), 7), ((1, 0), 0)]⟩ 300
        ⟨0, [(200, 1)]⟩ true :=
  ⟨(c3_overflow_behavior _ _ _ _ _).1 (by decide),
   (c3_overflow_behavior _ _ _ _ _).2 [] 100 (2 ^ 64) [(200, 1)] rfl (by decide)⟩

/-- C3 counterexample: with terms `[(100, 2⁶⁴), (200, 1)]` — the first
    coefficient's conversion to `Wt` overflows — and `200 ∈ [0,7]`, the
    routine still emits `(200, 0)`: a coefficient overflow does not abandon
    the whole expression. -/
theorem c3_coeff_overflow_counterexample :
    ¬ inW (2 ^ 64) ∧
    diffcsts_of_assign [(200, 1)] ⟨2, [((0, 1), 7), ((1, 0), 0)]⟩ 300
      ⟨0, [(100, 2 ^ 64), (200, 1)]⟩ true = [(200, 0)] := by decide
